import Mathlib

/-!
Verification of the `lsmtree` sparse Merkle tree implementation.

This file is a shallow embedding of the Rust sources (`src/lib.rs`,
`src/tree_hasher.rs`, `src/proofs.rs`, `src/smt.rs`) into Lean:

* byte strings are `List Nat` (each element is one byte value);
* the hash function is a parameter (`Hasher`), mirroring the generic `H: Digest`
  parameter of the Rust code; its fixed output size is `Hasher.size`;
* the two key/value stores are association lists with overwrite semantics,
  matching the `KVStore` contract used by the tree (`get` returning `none`
  for a missing key, `set` overwriting, `remove` deleting);
* Rust code that can panic (out-of-range slicing / indexing, `Option::unwrap`,
  and similar) is modelled in the `Option` monad, `none` meaning a panic;
* loops are modelled by fuel-indexed structural recursion, where the fuel is
  the (static) iteration bound of the corresponding Rust `for` loop;
* `Vec::push` accumulation followed by `Vec::reverse` (used by the side-nodes
  walk) is modelled by cons-accumulation, which directly builds the reversed,
  i.e. returned, list.
-/

/-- Byte strings: one `Nat` per byte. -/
abbrev Bytes := List Nat

/-- The hash function parameter of the tree: `size` is the digest output size
in bytes (`path_size` / `output_size` in the source), `hash` the one-shot
digest. -/
structure Hasher where
  size : Nat
  hash : Bytes → Bytes

/-- The digest contract the Rust `digest::Digest` trait guarantees: every
output has exactly `size` bytes. -/
def HashLen (hs : Hasher) : Prop :=
  ∀ d : Bytes, (hs.hash d).length = hs.size

/-- `smt.rs`: `pub(crate) const RIGHT: usize = 1;`. -/
def RIGHT : Nat := 1

/-- `smt.rs`: `pub(crate) const DEFAULT_VALUE: Bytes = Bytes::new();`. -/
def DEFAULT_VALUE : Bytes := []

/-- `tree_hasher.rs`: `LEAF_PREFIX = [0]`. -/
def LEAF_PREFIX : Bytes := [0]

/-- `tree_hasher.rs`: `NODE_PREFIX = [1]`. -/
def NODE_PREFIX : Bytes := [1]

/-- The tree hasher's zero value: `vec![0; path_size]`, the canonical
placeholder for an empty subtree. -/
def placeholder (hs : Hasher) : Bytes := List.replicate hs.size 0

/-- `lib.rs` `get_bit_at_from_msb`: reads `data[position / 8]`, which panics
when the index is out of range (modelled by `none`), and tests the bit at
offset `position % 8` from the most significant bit. -/
def get_bit_at_from_msb (data : Bytes) (position : Nat) : Option Nat :=
  match data.get? (position / 8) with
  | some b => some (if b &&& (1 <<< (8 - 1 - position % 8)) > 0 then 1 else 0)
  | none => none

/-- `lib.rs` `set_bit_at_from_msb`: ORs the bit at the given MSB offset into
`data[position / 8]` (panic on out-of-range index modelled by `none`). -/
def set_bit_at_from_msb (data : Bytes) (position : Nat) : Option Bytes :=
  match data.get? (position / 8) with
  | some b => some (data.set (position / 8) (b ||| (1 <<< (8 - 1 - position % 8))))
  | none => none

/-- `lib.rs` `count_set_bits`: counts the set bits of `data` by probing all
`data.len() * 8` positions (all of which are in range, so no panic). -/
def count_set_bits (data : Bytes) : Nat :=
  (List.range (data.length * 8)).countP fun i =>
    decide (get_bit_at_from_msb data i = some 1)

/-- `lib.rs` `count_common_prefix`, one loop iteration at bit `i`: compare the
bits, stop at the first difference.  Reading a bit of `b` can panic when `b`
is shorter than `a` (modelled by `none`).  The fuel is `a.len() * 8`, the
loop bound. -/
def commonPrefixGo (a b : Bytes) : Nat → Nat → Nat → Option Nat
  | _, cnt, 0 => some cnt
  | i, cnt, fuel + 1 =>
    match get_bit_at_from_msb a i, get_bit_at_from_msb b i with
    | some x, some y => if x = y then commonPrefixGo a b (i + 1) (cnt + 1) fuel else some cnt
    | _, _ => none

/-- `lib.rs` `count_common_prefix` (renamed: the bit positions run over
`a.len() * 8`). -/
def commonPrefixCount (a b : Bytes) : Option Nat :=
  commonPrefixGo a b 0 0 (a.length * 8)

/-- `tree_hasher.rs` `digest_leaf`: serialize `0x00 ‖ path ‖ leaf_data` and
return `(hash, serialized)`. -/
def digest_leaf (hs : Hasher) (path leaf_data : Bytes) : Bytes × Bytes :=
  let value := LEAF_PREFIX ++ path ++ leaf_data
  (hs.hash value, value)

/-- `tree_hasher.rs` `digest_leaf_hash`: the hash component only. -/
def digest_leaf_hash (hs : Hasher) (path leaf_data : Bytes) : Bytes :=
  (digest_leaf hs path leaf_data).1

/-- `tree_hasher.rs` `digest_node`: serialize `0x01 ‖ left ‖ right` and return
`(hash, serialized)`. -/
def digest_node (hs : Hasher) (left_data right_data : Bytes) : Bytes × Bytes :=
  let value := NODE_PREFIX ++ left_data ++ right_data
  (hs.hash value, value)

/-- `tree_hasher.rs` `digest_left_node`: right child is the placeholder. -/
def digest_left_node (hs : Hasher) (left_data : Bytes) : Bytes × Bytes :=
  digest_node hs left_data (placeholder hs)

/-- `tree_hasher.rs` `digest_right_node`: left child is the placeholder. -/
def digest_right_node (hs : Hasher) (right_data : Bytes) : Bytes × Bytes :=
  digest_node hs (placeholder hs) right_data

/-- `tree_hasher.rs` `parse_leaf`: slices `data[1 .. 1+S]` and `data[1+S ..]`.
Both slice operations panic (here: `none`) when `data` is shorter than
`1 + S`. -/
def parse_leaf (hs : Hasher) (data : Bytes) : Option (Bytes × Bytes) :=
  if 1 + hs.size ≤ data.length then
    some ((data.drop 1).take hs.size, data.drop (1 + hs.size))
  else none

/-- `tree_hasher.rs` `parse_node`: on `Some data` slices
`data[1 .. 1+S]` and `data[1+S .. 1+2S]` (panic when `data` is shorter than
`1 + 2S`); on `None` returns two empty byte strings. -/
def parse_node (hs : Hasher) (data : Option Bytes) : Option (Bytes × Bytes) :=
  match data with
  | some d =>
    if 1 + hs.size + hs.size ≤ d.length then
      some ((d.drop 1).take hs.size, (d.drop (1 + hs.size)).take hs.size)
    else none
  | none => some ([], [])

/-- `tree_hasher.rs` `is_leaf`: on `Some data` compares `data[..1]` with
`LEAF_PREFIX`; the slice `data[..1]` panics (here: `none`) when `data` is
empty.  On `None` it returns `false`. -/
def is_leaf (data : Option Bytes) : Option Bool :=
  match data with
  | some d =>
    if 1 ≤ d.length then some (decide (d.take 1 = LEAF_PREFIX)) else none
  | none => some false

/-- The key/value store consumed by the engine (`KVStore`), modelled as an
association list; the engine-visible operations never fail in the model. -/
abbrev Store := List (Bytes × Bytes)

/-- `KVStore::get`: `none` when the key is absent. -/
def Store.get : Store → Bytes → Option Bytes
  | [], _ => none
  | (k, v) :: rest, key => if k = key then some v else Store.get rest key

/-- `KVStore::set`: overwrite the binding of `key` (insert when absent). -/
def Store.set : Store → Bytes → Bytes → Store
  | [], key, value => [(key, value)]
  | (k, v) :: rest, key, value =>
    if k = key then (key, value) :: rest else (k, v) :: Store.set rest key value

/-- `KVStore::remove`: delete the binding of `key` (no-op when absent; the
engine never removes an absent key under correct operation). -/
def Store.remove : Store → Bytes → Store
  | [], _ => []
  | (k, v) :: rest, key => if k = key then rest else (k, v) :: Store.remove rest key

/-- `proofs.rs` `SparseMerkleProof` (the `PhantomData` marker is dropped). -/
structure SparseMerkleProof where
  side_nodes : List Bytes
  non_membership_leaf_data : Option Bytes
  sibling_data : Option Bytes
deriving DecidableEq

/-- `proofs.rs` `SparseCompactMerkleProof`. -/
structure SparseCompactMerkleProof where
  side_nodes : List Bytes
  non_membership_leaf_data : Option Bytes
  bitmask : Bytes
  num_side_nodes : Nat
  sibling_data : Option Bytes
deriving DecidableEq

/-- `proofs.rs` `check_non_membership_proofs_size`: `true` means the size is
WRONG (the field is `Some` and its length differs from `1 + 2S`). -/
def check_non_membership_proofs_size (hs : Hasher) (p : SparseMerkleProof) : Bool :=
  match p.non_membership_leaf_data with
  | some d => decide (d.length ≠ LEAF_PREFIX.length + hs.size + hs.size)
  | none => false

/-- `proofs.rs` `SparseMerkleProof::sanity_check`. -/
def sanity_check (hs : Hasher) (p : SparseMerkleProof) : Bool :=
  if p.side_nodes.length > hs.size * 8 ∨ check_non_membership_proofs_size hs p then
    false
  else if p.side_nodes.any fun side_node => decide (side_node.length ≠ hs.size) then
    false
  else if p.side_nodes.isEmpty then
    true
  else
    match p.sibling_data, p.side_nodes with
    | some sibling_data, sn0 :: _ => decide (sn0 = hs.hash sibling_data)
    | _, _ => true

/-- `proofs.rs` `verify_proof`, root-recomputation loop.  IMPORTANT: this is a
faithful model of the source, including its variable shadowing — the closure
in `verify_proof` is `|(idx, path)| ...` where the binder `path` shadows the
hashed key, so `get_bit_at_from_msb(path, num - 1 - idx)` reads the direction
bit from the SIDE NODE, not from the key path.  `node = path.slice(..S)`
panics when the side node is shorter than `S` bytes. -/
def verify_fold (hs : Hasher) (num : Nat) : List Bytes → Nat → Bytes → Option Bytes
  | [], _, current_hash => some current_hash
  | path :: rest, idx, current_hash =>
    if hs.size ≤ path.length then
      let node := path.take hs.size
      match get_bit_at_from_msb path (num - 1 - idx) with
      | some bit =>
        if bit = RIGHT then
          verify_fold hs num rest (idx + 1) (digest_node hs node current_hash).1
        else
          verify_fold hs num rest (idx + 1) (digest_node hs current_hash node).1
      | none => none
    else none

/-- `proofs.rs` `verify_proof` (also reachable as `SparseMerkleProof::verify`):
determine the starting leaf hash, then replay the side nodes.  `none` models a
panic; `some b` is the returned boolean. -/
def verify_proof (hs : Hasher) (p : SparseMerkleProof) (root key value : Bytes) :
    Option Bool :=
  let path := hs.hash key
  if sanity_check hs p = false then some false
  else
    let start : Option (Option Bytes) :=
      if value = DEFAULT_VALUE then
        match p.non_membership_leaf_data with
        | some data =>
          match parse_leaf hs data with
          | some (actual_path, value_hash) =>
            if actual_path = path then some none
            else some (some (digest_leaf_hash hs actual_path value_hash))
          | none => none
        | none => some (some (placeholder hs))
      else some (some (digest_leaf_hash hs path (hs.hash value)))
    match start with
    | none => none
    | some none => some false
    | some (some current_hash) =>
      match verify_fold hs p.side_nodes.length p.side_nodes 0 current_hash with
      | some final => some (decide (final = root))
      | none => none

/-- `proofs.rs` `verify_proof_with_updates`, root-recomputation loop.  Unlike
`verify_fold` this one reads the direction bits from the key path (the closure
binder there is `side_node`, so no shadowing), and records every
`(hash, serialized)` pair it produces. -/
def verify_updates_fold (hs : Hasher) (path : Bytes) (num : Nat) :
    List Bytes → Nat → Bytes → List (Bytes × Bytes) → Option (Bytes × List (Bytes × Bytes))
  | [], _, current_hash, updates => some (current_hash, updates)
  | side_node :: rest, idx, current_hash, updates =>
    if hs.size ≤ side_node.length then
      let node := side_node.take hs.size
      match get_bit_at_from_msb path (num - 1 - idx) with
      | some bit =>
        let hd := if bit = RIGHT then digest_node hs node current_hash
                  else digest_node hs current_hash node
        verify_updates_fold hs path num rest (idx + 1) hd.1 (updates ++ [(hd.1, hd.2)])
      | none => none
    else none

/-- `proofs.rs` `verify_proof_with_updates`. -/
def verify_proof_with_updates (hs : Hasher) (p : SparseMerkleProof)
    (root key value : Bytes) : Option (Bool × List (Bytes × Bytes)) :=
  let path := hs.hash key
  if sanity_check hs p = false then some (false, [])
  else
    let start : Option (Option (Bytes × List (Bytes × Bytes))) :=
      if value = DEFAULT_VALUE then
        match p.non_membership_leaf_data with
        | some data =>
          match parse_leaf hs data with
          | some (actual_path, value_hash) =>
            if actual_path = path then some none
            else
              let hd := digest_leaf hs actual_path value_hash
              some (some (hd.1, [(hd.1, hd.2)]))
          | none => none
        | none => some (some (placeholder hs, []))
      else
        let hd := digest_leaf hs path (hs.hash value)
        some (some (hd.1, [(hd.1, hd.2)]))
    match start with
    | none => none
    | some none => some (false, [])
    | some (some (current_hash, updates)) =>
      match verify_updates_fold hs path p.side_nodes.length p.side_nodes 0 current_hash updates with
      | some (final, updates) => some (decide (final = root), updates)
      | none => none

/-- `proofs.rs` `compact`, side-node pass: slice each side node to `S` bytes
(panic when shorter), set the bitmask bit for placeholder entries and drop
them, keep the others. -/
def compact_go (hs : Hasher) : List Bytes → Nat → Bytes → Option (Bytes × List Bytes)
  | [], _, bit_mask => some (bit_mask, [])
  | node :: rest, idx, bit_mask =>
    if hs.size ≤ node.length then
      let node := node.take hs.size
      if node = placeholder hs then
        match set_bit_at_from_msb bit_mask idx with
        | some bit_mask => compact_go hs rest (idx + 1) bit_mask
        | none => none
      else
        match compact_go hs rest (idx + 1) bit_mask with
        | some (m, l) => some (m, node :: l)
        | none => none
    else none

/-- `proofs.rs` `SparseMerkleProof::compact` (and the move variant
`compact_into`, which computes the same result): sanity-check, then compact
the side-node list over a zeroed bitmask of `ceil(len / 8)` bytes (the source
computes the length through `f64`, which is exact for any feasible length).
`some (Except.error ())` is `Err(BadProof)`. -/
def compact (hs : Hasher) (p : SparseMerkleProof) :
    Option (Except Unit SparseCompactMerkleProof) :=
  if sanity_check hs p = false then some (Except.error ())
  else
    match compact_go hs p.side_nodes 0 (List.replicate ((p.side_nodes.length + 7) / 8) 0) with
    | some (bit_mask, compacted) =>
      some (Except.ok ⟨compacted, p.non_membership_leaf_data, bit_mask,
        p.side_nodes.length, p.sibling_data⟩)
    | none => none

/-- `proofs.rs` `SparseCompactMerkleProof::sanity_check`.  The third condition
subtracts `count_set_bits(bitmask)` from `num_side_nodes` in `usize`
arithmetic; the comparison is modelled over `ℤ`, which agrees with the
release-mode (wrapping) semantics for every feasible list length. -/
def compact_sanity_check (hs : Hasher) (c : SparseCompactMerkleProof) : Bool :=
  if c.num_side_nodes > hs.size * 8 ∨
      c.bitmask.length ≠ (c.num_side_nodes + 7) / 8 ∨
      (c.num_side_nodes > 0 ∧
        (c.side_nodes.length : ℤ) ≠ (c.num_side_nodes : ℤ) - (count_set_bits c.bitmask : ℤ)) then
    false
  else true

/-- `proofs.rs` `decompact`, reconstruction loop over `0 .. num_side_nodes`:
a set bitmask bit emits the placeholder, a clear bit consumes
`side_nodes[position]` (panic — `none` — when the list runs out). -/
def decompact_go (hs : Hasher) (bitmask : Bytes) (side_nodes : List Bytes) :
    Nat → Nat → Nat → Option (List Bytes)
  | _, _, 0 => some []
  | idx, position, fuel + 1 =>
    match get_bit_at_from_msb bitmask idx with
    | none => none
    | some bit =>
      if bit = 1 then
        match decompact_go hs bitmask side_nodes (idx + 1) position fuel with
        | some rest => some (placeholder hs :: rest)
        | none => none
      else
        match side_nodes.get? position with
        | some sn =>
          match decompact_go hs bitmask side_nodes (idx + 1) (position + 1) fuel with
          | some rest => some (sn :: rest)
          | none => none
        | none => none

/-- `proofs.rs` `SparseCompactMerkleProof::decompact` (and `decompact_into`,
which computes the same result). -/
def decompact (hs : Hasher) (c : SparseCompactMerkleProof) :
    Option (Except Unit SparseMerkleProof) :=
  if compact_sanity_check hs c = false then some (Except.error ())
  else
    match decompact_go hs c.bitmask c.side_nodes 0 0 c.num_side_nodes with
    | some nodes => some (Except.ok ⟨nodes, c.non_membership_leaf_data, c.sibling_data⟩)
    | none => none

/-- `proofs.rs` `SparseCompactMerkleProof::verify`:
`decompact().map(|p| p.verify(..)).unwrap_or(false)`. -/
def compact_verify (hs : Hasher) (c : SparseCompactMerkleProof)
    (root key value : Bytes) : Option Bool :=
  match decompact hs c with
  | some (Except.ok p) => verify_proof hs p root key value
  | some (Except.error _) => some false
  | none => none

/-- `smt.rs`: the sparse Merkle tree (the `TreeHasher` is carried separately
as the `hs : Hasher` parameter; its zero value is always
`vec![0; path_size]` = `placeholder hs`). -/
structure SMT where
  nodes : Store
  values : Store
  root : Bytes
deriving DecidableEq

/-- `smt.rs` `depth()` = `path_size * 8`, the number of path bits. -/
def depth (hs : Hasher) : Nat := hs.size * 8

/-- `smt.rs`: the result record of `side_nodes_for_root`. -/
structure UpdateResult where
  side_nodes : List Bytes
  path_nodes : List Bytes
  sibling_data : Option Bytes
  current_data : Option Bytes
deriving DecidableEq

/-- `smt.rs` `side_nodes_for_root`, the descent loop (`for i in 0..depth`).
The accumulators are cons-built, i.e. they hold the deepest entry first and
therefore equal the reversed vectors the source returns.  Fuel is
`depth - i`. -/
def side_nodes_go (hs : Hasher) (nodes : Store) (path : Bytes) (get_sibling_data : Bool) :
    Nat → Option Bytes → List Bytes → List Bytes → Nat → Option UpdateResult
  | _, current_data, side_acc, path_acc, 0 =>
    some ⟨side_acc, path_acc, none, current_data⟩
  | i, current_data, side_acc, path_acc, fuel + 1 =>
    match parse_node hs current_data with
    | none => none
    | some (left_node, right_node) =>
      match get_bit_at_from_msb path i with
      | none => none
      | some bit =>
        let sn := if bit = RIGHT then (left_node, right_node) else (right_node, left_node)
        if sn.2 = placeholder hs then
          if get_sibling_data then
            some ⟨sn.1 :: side_acc, sn.2 :: path_acc, Store.get nodes sn.1, none⟩
          else
            some ⟨sn.1 :: side_acc, sn.2 :: path_acc, none, none⟩
        else
          let current_data := Store.get nodes sn.2
          match is_leaf current_data with
          | none => none
          | some true =>
            if get_sibling_data then
              some ⟨sn.1 :: side_acc, sn.2 :: path_acc, Store.get nodes sn.1, current_data⟩
            else
              some ⟨sn.1 :: side_acc, sn.2 :: path_acc, none, current_data⟩
          | some false =>
            side_nodes_go hs nodes path get_sibling_data (i + 1) current_data
              (sn.1 :: side_acc) (sn.2 :: path_acc) fuel

/-- `smt.rs` `side_nodes_for_root`: empty walk for a placeholder root, a
one-node walk when the root is a leaf, otherwise the descent loop. -/
def side_nodes_for_root (hs : Hasher) (nodes : Store) (path root : Bytes)
    (get_sibling_data : Bool) : Option UpdateResult :=
  if root = placeholder hs then some ⟨[], [root], none, none⟩
  else
    let current_data := Store.get nodes root
    match is_leaf current_data with
    | none => none
    | some true => some ⟨[], [root], none, current_data⟩
    | some false =>
      side_nodes_go hs nodes path get_sibling_data 0 current_data [] [root] (depth hs)

/-- `smt.rs` `remove_with_side_nodes`, the bottom-up side-node loop.  The
threaded state is `(current_hash, current_data, non_placeholder_reached)`;
`current_hash`/`current_data` start empty.  `num` is the total number of side
nodes (`side_nodes_num`), `idx` the enumeration index. -/
def remove_go (hs : Hasher) (path : Bytes) (num : Nat) :
    List Bytes → Nat → Bytes × Bytes × Bool → Store → Option (Bytes × Store)
  | [], _, st, nodes => some (st.1, nodes)
  | side_node :: rest, idx, (current_hash, current_data, npr), nodes =>
    let first : Option (Bytes × Bytes × Bool × Bool) :=
      if current_data = ([] : Bytes) then
        match is_leaf (Store.get nodes side_node) with
        | none => none
        | some true => some (side_node, side_node, npr, true)
        | some false => some (current_hash, placeholder hs, true, false)
      else some (current_hash, current_data, npr, false)
    match first with
    | none => none
    | some (current_hash, current_data, npr, skip) =>
      if skip then
        remove_go hs path num rest (idx + 1) (current_hash, current_data, npr) nodes
      else if npr = false ∧ side_node = placeholder hs then
        remove_go hs path num rest (idx + 1) (current_hash, current_data, npr) nodes
      else
        match get_bit_at_from_msb path (num - idx - 1) with
        | none => none
        | some bit =>
          let hd := if bit = RIGHT then digest_node hs side_node current_data
                    else digest_node hs current_data side_node
          remove_go hs path num rest (idx + 1) (hd.1, hd.1, true) (Store.set nodes hd.1 hd.2)

/-- `smt.rs` `remove_with_side_nodes`: early `Ok(None)` returns for an absent
key, otherwise orphan the path nodes and rebuild bottom-up.  The result is
`(new_root?, mutated tree)`; the `old_leaf_data.unwrap()` panic is `none`. -/
def remove_with_side_nodes (hs : Hasher) (t : SMT) (path : Bytes)
    (side_nodes path_nodes : List Bytes) (old_leaf_data : Option Bytes) :
    Option (Option Bytes × SMT) :=
  match path_nodes.head? with
  | none => none
  | some p0 =>
    if p0 = placeholder hs then some (none, t)
    else
      match old_leaf_data with
      | none => none
      | some old =>
        match parse_leaf hs old with
        | none => none
        | some (actual_path, _) =>
          if path ≠ actual_path then some (none, t)
          else
            let nodes := path_nodes.foldl Store.remove t.nodes
            match remove_go hs path side_nodes.length side_nodes 0 ([], [], false) nodes with
            | none => none
            | some (current_hash, nodes) =>
              let current_hash :=
                if current_hash = ([] : Bytes) then placeholder hs else current_hash
              some (some current_hash, { t with nodes := nodes })

/-- `smt.rs` `update_with_side_notes`, the climb loop (`for i in 0..depth`).
In the source `current_data` always equals `current_hash` at the top of an
iteration (it is re-assigned to `current_hash` after every write), so a single
`current` value is threaded.  `offset` is `depth - side_nodes.len()`; fuel is
`depth - i`. -/
def update_loop (hs : Hasher) (path : Bytes) (side_nodes : List Bytes)
    (common_prefix_count dep offset : Nat) :
    Nat → Bytes → Store → Nat → Option (Bytes × Store)
  | _, current, nodes, 0 => some (current, nodes)
  | i, current, nodes, fuel + 1 =>
    if offset ≤ i then
      match side_nodes.get? (i - offset) with
      | none => none
      | some side_node =>
        match get_bit_at_from_msb path (dep - i - 1) with
        | none => none
        | some bit =>
          let hd := if bit = RIGHT then digest_node hs side_node current
                    else digest_node hs current side_node
          update_loop hs path side_nodes common_prefix_count dep offset (i + 1) hd.1
            (Store.set nodes hd.1 hd.2) fuel
    else
      if common_prefix_count ≠ dep ∧ dep - i - 1 < common_prefix_count then
        match get_bit_at_from_msb path (dep - i - 1) with
        | none => none
        | some bit =>
          let hd := if bit = RIGHT then digest_right_node hs current
                    else digest_left_node hs current
          update_loop hs path side_nodes common_prefix_count dep offset (i + 1) hd.1
            (Store.set nodes hd.1 hd.2) fuel
      else
        update_loop hs path side_nodes common_prefix_count dep offset (i + 1) current nodes fuel

/-- `smt.rs` `update_with_side_notes`, tail shared by all non-short-circuit
branches: orphan `path_nodes[1..]`, run the climb loop, then write the value
into the value store and return the new root. -/
def update_finish (hs : Hasher) (path value : Bytes) (side_nodes path_nodes : List Bytes)
    (common_prefix_count : Nat) (current : Bytes) (nodes values : Store) (root : Bytes) :
    Option (Bytes × SMT) :=
  let nodes := (path_nodes.drop 1).foldl Store.remove nodes
  let offset := depth hs - side_nodes.length
  match update_loop hs path side_nodes common_prefix_count (depth hs) offset 0 current nodes (depth hs) with
  | none => none
  | some (current_hash, nodes) =>
    some (current_hash, ⟨nodes, Store.set values path value, root⟩)

/-- `smt.rs` `update_with_side_notes`: write the new leaf, classify the walk
terminus (`common_prefix_count`, `old_value_hash`), then either build the
splitter node, short-circuit on an identical value hash (returning
`self.root()`, the tree's CURRENT root field), or orphan the replaced leaf;
finally run the shared tail. -/
def update_with_side_notes (hs : Hasher) (t : SMT) (path value : Bytes)
    (side_nodes path_nodes : List Bytes) (old_leaf_data : Option Bytes) :
    Option (Bytes × SMT) :=
  let value_hash := hs.hash value
  let lf := digest_leaf hs path value_hash
  let nodes0 := Store.set t.nodes lf.1 lf.2
  match path_nodes.head? with
  | none => none
  | some p0 =>
    let cpo : Option (Nat × Option Bytes) :=
      if p0 = placeholder hs then some (depth hs, none)
      else
        match old_leaf_data with
        | none => none
        | some old =>
          match parse_leaf hs old with
          | none => none
          | some (actual_path, ovh) =>
            match commonPrefixCount path actual_path with
            | none => none
            | some c => some (c, some ovh)
    match cpo with
    | none => none
    | some (common_prefix_count, old_value_hash) =>
      if common_prefix_count ≠ depth hs then
        match get_bit_at_from_msb path common_prefix_count with
        | none => none
        | some bit =>
          let hd := if bit = RIGHT then digest_node hs p0 lf.1
                    else digest_node hs lf.1 p0
          update_finish hs path value side_nodes path_nodes common_prefix_count hd.1
            (Store.set nodes0 hd.1 hd.2) t.values t.root
      else
        match old_value_hash with
        | some ovh =>
          if value_hash = ovh then some (t.root, { t with nodes := nodes0 })
          else
            update_finish hs path value side_nodes path_nodes common_prefix_count lf.1
              (Store.remove nodes0 p0) (Store.remove t.values path) t.root
        | none =>
          update_finish hs path value side_nodes path_nodes common_prefix_count lf.1
            nodes0 t.values t.root

/-- `smt.rs` `update_for_root`: run the walk, then delete
(`value == DEFAULT_VALUE`) or insert.  Returns `(new_root, mutated tree)`;
the `self.root` field itself is NOT changed here. -/
def update_for_root (hs : Hasher) (t : SMT) (key value root : Bytes) :
    Option (Bytes × SMT) :=
  let path := hs.hash key
  match side_nodes_for_root hs t.nodes path root false with
  | none => none
  | some r =>
    if value = DEFAULT_VALUE then
      match remove_with_side_nodes hs t path r.side_nodes r.path_nodes r.current_data with
      | none => none
      | some (some new_root, t') =>
        some (new_root, { t' with values := Store.remove t'.values path })
      | some (none, t') => some (root, t')
    else
      update_with_side_notes hs t path value r.side_nodes r.path_nodes r.current_data

/-- `smt.rs` `update`: `update_for_root` at the current root, then
`set_root`. -/
def update (hs : Hasher) (t : SMT) (key value : Bytes) : Option SMT :=
  match update_for_root hs t key value t.root with
  | none => none
  | some (new_root, t') => some { t' with root := new_root }

/-- `smt.rs` `remove` = `update(key, DEFAULT_VALUE)`. -/
def remove (hs : Hasher) (t : SMT) (key : Bytes) : Option SMT :=
  update hs t key DEFAULT_VALUE

/-- `smt.rs` `do_prove_for_root`: run the walk, drop empty side-node entries,
and attach the unrelated leaf bytes for a non-membership proof. -/
def do_prove_for_root (hs : Hasher) (t : SMT) (key root : Bytes)
    (is_updatable : Bool) : Option SparseMerkleProof :=
  let path := hs.hash key
  match side_nodes_for_root hs t.nodes path root is_updatable with
  | none => none
  | some r =>
    let non_empty_side_nodes := r.side_nodes.filter fun n => decide (n ≠ ([] : Bytes))
    let nmld : Option (Option Bytes) :=
      match r.current_data with
      | some leaf_data =>
        match r.path_nodes.head? with
        | none => none
        | some p0 =>
          if p0 ≠ placeholder hs then
            match parse_leaf hs leaf_data with
            | none => none
            | some (actual_path, _) =>
              if actual_path ≠ path then some (some leaf_data) else some none
          else some none
      | none => some none
    match nmld with
    | none => none
    | some non_membership_leaf_data =>
      some ⟨non_empty_side_nodes, non_membership_leaf_data, r.sibling_data⟩

/-- `smt.rs` `prove` = `do_prove_for_root(key, self.root(), false)`. -/
def prove (hs : Hasher) (t : SMT) (key : Bytes) : Option SparseMerkleProof :=
  do_prove_for_root hs t key t.root false

/-- A small concrete hasher used to instantiate the generic development on
executable examples (playing the role of the test suite's `DummyHasher`):
output size is one byte, so the tree depth is 8.  A two-byte input
`[99, x]` hashes to `[x % 256]` (a controllable key→path mapping); any other
input hashes to `1 + (fold % 251) ∈ [1, 251]`, which is never the placeholder
byte `0`. -/
def toyHash (d : Bytes) : Bytes :=
  if d.length = 2 ∧ d.head? = some 99 then [d.getD 1 0 % 256]
  else [1 + (d.foldl (fun a b => (a * 31 + b) % 251) 7) % 251]

/-- The one-byte toy hasher instance. -/
def toy : Hasher := ⟨1, toyHash⟩

/-- The toy hasher satisfies the digest length contract. -/
theorem toy_hashLen : HashLen toy := by
  intro d
  show (toyHash d).length = 1
  unfold toyHash
  split <;> rfl

/-- The empty toy tree (fresh engine: placeholder root, empty stores). -/
def toyEmpty : SMT := ⟨[], [], placeholder toy⟩

/-- C7, counterexample: on `Some(<empty byte string>)` the source `is_leaf`
evaluates `data[..1]`, an out-of-range slice, and panics (`none` in the
model) instead of returning `false` as the claim states. -/
theorem C7_cex : is_leaf (some ([] : Bytes)) = none ∧
    is_leaf (some ([] : Bytes)) ≠ some false := by
  exact ⟨rfl, by decide⟩

/-- C4, counterexample: the compact-proof sanity check skips the
side-node-count condition when `num_side_nodes == 0`, so a compact proof with
`num_side_nodes = 0` and one leftover stored side node passes the check and
`decompact` returns a proof (with the leftover entry silently dropped) instead
of `BadProof`, although `|side_nodes| = 1 ≠ 0 - popcount(bitmask) = 0`. -/
theorem C4_cex :
    ((([[5]] : List Bytes).length : ℤ) ≠ ((0 : Nat) : ℤ) - ((count_set_bits ([] : Bytes)) : ℤ)) ∧
    decompact toy ⟨[[5]], none, [], 0, none⟩ = some (Except.ok ⟨[], none, none⟩) := by
  exact ⟨by decide, rfl⟩

/-- C4 (amended): for every compact proof with `num_side_nodes ≥ 1`, if the
stored side-node list does not contain exactly
`num_side_nodes - popcount(bitmask)` entries (the subtraction taken over ℤ,
matching the wrapping `usize` arithmetic for feasible lengths), the sanity
check fails and `decompact` returns `BadProof` — it never panics and never
returns a proof; for `num_side_nodes = 0` the count condition is skipped
(see the counterexample). -/
theorem C4_decompact_badproof (hs : Hasher) (c : SparseCompactMerkleProof)
    (h1 : 1 ≤ c.num_side_nodes)
    (h2 : (c.side_nodes.length : ℤ) ≠ (c.num_side_nodes : ℤ) - (count_set_bits c.bitmask : ℤ)) :
    decompact hs c = some (Except.error ()) := by
  have hs0 : compact_sanity_check hs c = false := by
    unfold compact_sanity_check
    rw [if_pos (Or.inr (Or.inr ⟨h1, h2⟩))]
  unfold decompact
  rw [hs0]
  simp

/-- C4 witness: a compact proof with `num_side_nodes = 1`, an all-clear
bitmask and an empty stored list is rejected. -/
theorem C4_w : decompact toy ⟨[], none, [0], 1, none⟩ = some (Except.error ()) :=
  C4_decompact_badproof toy ⟨[], none, [0], 1, none⟩ (by decide) (by decide)

/-- C7 (amended): for every NON-EMPTY byte string `b`, `is_leaf(Some(b))`
returns `b[0] == 0x00`; on the empty byte string it panics with an
out-of-range slice rather than returning `false`; `is_leaf(None)` returns
`false`. -/
theorem C7_is_leaf :
    (∀ b : Bytes, b ≠ [] → is_leaf (some b) = some (decide (b.head? = some 0))) ∧
    is_leaf (some ([] : Bytes)) = none ∧
    is_leaf (none : Option Bytes) = some false := by
  refine ⟨?_, rfl, rfl⟩
  intro b hb
  cases b with
  | nil => exact absurd rfl hb
  | cons x xs =>
    show is_leaf (some (x :: xs)) = some (decide (some x = some 0))
    simp only [is_leaf]
    rw [if_pos (by simp)]
    by_cases hx : x = 0 <;> simp [LEAF_PREFIX, hx]

/-- C7 witness: concrete evaluations of the amended statement. -/
theorem C7_w : is_leaf (some ([0] : Bytes)) = some true ∧
    is_leaf (some ([5] : Bytes)) = some false :=
  ⟨C7_is_leaf.1 [0] (by decide), C7_is_leaf.1 [5] (by decide)⟩

/-- Reading a bit inside the byte string never panics. -/
theorem get_bit_isSome (m : Bytes) (pos : Nat) (h : pos < 8 * m.length) :
    ∃ v, get_bit_at_from_msb m pos = some v := by
  have hdiv : pos / 8 < m.length := by
    rw [Nat.div_lt_iff_lt_mul (by norm_num : 0 < 8)]
    omega
  rcases List.get?_eq_get hdiv with h8
  unfold get_bit_at_from_msb
  rw [h8]
  exact ⟨_, rfl⟩

/-- `count_common_prefix` on two equal arguments runs through all
`8 * a.length` bit positions and counts every one of them. -/
theorem commonPrefixGo_self (a : Bytes) :
    ∀ fuel i cnt, i + fuel ≤ 8 * a.length →
      commonPrefixGo a a i cnt fuel = some (cnt + fuel) := by
  intro fuel
  induction fuel with
  | zero => intro i cnt _; rfl
  | succ n ih =>
    intro i cnt h
    obtain ⟨v, hv⟩ := get_bit_isSome a i (by omega)
    unfold commonPrefixGo
    rw [hv]
    simp only [if_pos rfl]
    rw [ih (i + 1) (cnt + 1) (by omega), if_pos trivial]
    exact congrArg some (by omega)

/-- `count_common_prefix a a = 8 * |a|`. -/
theorem commonPrefixCount_self (a : Bytes) :
    commonPrefixCount a a = some (a.length * 8) := by
  unfold commonPrefixCount
  rw [commonPrefixGo_self a (a.length * 8) 0 0 (by omega), Nat.zero_add]

/-- C3 (amended): when the walk from the given root ends at a leaf whose path
equals `H(key)` and whose stored value hash equals `H(value)`,
`update_for_root` short-circuits and returns `self.root` — the CURRENT root
field of the tree object, which coincides with the given root argument when
invoked through `update(...)` but not in general — and the only store
mutation is the already-written new leaf node (the value store is
untouched). -/
theorem C3_short_circuit (hs : Hasher) (hl : HashLen hs) (t : SMT)
    (key value root : Bytes) (hv : value ≠ DEFAULT_VALUE) (r : UpdateResult)
    (hw : side_nodes_for_root hs t.nodes (hs.hash key) root false = some r)
    (p0 : Bytes) (hp0 : r.path_nodes.head? = some p0) (hpl : p0 ≠ placeholder hs)
    (old : Bytes) (hold : r.current_data = some old)
    (hparse : parse_leaf hs old = some (hs.hash key, hs.hash value)) :
    update_for_root hs t key value root =
      some (t.root, { t with nodes := Store.set t.nodes (digest_leaf hs (hs.hash key) (hs.hash value)).1 (digest_leaf hs (hs.hash key) (hs.hash value)).2 }) := by
  have hcpc : commonPrefixCount (hs.hash key) (hs.hash key) = some (depth hs) := by
    rw [commonPrefixCount_self, hl key]
    rfl
  simp only [update_for_root]
  rw [hw]
  simp only [if_neg hv]
  simp only [update_with_side_notes]
  rw [hp0]
  simp only [if_neg hpl, hold, hparse, hcpc]
  simp only [ne_eq, not_true_eq_false, if_neg (by simp : ¬ (depth hs ≠ depth hs)), if_pos rfl]
  simp

/-- A concrete tree object for the C3 scenario: its node store holds exactly
the leaf `[176] ↦ 0x00 ‖ [0] ‖ [219]` (the toy leaf of key `[99, 0]` and
value `[1]`), its value store binds path `[0] ↦ [1]`, and its `root` FIELD is
`[7]`, different from the leaf root `[176]`. -/
def tC3 : SMT := ⟨[([176], [0, 0, 219])], [([0], [1])], [7]⟩

/-- C3, counterexample: a concrete tree object whose `root` field is `[7]`
holds a leaf for key `[99, 0]` with value `[1]`; calling
`update_for_root([99,0], [1], [176])` at the leaf's actual root `[176]` walks
to that exact leaf with the same value hash and returns `[7]` (the tree's
`self.root` field), NOT the given root argument `[176]` as the claim
states. -/
theorem C3_cex :
    side_nodes_for_root toy tC3.nodes (toy.hash [99, 0]) [176] false =
      some ⟨[], [[176]], none, some [0, 0, 219]⟩ ∧
    parse_leaf toy [0, 0, 219] = some (toy.hash [99, 0], toy.hash [1]) ∧
    update_for_root toy tC3 [99, 0] [1] [176] = some ([7], tC3) ∧
    ([7] : Bytes) ≠ [176] := by
  exact ⟨rfl, rfl, rfl, by decide⟩

/-- C3 witness: the amended theorem applied at the concrete instance of the
counterexample tree. -/
theorem C3_w :
    update_for_root toy tC3 [99, 0] [1] [176] = some ([7], tC3) :=
  C3_short_circuit toy toy_hashLen tC3
    [99, 0] [1] [176] (by decide) ⟨[], [[176]], none, some [0, 0, 219]⟩ rfl
    [176] rfl (by decide) [0, 0, 219] rfl rfl

/-- Walk inversion: the returned `path_nodes` and `side_nodes` extend the
accumulators by the same number of entries, at most one per remaining loop
iteration. -/
theorem side_nodes_go_ext (hs : Hasher) (nodes : Store) (path : Bytes) (gsd : Bool) :
    ∀ fuel i cd sa pa r, side_nodes_go hs nodes path gsd i cd sa pa fuel = some r →
      ∃ l l2, r.path_nodes = l ++ pa ∧ r.side_nodes = l2 ++ sa ∧
        l2.length ≤ fuel ∧ l.length = l2.length := by
  intro fuel
  induction fuel with
  | zero =>
    intro i cd sa pa r h
    cases h
    exact ⟨[], [], rfl, rfl, Nat.le_refl 0, rfl⟩
  | succ n ih =>
    intro i cd sa pa r h
    unfold side_nodes_go at h
    rcases hpn : parse_node hs cd with _ | ⟨ln, rn⟩
    · rw [hpn] at h; simp at h
    · simp only [hpn] at h
      rcases hbit : get_bit_at_from_msb path i with _ | bit
      · rw [hbit] at h; simp at h
      · simp only [hbit] at h
        generalize (if bit = RIGHT then (ln, rn) else (rn, ln)) = sn at h
        obtain ⟨s1, s2⟩ := sn
        by_cases hph : s2 = placeholder hs
        · simp only [hph, if_pos rfl] at h
          cases gsd <;> simp only [Bool.false_eq_true, if_true, if_false] at h <;> cases h <;>
            exact ⟨[_], [_], rfl, rfl, by simp, rfl⟩
        · simp only [if_neg hph] at h
          rcases hlf : is_leaf (Store.get nodes s2) with _ | lf
          · rw [hlf] at h; simp at h
          · simp only [hlf] at h
            cases lf
            · obtain ⟨l, l2, hp, hsn, hlen, hll⟩ := ih _ _ _ _ r h
              refine ⟨l ++ [s2], l2 ++ [s1], ?_, ?_, ?_, ?_⟩
              · simp [hp]
              · simp [hsn]
              · simp only [List.length_append, List.length_cons, List.length_nil]; omega
              · simp only [List.length_append, List.length_cons, List.length_nil]; omega
            · cases gsd <;> simp only [Bool.false_eq_true, if_true, if_false] at h <;>
                cases h <;> exact ⟨[_], [_], rfl, rfl, by simp, rfl⟩

/-- Walk inversion at the top level: `path_nodes` always ends with the root
(so in particular it is non-empty), and there are at most `depth` side
nodes. -/
theorem side_nodes_for_root_ext (hs : Hasher) (nodes : Store) (path root : Bytes)
    (gsd : Bool) (r : UpdateResult)
    (h : side_nodes_for_root hs nodes path root gsd = some r) :
    ∃ l l2, r.path_nodes = l ++ [root] ∧ r.side_nodes = l2 ∧
      l2.length ≤ depth hs ∧ l.length = l2.length := by
  unfold side_nodes_for_root at h
  by_cases hr : root = placeholder hs
  · rw [if_pos hr] at h
    cases h
    exact ⟨[], [], rfl, rfl, Nat.zero_le _, rfl⟩
  · rw [if_neg hr] at h
    rcases hlf : is_leaf (Store.get nodes root) with _ | lf
    · simp only [hlf] at h; simp at h
    · simp only [hlf] at h
      cases lf
      · obtain ⟨l, l2, hp, hsn, hlen, hll⟩ := side_nodes_go_ext hs nodes path gsd _ _ _ _ _ r h
        exact ⟨l, l2, hp, by rw [hsn, List.append_nil], hlen, hll⟩
      · cases h
        exact ⟨[], [], rfl, rfl, Nat.zero_le _, rfl⟩

/-- The walk, when it succeeds, yields a `path_nodes[0]`. -/
theorem side_nodes_for_root_head (hs : Hasher) (nodes : Store) (path root : Bytes)
    (gsd : Bool) (r : UpdateResult)
    (h : side_nodes_for_root hs nodes path root gsd = some r) :
    ∃ p0, r.path_nodes.head? = some p0 := by
  obtain ⟨l, l2, hp, _, _, _⟩ := side_nodes_for_root_ext hs nodes path root gsd r h
  rw [hp]
  cases l with
  | nil => exact ⟨root, rfl⟩
  | cons a l => exact ⟨a, rfl⟩

/-- C6: deleting an absent key is a no-op.  If the walk from the tree's
current root ends at a placeholder or at a leaf with a different path,
then `update_for_root(k, ∅, root)` returns the prior root, `update(k, ∅)`
and `remove(k)` leave the tree (root, node store and value store) unchanged,
and consequently calling `update(k, ∅)` twice in a row leaves everything
unchanged after the second call. -/
theorem C6_delete_absent (hs : Hasher) (t : SMT) (key : Bytes) (r : UpdateResult)
    (hw : side_nodes_for_root hs t.nodes (hs.hash key) t.root false = some r)
    (habs : r.path_nodes.head? = some (placeholder hs) ∨
      ∃ old ap rest, r.current_data = some old ∧ parse_leaf hs old = some (ap, rest) ∧
        ap ≠ hs.hash key) :
    update_for_root hs t key DEFAULT_VALUE t.root = some (t.root, t) ∧
    update hs t key DEFAULT_VALUE = some t ∧
    remove hs t key = some t ∧
    (update hs t key DEFAULT_VALUE).bind (fun t1 => update hs t1 key DEFAULT_VALUE) = some t := by
  obtain ⟨p0, hp0⟩ := side_nodes_for_root_head hs t.nodes (hs.hash key) t.root false r hw
  have hrm : remove_with_side_nodes hs t (hs.hash key) r.side_nodes r.path_nodes
      r.current_data = some (none, t) := by
    simp only [remove_with_side_nodes, hp0]
    by_cases hpp : p0 = placeholder hs
    · rw [if_pos hpp]
    · rw [if_neg hpp]
      rcases habs with h | ⟨old, ap, rest, hold, hparse, hne⟩
      · rw [hp0] at h
        cases h
        exact absurd rfl hpp
      · simp only [hold, hparse]
        rw [if_pos (fun hc => hne hc.symm)]
  have h1 : update_for_root hs t key DEFAULT_VALUE t.root = some (t.root, t) := by
    simp only [update_for_root]
    rw [hw]
    simp only [if_pos rfl, hrm]
    simp
  have h2 : update hs t key DEFAULT_VALUE = some t := by
    simp only [update]
    rw [h1]
  exact ⟨h1, h2, h2, by rw [h2]; exact h2⟩

/-- C6 witness: deleting the (absent) key `[99, 3]` from an empty toy tree
twice changes nothing. -/
theorem C6_w : update toy toyEmpty [99, 3] DEFAULT_VALUE = some toyEmpty ∧
    (update toy toyEmpty [99, 3] DEFAULT_VALUE).bind
      (fun t1 => update toy t1 [99, 3] DEFAULT_VALUE) = some toyEmpty :=
  ⟨(C6_delete_absent toy toyEmpty [99, 3] ⟨[], [placeholder toy], none, none⟩ rfl
      (Or.inl rfl)).2.1,
   (C6_delete_absent toy toyEmpty [99, 3] ⟨[], [placeholder toy], none, none⟩ rfl
      (Or.inl rfl)).2.2.2⟩

/-- C9: every proof actually returned by `prove` carries at most
`PATH_BITS = 8 * path_size` side nodes (the walk pushes at most one side node
per descended level), so it always passes the side-node-count condition of its
own verifier's sanity check. -/
theorem C9_proof_bound (hs : Hasher) (t : SMT) (key : Bytes) (p : SparseMerkleProof)
    (h : prove hs t key = some p) :
    p.side_nodes.length ≤ hs.size * 8 ∧ ¬ p.side_nodes.length > hs.size * 8 := by
  simp only [prove, do_prove_for_root] at h
  split at h
  · exact absurd h (by simp)
  · rename_i r hw
    split at h
    · exact absurd h (by simp)
    · cases h
      obtain ⟨l, l2, hp, hsn, hlen, hll⟩ :=
        side_nodes_for_root_ext hs t.nodes (hs.hash key) t.root false r hw
      have hb : (r.side_nodes.filter fun n => decide (n ≠ ([] : Bytes))).length ≤ hs.size * 8 := by
        calc (r.side_nodes.filter fun n => decide (n ≠ ([] : Bytes))).length
            ≤ r.side_nodes.length := List.length_filter_le _ _
          _ ≤ hs.size * 8 := by rw [hsn]; exact hlen
      exact ⟨hb, Nat.not_lt.mpr hb⟩

/-- C9 witness: the proof of an absent key on the empty toy tree. -/
theorem C9_w : prove toy toyEmpty [99, 3] = some ⟨[], none, none⟩ ∧
    (⟨[], none, none⟩ : SparseMerkleProof).side_nodes.length ≤ toy.size * 8 :=
  ⟨rfl, (C9_proof_bound toy toyEmpty [99, 3] ⟨[], none, none⟩ rfl).1⟩

/-- What a passed full-proof sanity check guarantees: side-node count within
`PATH_BITS`, every side node exactly `S` bytes, and a well-sized
non-membership leaf blob. -/
theorem sanity_check_true (hs : Hasher) (p : SparseMerkleProof)
    (h : sanity_check hs p = true) :
    p.side_nodes.length ≤ hs.size * 8 ∧ (∀ sn ∈ p.side_nodes, sn.length = hs.size) ∧
    ∀ d, p.non_membership_leaf_data = some d → d.length = 1 + hs.size + hs.size := by
  unfold sanity_check at h
  by_cases c1 : p.side_nodes.length > hs.size * 8 ∨ check_non_membership_proofs_size hs p
  · rw [if_pos c1] at h; cases h
  · rw [if_neg c1] at h
    push_neg at c1
    obtain ⟨h1, h2⟩ := c1
    by_cases c2 : (p.side_nodes.any fun sn => decide (sn.length ≠ hs.size)) = true
    · rw [if_pos c2] at h; cases h
    · refine ⟨by omega, ?_, ?_⟩
      · intro sn hm
        rw [List.any_eq_true] at c2
        push_neg at c2
        have := c2 sn hm
        simpa using this
      · intro d hd
        unfold check_non_membership_proofs_size at h2
        rw [hd] at h2
        simpa using h2

/-- The (bit-from-side-node) recomputation loop of `verify_proof` never
panics when every side node is exactly `S` bytes and there are at most
`8 * S` of them. -/
theorem verify_fold_total (hs : Hasher) (num : Nat) :
    ∀ l idx current, (∀ sn ∈ l, sn.length = hs.size) → idx + l.length ≤ num →
      num ≤ hs.size * 8 → ∃ res, verify_fold hs num l idx current = some res := by
  intro l
  induction l with
  | nil => intro idx current _ _ _; exact ⟨current, rfl⟩
  | cons sn rest ih =>
    intro idx current hlens hcnt hnum
    have hsn : sn.length = hs.size := hlens sn (by simp)
    obtain ⟨bit, hbit⟩ := get_bit_isSome sn (num - 1 - idx) (by rw [hsn]; simp at hcnt; omega)
    unfold verify_fold
    simp only [if_pos (Nat.le_of_eq hsn.symm), hbit]
    by_cases hbr : bit = RIGHT
    · rw [if_pos hbr]
      exact ih (idx + 1) _ (fun x hx => hlens x (by simp [hx])) (by simp at hcnt ⊢; omega) hnum
    · rw [if_neg hbr]
      exact ih (idx + 1) _ (fun x hx => hlens x (by simp [hx])) (by simp at hcnt ⊢; omega) hnum

/-- The (bit-from-path) recomputation loop of `verify_proof_with_updates`
never panics when the path is `S` bytes, every side node is exactly `S`
bytes, and there are at most `8 * S` of them. -/
theorem verify_updates_fold_total (hs : Hasher) (path : Bytes) (num : Nat)
    (hp : path.length = hs.size) :
    ∀ l idx current updates, (∀ sn ∈ l, sn.length = hs.size) → idx + l.length ≤ num →
      num ≤ hs.size * 8 →
      ∃ res, verify_updates_fold hs path num l idx current updates = some res := by
  intro l
  induction l with
  | nil => intro idx current updates _ _ _; exact ⟨(current, updates), rfl⟩
  | cons sn rest ih =>
    intro idx current updates hlens hcnt hnum
    have hsn : sn.length = hs.size := hlens sn (by simp)
    obtain ⟨bit, hbit⟩ := get_bit_isSome path (num - 1 - idx) (by rw [hp]; simp at hcnt; omega)
    unfold verify_updates_fold
    simp only [if_pos (Nat.le_of_eq hsn.symm), hbit]
    exact ih (idx + 1) _ _ (fun x hx => hlens x (by simp [hx])) (by simp at hcnt ⊢; omega) hnum

/-- C10: once `sanity_check` passes, verification is total — for arbitrary
(even adversarial) proof contents, both `verify_proof` and
`verify_proof_with_updates` run to completion without any out-of-range access
and return a boolean, for every root, key and value. -/
theorem C10_verify_total (hs : Hasher) (hl : HashLen hs) (p : SparseMerkleProof)
    (hsan : sanity_check hs p = true) :
    (∀ root key value : Bytes, ∃ b, verify_proof hs p root key value = some b) ∧
    (∀ root key value : Bytes, ∃ bu, verify_proof_with_updates hs p root key value = some bu) := by
  obtain ⟨hnum, hlens, hnm⟩ := sanity_check_true hs p hsan
  constructor
  · intro root key value
    have hfold : ∀ current, ∃ res,
        verify_fold hs p.side_nodes.length p.side_nodes 0 current = some res :=
      fun current => verify_fold_total hs p.side_nodes.length p.side_nodes 0 current
        hlens (by omega) hnum
    simp only [verify_proof, hsan]
    rw [if_neg (by simp)]
    by_cases hv : value = DEFAULT_VALUE
    · simp only [if_pos hv]
      rcases hd : p.non_membership_leaf_data with _ | d
      · obtain ⟨res, hres⟩ := hfold (placeholder hs)
        simp only [hres]
        exact ⟨_, rfl⟩
      · have hdl : d.length = 1 + hs.size + hs.size := hnm d hd
        have hparse : parse_leaf hs d =
            some ((d.drop 1).take hs.size, d.drop (1 + hs.size)) := by
          unfold parse_leaf
          rw [if_pos (by omega)]
        simp only [hparse]
        by_cases hap : (d.drop 1).take hs.size = hs.hash key
        · simp only [if_pos hap]
          exact ⟨_, rfl⟩
        · simp only [if_neg hap]
          obtain ⟨res, hres⟩ := hfold (digest_leaf_hash hs ((d.drop 1).take hs.size)
            (d.drop (1 + hs.size)))
          simp only [hres]
          exact ⟨_, rfl⟩
    · simp only [if_neg hv]
      obtain ⟨res, hres⟩ := hfold (digest_leaf_hash hs (hs.hash key) (hs.hash value))
      simp only [hres]
      exact ⟨_, rfl⟩
  · intro root key value
    have hfold : ∀ current updates, ∃ res,
        verify_updates_fold hs (hs.hash key) p.side_nodes.length p.side_nodes 0 current
          updates = some res :=
      fun current updates => verify_updates_fold_total hs (hs.hash key) p.side_nodes.length
        (hl key) p.side_nodes 0 current updates hlens (by omega) hnum
    simp only [verify_proof_with_updates, hsan]
    rw [if_neg (by simp)]
    by_cases hv : value = DEFAULT_VALUE
    · simp only [if_pos hv]
      rcases hd : p.non_membership_leaf_data with _ | d
      · obtain ⟨res, hres⟩ := hfold (placeholder hs) []
        simp only [hres]
        exact ⟨_, rfl⟩
      · have hdl : d.length = 1 + hs.size + hs.size := hnm d hd
        have hparse : parse_leaf hs d =
            some ((d.drop 1).take hs.size, d.drop (1 + hs.size)) := by
          unfold parse_leaf
          rw [if_pos (by omega)]
        simp only [hparse]
        by_cases hap : (d.drop 1).take hs.size = hs.hash key
        · simp only [if_pos hap]
          exact ⟨_, rfl⟩
        · simp only [if_neg hap]
          obtain ⟨res, hres⟩ := hfold
            (digest_leaf hs ((d.drop 1).take hs.size) (d.drop (1 + hs.size))).1
            [((digest_leaf hs ((d.drop 1).take hs.size) (d.drop (1 + hs.size))).1,
              (digest_leaf hs ((d.drop 1).take hs.size) (d.drop (1 + hs.size))).2)]
          simp only [hres]
          exact ⟨_, rfl⟩
    · simp only [if_neg hv]
      obtain ⟨res, hres⟩ := hfold (digest_leaf hs (hs.hash key) (hs.hash value)).1
        [((digest_leaf hs (hs.hash key) (hs.hash value)).1,
          (digest_leaf hs (hs.hash key) (hs.hash value)).2)]
      simp only [hres]
      exact ⟨_, rfl⟩

/-- C10 witness: a one-side-node proof over the toy hasher verifies totally. -/
theorem C10_w : (∃ b, verify_proof toy ⟨[[7]], none, none⟩ [3] [99, 0] [1] = some b) ∧
    ∃ bu, verify_proof_with_updates toy ⟨[[7]], none, none⟩ [3] [99, 0] [1] = some bu :=
  ⟨(C10_verify_total toy toy_hashLen ⟨[[7]], none, none⟩ (by decide)).1 [3] [99, 0] [1],
   (C10_verify_total toy toy_hashLen ⟨[[7]], none, none⟩ (by decide)).2 [3] [99, 0] [1]⟩

/-- The toy tree after `update([99,0], [1])`: a single leaf.  Key `[99, 0]`
has path `[0x00]`, value hash `[219]`, leaf hash `[176]`. -/
def t1C1 : SMT := ⟨[([176], [0, 0, 219])], [([0], [1])], [176]⟩

/-- The toy tree after a further `update([99,128], [2])`: key `[99, 128]` has
path `[0x80]` (diverging from `[0x00]` at bit 0), value hash `[220]`, leaf
hash `[129]`; the root `[228]` is the internal node over the two leaves. -/
def t2C1 : SMT :=
  ⟨[([176], [0, 0, 219]), ([129], [0, 128, 220]), ([228], [1, 176, 129])],
   [([0], [1]), ([128], [2])], [228]⟩

/-- C1: the claim FAILS on the code.  In `verify_proof` the closure binder of
the root-recomputation loop is named `path`, shadowing the hashed key, so the
direction bit at each level is read from the SIDE NODE instead of from
`H(key)` (`verify_proof_with_updates`, the non-shadowed twin used by
`add_branch`, reads it from `H(key)` as specified).  On the reachable
two-leaf toy tree `t2C1`, the proof generated for the bound key `[99, 0]`
(stored value `[1]`) is rejected by `verify` — the side node `[129]` has MSB
1, so the final hash is computed in the wrong order — while
`verify_proof_with_updates` accepts the very same proof. -/
theorem C1_verify_shadowing_bug :
    update toy toyEmpty [99, 0] [1] = some t1C1 ∧
    update toy t1C1 [99, 128] [2] = some t2C1 ∧
    prove toy t2C1 [99, 0] = some ⟨[[129]], none, none⟩ ∧
    verify_proof toy ⟨[[129]], none, none⟩ t2C1.root [99, 0] [1] = some false ∧
    (verify_proof_with_updates toy ⟨[[129]], none, none⟩ t2C1.root [99, 0] [1]).map
      Prod.fst = some true := by
  exact ⟨rfl, rfl, rfl, rfl, rfl⟩

/-- `get_bit_at_from_msb` through `Nat.testBit`: the probed bit of the
selected byte, counted from the most significant end. -/
theorem get_bit_eq_testBit (m : Bytes) (pos : Nat) (b : Nat) (h : m.get? (pos / 8) = some b) :
    get_bit_at_from_msb m pos = some (if b.testBit (8 - 1 - pos % 8) then 1 else 0) := by
  have h1 : get_bit_at_from_msb m pos =
      some (if b &&& (1 <<< (8 - 1 - pos % 8)) > 0 then 1 else 0) := by
    unfold get_bit_at_from_msb
    rw [h]
  rw [h1]
  congr 1
  rw [Nat.one_shiftLeft, Nat.and_two_pow]
  cases hb : b.testBit (8 - 1 - pos % 8) <;> simp [hb, Nat.pos_pow_of_pos]

/-- `set_bit_at_from_msb` at an in-range position: it succeeds, preserves
the length, sets exactly the requested bit and leaves every other position
unchanged. -/
theorem set_bit_spec (m : Bytes) (pos : Nat) (hp : pos < 8 * m.length) :
    ∃ m2, set_bit_at_from_msb m pos = some m2 ∧ m2.length = m.length ∧
      get_bit_at_from_msb m2 pos = some 1 ∧
      ∀ q, q ≠ pos → get_bit_at_from_msb m2 q = get_bit_at_from_msb m q := by
  have hdiv : pos / 8 < m.length := by
    rw [Nat.div_lt_iff_lt_mul (by norm_num : 0 < 8)]
    omega
  have hg := List.get?_eq_get hdiv
  refine ⟨m.set (pos / 8) (m.get ⟨pos / 8, hdiv⟩ |||
    (1 <<< (8 - 1 - pos % 8))), ?_, List.length_set m _ _, ?_, ?_⟩
  · unfold set_bit_at_from_msb
    rw [hg]
  · have h2 : (m.set (pos / 8) (m.get ⟨pos / 8, hdiv⟩ ||| (1 <<< (8 - 1 - pos % 8)))).get?
        (pos / 8) = some (m.get ⟨pos / 8, hdiv⟩ ||| (1 <<< (8 - 1 - pos % 8))) := by
      rw [List.get?_set_eq, hg]
      rfl
    rw [get_bit_eq_testBit _ pos _ h2]
    rw [Nat.one_shiftLeft, Nat.testBit_lor, Nat.testBit_two_pow_self]
    simp
  · intro q hq
    by_cases hd : q / 8 = pos / 8
    · have hmod : q % 8 ≠ pos % 8 := by
        intro hm
        exact hq (by omega)
      have hbits : 8 - 1 - q % 8 ≠ 8 - 1 - pos % 8 := by
        have h1 : q % 8 < 8 := Nat.mod_lt _ (by norm_num)
        have h2 : pos % 8 < 8 := Nat.mod_lt _ (by norm_num)
        omega
      have h2 : (m.set (pos / 8) (m.get ⟨pos / 8, hdiv⟩ ||| (1 <<< (8 - 1 - pos % 8)))).get?
          (q / 8) = some (m.get ⟨pos / 8, hdiv⟩ ||| (1 <<< (8 - 1 - pos % 8))) := by
        rw [hd, List.get?_set_eq, hg]
        rfl
      have h3 : m.get? (q / 8) = some (m.get ⟨pos / 8, hdiv⟩) := by
        rw [hd, hg]
      rw [get_bit_eq_testBit _ q _ h2, get_bit_eq_testBit _ q _ h3]
      rw [Nat.one_shiftLeft, Nat.testBit_lor, Nat.testBit_two_pow_of_ne (fun he => hbits he.symm)]
      simp
    · have h2 : (m.set (pos / 8) (m.get ⟨pos / 8, hdiv⟩ ||| (1 <<< (8 - 1 - pos % 8)))).get?
          (q / 8) = m.get? (q / 8) := List.get?_set_ne _ _ (fun he => hd he.symm)
      unfold get_bit_at_from_msb
      rw [h2]

/-- Flipping a single position of a predicate over `range n` from false to
true increments the count by one. -/
theorem countP_range_flip (p q : Nat → Bool) (pos : Nat) :
    ∀ n, pos < n → p pos = false → q pos = true →
    (∀ i, i ≠ pos → p i = q i) →
    (List.range n).countP q = (List.range n).countP p + 1 := by
  intro n
  induction n with
  | zero => omega
  | succ k ih =>
    intro hpos hp hq hagree
    rw [List.range_succ, List.countP_append, List.countP_append]
    by_cases hk : pos = k
    · subst hk
      have hcong : (List.range pos).countP p = (List.range pos).countP q :=
        List.countP_congr (fun x hx => by
          rw [hagree x (by simp at hx; omega)])
      simp [List.countP_cons, hp, hq, hcong]
    · have hih := ih (by omega) hp hq hagree
      have ht : p k = q k := hagree k (fun h => hk h.symm)
      simp [List.countP_cons, ← ht]
      omega

/-- An all-zero bitmask has no set bits. -/
theorem count_set_bits_zero_mask (n : Nat) : count_set_bits (List.replicate n 0) = 0 := by
  unfold count_set_bits
  rw [List.countP_eq_zero]
  intro i _
  simp only [List.length_replicate] at *
  by_cases hd : i / 8 < n
  · have hg : (List.replicate n (0 : Nat)).get? (i / 8) = some 0 := by
      rw [List.get?_eq_getElem?, List.getElem?_replicate, if_pos hd]
    rw [get_bit_eq_testBit _ i 0 hg]
    simp [Nat.zero_testBit]
  · have hg : (List.replicate n (0 : Nat)).get? (i / 8) = none := by
      rw [List.get?_eq_getElem?, List.getElem?_eq_none]
      simp only [List.length_replicate]
      omega
    unfold get_bit_at_from_msb
    rw [hg]
    simp

/-- Setting one clear bit increments `count_set_bits` by one. -/
theorem count_set_bits_flip (m m2 : Bytes) (pos : Nat)
    (hlen : m2.length = m.length)
    (h0 : get_bit_at_from_msb m pos = some 0)
    (h1 : get_bit_at_from_msb m2 pos = some 1)
    (hagree : ∀ q, q ≠ pos → get_bit_at_from_msb m2 q = get_bit_at_from_msb m q) :
    count_set_bits m2 = count_set_bits m + 1 := by
  unfold count_set_bits
  rw [hlen]
  refine countP_range_flip _ _ pos (m.length * 8) ?_ ?_ ?_ ?_
  · -- pos < 8 * m.length: from h0 the byte index is in range
    by_contra hc
    have hg : m.get? (pos / 8) = none := by
      rw [List.get?_eq_getElem?, List.getElem?_eq_none]
      rw [Nat.le_div_iff_mul_le (by norm_num : 0 < 8)]
      omega
    unfold get_bit_at_from_msb at h0
    rw [hg] at h0
    cases h0
  · simp [h0]
  · simp [h1]
  · intro i hi
    rw [hagree i hi]

/-- Specification of the side-node pass of `compact`: assuming every side
node is `S` bytes and the (sufficiently long) bitmask is all-zero from `idx`
up, the pass returns the non-placeholder side nodes in order, sets exactly
the bits of the placeholder positions, and its popcount equals the number of
placeholder side nodes. -/
theorem compact_go_spec (hs : Hasher) :
    ∀ (sns : List Bytes) (idx : Nat) (m : Bytes),
      (∀ sn ∈ sns, sn.length = hs.size) →
      idx + sns.length ≤ m.length * 8 →
      (∀ j, idx ≤ j → j < m.length * 8 → get_bit_at_from_msb m j = some 0) →
      ∃ m2, compact_go hs sns idx m =
          some (m2, sns.filter fun sn => decide (sn ≠ placeholder hs)) ∧
        m2.length = m.length ∧
        (∀ j, j < idx → get_bit_at_from_msb m2 j = get_bit_at_from_msb m j) ∧
        (∀ k sn, sns.get? k = some sn →
          get_bit_at_from_msb m2 (idx + k) = some (if sn = placeholder hs then 1 else 0)) ∧
        (∀ j, idx + sns.length ≤ j → j < m.length * 8 → get_bit_at_from_msb m2 j = some 0) ∧
        count_set_bits m2 = count_set_bits m +
          sns.countP fun sn => decide (sn = placeholder hs) := by
  intro sns
  induction sns with
  | nil =>
    intro idx m _ _ hz
    refine ⟨m, rfl, rfl, fun j _ => rfl, ?_, ?_, ?_⟩
    · intro k sn hk
      simp at hk
    · intro j hj hjb
      exact hz j (by simpa using hj) hjb
    · simp
  | cons sn rest ih =>
    intro idx m hlens hbound hzeros
    have hsn : sn.length = hs.size := hlens sn (by simp)
    have htake : sn.take hs.size = sn := List.take_of_length_le (le_of_eq hsn)
    have hrlens : ∀ x ∈ rest, x.length = hs.size := fun x hx => hlens x (by simp [hx])
    unfold compact_go
    simp only [if_pos (Nat.le_of_eq hsn.symm), htake]
    by_cases hph : sn = placeholder hs
    · simp only [if_pos hph]
      obtain ⟨m2a, hset, hlena, hbit1, hagree⟩ := set_bit_spec m idx (by simp at hbound; omega)
      rw [hset]
      have hflip := count_set_bits_flip m m2a idx hlena
        (hzeros idx (Nat.le_refl _) (by simp at hbound; omega)) hbit1 hagree
      have hz2 : ∀ j, idx + 1 ≤ j → j < m2a.length * 8 → get_bit_at_from_msb m2a j = some 0 := by
        intro j hj hjb
        rw [hagree j (by omega)]
        exact hzeros j (by omega) (by rw [hlena] at hjb; omega)
      obtain ⟨m2, hgo, hlen2, hbelow, hind, hhigh, hcount⟩ := ih (idx + 1) m2a hrlens
        (by rw [hlena]; simp at hbound ⊢; omega) hz2
      refine ⟨m2, ?_, by rw [hlen2, hlena], ?_, ?_, ?_, ?_⟩
      · simp only [hgo]
        simp [hph]
      · intro j hj
        rw [hbelow j (by omega), hagree j (by omega)]
      · intro k x hk
        cases k with
        | zero =>
          cases hk
          rw [Nat.add_zero, hbelow idx (by omega), hbit1, if_pos hph]
        | succ k0 =>
          have : idx + (k0 + 1) = (idx + 1) + k0 := by omega
          rw [this]
          exact hind k0 x hk
      · intro j hj hjb
        refine hhigh j (by simp at hj ⊢; omega) (by rw [hlena]; omega)
      · rw [hcount, hflip]
        simp [List.countP_cons, hph]
        omega
    · simp only [if_neg hph]
      have hz2 : ∀ j, idx + 1 ≤ j → j < m.length * 8 → get_bit_at_from_msb m j = some 0 :=
        fun j hj hjb => hzeros j (by omega) hjb
      obtain ⟨m2, hgo, hlen2, hbelow, hind, hhigh, hcount⟩ := ih (idx + 1) m hrlens
        (by simp at hbound ⊢; omega) hz2
      rw [hgo]
      refine ⟨m2, ?_, hlen2, ?_, ?_, ?_, ?_⟩
      · simp [hph]
      · intro j hj
        exact hbelow j (by omega)
      · intro k x hk
        cases k with
        | zero =>
          cases hk
          rw [Nat.add_zero, hbelow idx (by omega), if_neg hph]
          exact hzeros idx (Nat.le_refl _) (by simp at hbound; omega)
        | succ k0 =>
          have : idx + (k0 + 1) = (idx + 1) + k0 := by omega
          rw [this]
          exact hind k0 x hk
      · intro j hj hjb
        exact hhigh j (by simp at hj ⊢; omega) hjb
      · rw [hcount]
        simp [List.countP_cons, hph]

/-- Specification of the reconstruction loop of `decompact`: if the bitmask
flags exactly the placeholder positions of `orig` and the stored list (from
`pos` on) is the non-placeholder sublist of `orig`, the loop rebuilds `orig`
exactly. -/
theorem decompact_go_spec (hs : Hasher) (mask : Bytes) (sns : List Bytes) :
    ∀ (orig : List Bytes) (idx pos : Nat),
      (∀ k sn, orig.get? k = some sn → get_bit_at_from_msb mask (idx + k) =
        some (if sn = placeholder hs then 1 else 0)) →
      sns.drop pos = orig.filter (fun sn => decide (sn ≠ placeholder hs)) →
      decompact_go hs mask sns idx pos orig.length = some orig := by
  intro orig
  induction orig with
  | nil => intro idx pos _ _; rfl
  | cons o rest ih =>
    intro idx pos hind hdrop
    have hbit : get_bit_at_from_msb mask idx = some (if o = placeholder hs then 1 else 0) := by
      have h0 := hind 0 o rfl
      simpa using h0
    have hshift : ∀ k sn, rest.get? k = some sn → get_bit_at_from_msb mask (idx + 1 + k) =
        some (if sn = placeholder hs then 1 else 0) := by
      intro k sn hk
      have hx := hind (k + 1) sn hk
      have he : idx + (k + 1) = idx + 1 + k := by omega
      rw [he] at hx
      exact hx
    show decompact_go hs mask sns idx pos (rest.length + 1) = some (o :: rest)
    unfold decompact_go
    simp only [hbit]
    by_cases hph : o = placeholder hs
    · simp only [hph, if_pos rfl, if_true]
      have hdrop2 : sns.drop pos = rest.filter fun sn => decide (sn ≠ placeholder hs) := by
        rw [hdrop]
        simp [hph]
      rw [ih (idx + 1) pos hshift hdrop2]
    · have hfil : (o :: rest).filter (fun sn => decide (sn ≠ placeholder hs)) =
          o :: rest.filter fun sn => decide (sn ≠ placeholder hs) := by
        simp [hph]
      have hget : sns.get? pos = some o := by
        rw [List.get?_eq_getElem?, ← List.head?_drop, hdrop, hfil]
        rfl
      have hifne : (if o = placeholder hs then 1 else 0) ≠ 1 := by
        rw [if_neg hph]
        omega
      simp only [if_neg hifne, hget]
      have hdrop2 : sns.drop (pos + 1) = rest.filter fun sn => decide (sn ≠ placeholder hs) := by
        have hdd : sns.drop (pos + 1) = (sns.drop pos).drop 1 := by
          rw [List.drop_drop]
        rw [hdd, hdrop, hfil]
        rfl
      rw [ih (idx + 1) (pos + 1) hshift hdrop2]

/-- C5: compaction round-trip.  For every proof passing the full-proof
sanity check (in particular every proof generated by the tree),
`compact` succeeds, `decompact(compact(P))` returns `P` itself — side nodes
elementwise, `non_membership_leaf_data` and `sibling_data` preserved — and
`compact(P).verify(root, k, v)` equals `P.verify(root, k, v)` for all
`root`, `k`, `v`. -/
theorem C5_compact_roundtrip (hs : Hasher) (p : SparseMerkleProof)
    (hsan : sanity_check hs p = true) :
    ∃ c, compact hs p = some (Except.ok c) ∧ decompact hs c = some (Except.ok p) ∧
      ∀ root key value : Bytes,
        compact_verify hs c root key value = verify_proof hs p root key value := by
  obtain ⟨hnum, hlens, _⟩ := sanity_check_true hs p hsan
  have hm0len : (List.replicate ((p.side_nodes.length + 7) / 8) (0 : Nat)).length =
      (p.side_nodes.length + 7) / 8 := by simp
  have hzeros : ∀ j, 0 ≤ j →
      j < (List.replicate ((p.side_nodes.length + 7) / 8) (0 : Nat)).length * 8 →
      get_bit_at_from_msb (List.replicate ((p.side_nodes.length + 7) / 8) 0) j = some 0 := by
    intro j _ hj
    rw [hm0len] at hj
    have hg : (List.replicate ((p.side_nodes.length + 7) / 8) (0 : Nat)).get? (j / 8) =
        some 0 := by
      rw [List.get?_eq_getElem?, List.getElem?_replicate, if_pos (by omega)]
    rw [get_bit_eq_testBit _ j 0 hg]
    simp [Nat.zero_testBit]
  obtain ⟨m2, hgo, hlen2, _, hind, _, hcount⟩ :=
    compact_go_spec hs p.side_nodes 0 (List.replicate ((p.side_nodes.length + 7) / 8) 0)
      hlens (by rw [hm0len]; omega) hzeros
  have hcompact : compact hs p = some (Except.ok
      ⟨p.side_nodes.filter (fun sn => decide (sn ≠ placeholder hs)),
       p.non_membership_leaf_data, m2, p.side_nodes.length, p.sibling_data⟩) := by
    unfold compact
    rw [if_neg (by simp [hsan])]
    simp only [hgo]
  have hsplit : p.side_nodes.length =
      (p.side_nodes.filter (fun sn => decide (sn ≠ placeholder hs))).length +
      p.side_nodes.countP (fun sn => decide (sn = placeholder hs)) := by
    have h1 := List.length_eq_countP_add_countP
      (fun sn => decide (sn ≠ placeholder hs)) p.side_nodes
    rw [List.countP_eq_length_filter] at h1
    rw [h1]
    congr 1
    refine List.countP_congr fun x _ => ?_
    simp
  have hc2 : count_set_bits m2 =
      p.side_nodes.countP fun sn => decide (sn = placeholder hs) := by
    rw [hcount, count_set_bits_zero_mask]
    omega
  have hsanity2 : compact_sanity_check hs
      ⟨p.side_nodes.filter (fun sn => decide (sn ≠ placeholder hs)),
       p.non_membership_leaf_data, m2, p.side_nodes.length, p.sibling_data⟩ = true := by
    unfold compact_sanity_check
    rw [if_neg]
    push_neg
    refine ⟨by simpa using hnum, ?_, ?_⟩
    · simpa using hlen2.trans hm0len
    · intro _
      rw [hc2]
      have hle : p.side_nodes.countP (fun sn => decide (sn = placeholder hs)) ≤
          p.side_nodes.length := List.countP_le_length _
      simp only []
      omega
  have hdecompact : decompact hs
      ⟨p.side_nodes.filter (fun sn => decide (sn ≠ placeholder hs)),
       p.non_membership_leaf_data, m2, p.side_nodes.length, p.sibling_data⟩ =
      some (Except.ok p) := by
    unfold decompact
    rw [if_neg (by rw [hsanity2]; simp)]
    have hrec := decompact_go_spec hs m2
      (p.side_nodes.filter (fun sn => decide (sn ≠ placeholder hs))) p.side_nodes 0 0
      (fun k sn hk => by simpa using hind k sn hk) rfl
    simp only [hrec]
  refine ⟨_, hcompact, hdecompact, ?_⟩
  intro root key value
  unfold compact_verify
  rw [hdecompact]

/-- C5 witness: a concrete two-side-node toy proof (one placeholder side node,
one non-placeholder) round-trips. -/
theorem C5_w : ∃ c, compact toy ⟨[[0], [7]], none, none⟩ = some (Except.ok c) ∧
    decompact toy c = some (Except.ok ⟨[[0], [7]], none, none⟩) ∧
    ∀ root key value : Bytes, compact_verify toy c root key value =
      verify_proof toy ⟨[[0], [7]], none, none⟩ root key value :=
  C5_compact_roundtrip toy ⟨[[0], [7]], none, none⟩ (by decide)

/-- Node-shaped data per the serialization layout of the data model: either a
leaf (`0x00 ‖ path ‖ value_hash`) or an internal node
(`0x01 ‖ left ‖ right`), with `S`-byte components. -/
def GoodNodeData (hs : Hasher) (d : Bytes) : Prop :=
  (∃ q v, d = LEAF_PREFIX ++ q ++ v ∧ q.length = hs.size ∧ v.length = hs.size) ∨
  (∃ l r, d = NODE_PREFIX ++ l ++ r ∧ l.length = hs.size ∧ r.length = hs.size)

/-- A well-formed node store: every stored value is a serialized node. -/
def NodeStoreWF (hs : Hasher) (nodes : Store) : Prop :=
  ∀ kv ∈ nodes, GoodNodeData hs kv.2

/-- The node hashes reachable from `start` by descending through the children
of stored internal nodes. -/
inductive ReachableNode (hs : Hasher) (nodes : Store) (start : Bytes) : Bytes → Prop
  | refl : ReachableNode hs nodes start start
  | step {h d l r c} : ReachableNode hs nodes start h → Store.get nodes h = some d →
      is_leaf (some d) = some false → parse_node hs (some d) = some (l, r) →
      (c = l ∨ c = r) → ReachableNode hs nodes start c

/-- The claim's hypothesis: every node reachable from the root (that is not
the placeholder) is present in the store. -/
def ReachPresent (hs : Hasher) (nodes : Store) (root : Bytes) : Prop :=
  ∀ c, ReachableNode hs nodes root c → c ≠ placeholder hs →
    ∃ d, Store.get nodes c = some d

theorem Store.get_mem (s : Store) (k d : Bytes) (h : Store.get s k = some d) :
    (k, d) ∈ s := by
  induction s with
  | nil => cases h
  | cons kv rest ih =>
    obtain ⟨k0, v0⟩ := kv
    unfold Store.get at h
    by_cases he : k0 = k
    · rw [if_pos he] at h
      cases h
      subst he
      exact List.mem_cons_self _ _
    · rw [if_neg he] at h
      exact List.mem_cons_of_mem _ (ih h)

theorem Store.mem_of_mem_remove (s : Store) (key : Bytes) (kv : Bytes × Bytes)
    (h : kv ∈ Store.remove s key) : kv ∈ s := by
  induction s with
  | nil => cases h
  | cons kv0 rest ih =>
    obtain ⟨k0, v0⟩ := kv0
    unfold Store.remove at h
    by_cases he : k0 = key
    · rw [if_pos he] at h
      exact List.mem_cons_of_mem _ h
    · rw [if_neg he] at h
      rcases List.mem_cons.mp h with h1 | h1
      · rw [h1]; exact List.mem_cons_self _ _
      · exact List.mem_cons_of_mem _ (ih h1)

theorem Store.mem_of_mem_foldl_remove (l : List Bytes) :
    ∀ (s : Store) (kv : Bytes × Bytes), kv ∈ l.foldl Store.remove s → kv ∈ s := by
  induction l with
  | nil => intro s kv h; exact h
  | cons a rest ih =>
    intro s kv h
    exact Store.mem_of_mem_remove s a kv (ih (Store.remove s a) kv h)

theorem Store.mem_set (s : Store) (key value : Bytes) (kv : Bytes × Bytes)
    (h : kv ∈ Store.set s key value) : kv = (key, value) ∨ kv ∈ s := by
  induction s with
  | nil =>
    unfold Store.set at h
    rcases List.mem_singleton.mp h with h1
    exact Or.inl h1
  | cons kv0 rest ih =>
    obtain ⟨k0, v0⟩ := kv0
    unfold Store.set at h
    by_cases he : k0 = key
    · rw [if_pos he] at h
      rcases List.mem_cons.mp h with h1 | h1
      · exact Or.inl h1
      · exact Or.inr (List.mem_cons_of_mem _ h1)
    · rw [if_neg he] at h
      rcases List.mem_cons.mp h with h1 | h1
      · exact Or.inr (by rw [h1]; exact List.mem_cons_self _ _)
      · rcases ih h1 with h2 | h2
        · exact Or.inl h2
        · exact Or.inr (List.mem_cons_of_mem _ h2)

/-- Good data is non-empty. -/
theorem GoodNodeData.ne_nil (hs : Hasher) (d : Bytes) (h : GoodNodeData hs d) :
    d ≠ [] := by
  rcases h with ⟨q, v, rfl, _, _⟩ | ⟨l, r, rfl, _, _⟩ <;> simp [LEAF_PREFIX, NODE_PREFIX]

/-- Good data has length `1 + 2S`. -/
theorem GoodNodeData.length (hs : Hasher) (d : Bytes) (h : GoodNodeData hs d) :
    d.length = 1 + hs.size + hs.size := by
  rcases h with ⟨q, v, rfl, hq, hv⟩ | ⟨l, r, rfl, hl, hr⟩
  · simp [LEAF_PREFIX, hq, hv]
    omega
  · simp [NODE_PREFIX, hl, hr]
    omega

theorem is_leaf_leaf_shape (hs : Hasher) (q v : Bytes) :
    is_leaf (some (LEAF_PREFIX ++ q ++ v)) = some true := by
  have hstep : is_leaf (some (LEAF_PREFIX ++ q ++ v)) =
      if 1 ≤ (LEAF_PREFIX ++ q ++ v : Bytes).length then
        some (decide ((LEAF_PREFIX ++ q ++ v : Bytes).take 1 = LEAF_PREFIX)) else none := rfl
  rw [hstep, if_pos (by simp [LEAF_PREFIX])]
  simp [LEAF_PREFIX]

theorem is_leaf_node_shape (hs : Hasher) (l r : Bytes) :
    is_leaf (some (NODE_PREFIX ++ l ++ r)) = some false := by
  have hstep : is_leaf (some (NODE_PREFIX ++ l ++ r)) =
      if 1 ≤ (NODE_PREFIX ++ l ++ r : Bytes).length then
        some (decide ((NODE_PREFIX ++ l ++ r : Bytes).take 1 = LEAF_PREFIX)) else none := rfl
  rw [hstep, if_pos (by simp [NODE_PREFIX])]
  simp [LEAF_PREFIX, NODE_PREFIX]

theorem parse_node_node_shape (hs : Hasher) (l r : Bytes)
    (hl : l.length = hs.size) (hr : r.length = hs.size) :
    parse_node hs (some (NODE_PREFIX ++ l ++ r)) = some (l, r) := by
  have hstep : parse_node hs (some (NODE_PREFIX ++ l ++ r)) =
      if 1 + hs.size + hs.size ≤ (NODE_PREFIX ++ l ++ r : Bytes).length then
        some (((NODE_PREFIX ++ l ++ r : Bytes).drop 1).take hs.size,
          ((NODE_PREFIX ++ l ++ r : Bytes).drop (1 + hs.size)).take hs.size)
      else none := rfl
  rw [hstep, if_pos (by simp [NODE_PREFIX, hl, hr]; omega)]
  unfold NODE_PREFIX
  congr 1
  have h1 : (([1] ++ l ++ r : Bytes).drop 1).take hs.size = l := by
    have hd : ([1] ++ l ++ r : Bytes).drop 1 = l ++ r := by simp
    rw [hd, ← hl, List.take_left]
  have h2 : (([1] ++ l ++ r : Bytes).drop (1 + hs.size)).take hs.size = r := by
    have hd : ([1] ++ l ++ r : Bytes).drop (1 + hs.size) = (l ++ r).drop hs.size := by
      rw [Nat.add_comm 1 hs.size]
      simp [List.drop_succ_cons]
    rw [hd, ← hl, List.drop_left, hl]
    exact List.take_of_length_le (le_of_eq hr)
  rw [h1, h2]

theorem parse_leaf_leaf_shape (hs : Hasher) (q v : Bytes)
    (hq : q.length = hs.size) (hv : v.length = hs.size) :
    parse_leaf hs (LEAF_PREFIX ++ q ++ v) = some (q, v) := by
  unfold parse_leaf
  rw [if_pos (by simp [LEAF_PREFIX, hq, hv]; omega)]
  unfold LEAF_PREFIX
  congr 1
  have h1 : (([0] ++ q ++ v : Bytes).drop 1).take hs.size = q := by
    have hd : ([0] ++ q ++ v : Bytes).drop 1 = q ++ v := by simp
    rw [hd, ← hq, List.take_left]
  have h2 : ([0] ++ q ++ v : Bytes).drop (1 + hs.size) = v := by
    have hd : ([0] ++ q ++ v : Bytes).drop (1 + hs.size) = (q ++ v).drop hs.size := by
      rw [Nat.add_comm 1 hs.size]
      simp [List.drop_succ_cons]
    rw [hd, ← hq, List.drop_left]
  rw [h1, h2]

/-- Good data always parses as a leaf (the slicing is in range). -/
theorem parse_leaf_total_of_good (hs : Hasher) (d : Bytes) (h : GoodNodeData hs d) :
    ∃ a b, parse_leaf hs d = some (a, b) ∧ a.length = hs.size := by
  have hlen := GoodNodeData.length hs d h
  refine ⟨(d.drop 1).take hs.size, d.drop (1 + hs.size), ?_, ?_⟩
  · unfold parse_leaf
    rw [if_pos (by omega)]
  · rw [List.length_take, List.length_drop]
    omega

theorem walk_go_post (hs : Hasher) (nodes : Store) (path : Bytes) (gsd : Bool) (root : Bytes)
    (hwf : NodeStoreWF hs nodes) (hpres : ReachPresent hs nodes root)
    (hplen : path.length = hs.size) :
    ∀ fuel i h d sa pa,
      ReachableNode hs nodes root h → h ≠ placeholder hs →
      Store.get nodes h = some d → is_leaf (some d) = some false →
      i + fuel = 8 * hs.size → pa.head? = some h →
      ∃ r, side_nodes_go hs nodes path gsd i (some d) sa pa fuel = some r ∧
        ((r.path_nodes.head? = some (placeholder hs) ∧ r.current_data = none) ∨
         (∃ p0 dd, r.path_nodes.head? = some p0 ∧ p0 ≠ placeholder hs ∧
           Store.get nodes p0 = some dd ∧ r.current_data = some dd)) := by
  intro fuel
  induction fuel with
  | zero =>
    intro i h d sa pa hreach hph hget hlf _ hhead
    exact ⟨⟨sa, pa, none, some d⟩, rfl, Or.inr ⟨h, d, hhead, hph, hget, rfl⟩⟩
  | succ n ih =>
    intro i h d sa pa hreach hph hget hlf hi hhead
    have hgood : GoodNodeData hs d := hwf (h, d) (Store.get_mem nodes h d hget)
    rcases hgood with ⟨q, v, hd, hq, hv⟩ | ⟨lC, rC, hd, hl, hr⟩
    · rw [hd, is_leaf_leaf_shape hs q v] at hlf
      cases hlf
    subst hd
    have hpn := parse_node_node_shape hs lC rC hl hr
    obtain ⟨bit, hbit⟩ := get_bit_isSome path i (by rw [hplen]; omega)
    unfold side_nodes_go
    simp only [hpn, hbit]
    have hstep : ∀ c, (c = lC ∨ c = rC) → c ≠ placeholder hs →
        ∃ dd, Store.get nodes c = some dd ∧ GoodNodeData hs dd := by
      intro c hc hcp
      obtain ⟨dd, hdd⟩ := hpres c (ReachableNode.step hreach hget hlf hpn hc) hcp
      exact ⟨dd, hdd, hwf (c, dd) (Store.get_mem nodes c dd hdd)⟩
    by_cases hbr : bit = RIGHT
    · simp only [if_pos hbr]
      by_cases hphn : rC = placeholder hs
      · simp only [hphn, if_pos rfl]
        cases gsd <;>
          exact ⟨_, rfl, Or.inl ⟨by simp [hphn], rfl⟩⟩
      · simp only [if_neg hphn]
        obtain ⟨dd, hgetc, hgoodc⟩ := hstep rC (Or.inr rfl) hphn
        rcases hgoodc with ⟨q, v, hdd, hq, hv⟩ | ⟨l2, r2, hdd, hl2, hr2⟩
        · have hlfc : is_leaf (Store.get nodes rC) = some true := by
            rw [hgetc, hdd]
            exact is_leaf_leaf_shape hs q v
          simp only [hlfc]
          cases gsd <;>
            exact ⟨_, rfl, Or.inr ⟨rC, dd, by simp, hphn, hgetc, by simp [hgetc]⟩⟩
        · have hlfc : is_leaf (Store.get nodes rC) = some false := by
            rw [hgetc, hdd]
            exact is_leaf_node_shape hs l2 r2
          simp only [hlfc]
          have hlfc2 : is_leaf (some dd) = some false := by
            rw [hdd]
            exact is_leaf_node_shape hs l2 r2
          have hrec := ih (i + 1) rC dd (lC :: sa) (rC :: pa)
            (ReachableNode.step hreach hget hlf hpn (Or.inr rfl)) hphn hgetc hlfc2
            (by omega) (by simp)
          rw [hgetc]
          exact hrec
    · simp only [if_neg hbr]
      by_cases hphn : lC = placeholder hs
      · simp only [hphn, if_pos rfl]
        cases gsd <;>
          exact ⟨_, rfl, Or.inl ⟨by simp [hphn], rfl⟩⟩
      · simp only [if_neg hphn]
        obtain ⟨dd, hgetc, hgoodc⟩ := hstep lC (Or.inl rfl) hphn
        rcases hgoodc with ⟨q, v, hdd, hq, hv⟩ | ⟨l2, r2, hdd, hl2, hr2⟩
        · have hlfc : is_leaf (Store.get nodes lC) = some true := by
            rw [hgetc, hdd]
            exact is_leaf_leaf_shape hs q v
          simp only [hlfc]
          cases gsd <;>
            exact ⟨_, rfl, Or.inr ⟨lC, dd, by simp, hphn, hgetc, by simp [hgetc]⟩⟩
        · have hlfc : is_leaf (Store.get nodes lC) = some false := by
            rw [hgetc, hdd]
            exact is_leaf_node_shape hs l2 r2
          simp only [hlfc]
          have hlfc2 : is_leaf (some dd) = some false := by
            rw [hdd]
            exact is_leaf_node_shape hs l2 r2
          have hrec := ih (i + 1) lC dd (rC :: sa) (lC :: pa)
            (ReachableNode.step hreach hget hlf hpn (Or.inl rfl)) hphn hgetc hlfc2
            (by omega) (by simp)
          rw [hgetc]
          exact hrec

theorem walk_post (hs : Hasher) (nodes : Store) (path root : Bytes) (gsd : Bool)
    (hwf : NodeStoreWF hs nodes) (hpres : ReachPresent hs nodes root)
    (hplen : path.length = hs.size) :
    ∃ r, side_nodes_for_root hs nodes path root gsd = some r ∧
      ((r.path_nodes.head? = some (placeholder hs) ∧ r.current_data = none) ∨
       (∃ p0 dd, r.path_nodes.head? = some p0 ∧ p0 ≠ placeholder hs ∧
         Store.get nodes p0 = some dd ∧ r.current_data = some dd)) := by
  unfold side_nodes_for_root
  by_cases hr : root = placeholder hs
  · rw [if_pos hr]
    exact ⟨_, rfl, Or.inl ⟨by simp [hr], rfl⟩⟩
  · rw [if_neg hr]
    obtain ⟨d, hget⟩ := hpres root ReachableNode.refl hr
    have hgood : GoodNodeData hs d := hwf (root, d) (Store.get_mem nodes root d hget)
    rcases hgood with ⟨q, v, hd, hq, hv⟩ | ⟨lC, rC, hd, hl, hr2⟩
    · have hlf : is_leaf (Store.get nodes root) = some true := by
        rw [hget, hd]
        exact is_leaf_leaf_shape hs q v
      simp only [hlf]
      exact ⟨_, rfl, Or.inr ⟨root, d, by simp, hr, hget, by simp [hget]⟩⟩
    · have hlf : is_leaf (Store.get nodes root) = some false := by
        rw [hget, hd]
        exact is_leaf_node_shape hs lC rC
      simp only [hlf]
      have hlf2 : is_leaf (some d) = some false := by
        rw [hd]
        exact is_leaf_node_shape hs lC rC
      have hrec := walk_go_post hs nodes path gsd root hwf hpres hplen (depth hs) 0 root d
        [] [root] ReachableNode.refl hr hget hlf2 (by unfold depth; omega) (by simp)
      rw [hget]
      exact hrec

/-- The bottom-up rebuild loop of `remove_with_side_nodes` never panics when
the path is `S` bytes, there are at most `8S` side nodes, and every store
value is non-empty. -/
theorem remove_go_total (hs : Hasher) (path : Bytes) (num : Nat)
    (hplen : path.length = hs.size) (hnum : num ≤ 8 * hs.size) :
    ∀ l idx st nodes2, idx + l.length ≤ num →
      (∀ kv ∈ nodes2, kv.2 ≠ ([] : Bytes)) →
      ∃ res, remove_go hs path num l idx st nodes2 = some res := by
  intro l
  induction l with
  | nil => intro idx st nodes2 _ _; exact ⟨_, rfl⟩
  | cons sn rest ih =>
    intro idx st nodes2 hcnt hne
    obtain ⟨ch, cd, npr⟩ := st
    obtain ⟨bit, hbit⟩ := get_bit_isSome path (num - idx - 1)
      (by rw [hplen]; simp at hcnt; omega)
    have hne2 : ∀ a b : Bytes, ∀ kv ∈ Store.set nodes2 (digest_node hs a b).1
        (digest_node hs a b).2, kv.2 ≠ ([] : Bytes) := by
      intro a b kv hkv
      rcases Store.mem_set _ _ _ kv hkv with h1 | h1
      · rw [h1]; simp [digest_node, NODE_PREFIX]
      · exact hne kv h1
    have hfirst : ∀ (ch2 cd2 : Bytes) (npr2 skip : Bool),
        ∃ res, (if skip then remove_go hs path num rest (idx + 1) (ch2, cd2, npr2) nodes2
          else if npr2 = false ∧ sn = placeholder hs then
            remove_go hs path num rest (idx + 1) (ch2, cd2, npr2) nodes2
          else
            match get_bit_at_from_msb path (num - idx - 1) with
            | none => none
            | some bit =>
              let hd := if bit = RIGHT then digest_node hs sn cd2 else digest_node hs cd2 sn
              remove_go hs path num rest (idx + 1) (hd.1, hd.1, true)
                (Store.set nodes2 hd.1 hd.2)) = some res := by
      intro ch2 cd2 npr2 skip
      by_cases hskip : skip = true
      · simp only [hskip, if_true]
        exact ih (idx + 1) _ nodes2 (by simp at hcnt ⊢; omega) hne
      · simp only [hskip, if_false, Bool.false_eq_true]
        by_cases hc : npr2 = false ∧ sn = placeholder hs
        · rw [if_pos hc]
          exact ih (idx + 1) _ nodes2 (by simp at hcnt ⊢; omega) hne
        · rw [if_neg hc, hbit]
          by_cases hbr : bit = RIGHT
          · simp only [if_pos hbr]
            exact ih (idx + 1) _ _ (by simp at hcnt ⊢; omega) (hne2 sn cd2)
          · simp only [if_neg hbr]
            exact ih (idx + 1) _ _ (by simp at hcnt ⊢; omega) (hne2 cd2 sn)
    have hisleaf : ∃ b, is_leaf (Store.get nodes2 sn) = some b := by
      rcases hg : Store.get nodes2 sn with _ | v
      · exact ⟨false, rfl⟩
      · have hv : v ≠ [] := hne (sn, v) (Store.get_mem nodes2 sn v hg)
        have hstep : is_leaf (some v) =
            if 1 ≤ v.length then some (decide (v.take 1 = LEAF_PREFIX)) else none := rfl
        rw [hstep, if_pos (by cases v; simp at hv; simp)]
        exact ⟨_, rfl⟩
    obtain ⟨b, hb⟩ := hisleaf
    unfold remove_go
    simp only [hb]
    by_cases hcd : cd = ([] : Bytes)
    · simp only [if_pos hcd]
      cases b
      · exact hfirst ch (placeholder hs) true false
      · exact hfirst sn sn npr true
    · simp only [if_neg hcd]
      exact hfirst ch cd npr false

theorem commonPrefixGo_total (a b : Bytes) (hab : b.length = a.length) :
    ∀ fuel i cnt, i + fuel ≤ 8 * a.length →
      ∃ c, commonPrefixGo a b i cnt fuel = some c ∧ c ≤ cnt + fuel := by
  intro fuel
  induction fuel with
  | zero => intro i cnt _; exact ⟨cnt, rfl, Nat.le_refl _⟩
  | succ n ih =>
    intro i cnt h
    obtain ⟨x, hx⟩ := get_bit_isSome a i (by omega)
    obtain ⟨y, hy⟩ := get_bit_isSome b i (by rw [hab]; omega)
    unfold commonPrefixGo
    simp only [hx, hy]
    by_cases hxy : x = y
    · rw [if_pos hxy]
      obtain ⟨c, hc, hcb⟩ := ih (i + 1) (cnt + 1) (by omega)
      exact ⟨c, hc, by omega⟩
    · rw [if_neg hxy]
      exact ⟨cnt, rfl, by omega⟩

theorem update_loop_total (hs : Hasher) (path : Bytes) (side_nodes : List Bytes)
    (cpc dep offset : Nat) (hplen : path.length = hs.size) (hdep : dep = 8 * hs.size)
    (hoff : offset = dep - side_nodes.length) (hlen : side_nodes.length ≤ dep) :
    ∀ fuel i current nodes2, i + fuel = dep →
      ∃ res, update_loop hs path side_nodes cpc dep offset i current nodes2 fuel = some res := by
  intro fuel
  induction fuel with
  | zero => intro i current nodes2 _; exact ⟨_, rfl⟩
  | succ n ih =>
    intro i current nodes2 hi
    unfold update_loop
    by_cases hio : offset ≤ i
    · rw [if_pos hio]
      have hidx : i - offset < side_nodes.length := by omega
      rw [List.get?_eq_get hidx]
      obtain ⟨bit, hbit⟩ := get_bit_isSome path (dep - i - 1) (by rw [hplen]; omega)
      rw [hbit]
      by_cases hbr : bit = RIGHT
      · simp only [if_pos hbr]
        exact ih (i + 1) _ _ (by omega)
      · simp only [if_neg hbr]
        exact ih (i + 1) _ _ (by omega)
    · rw [if_neg hio]
      by_cases hc : cpc ≠ dep ∧ dep - i - 1 < cpc
      · rw [if_pos hc]
        obtain ⟨bit, hbit⟩ := get_bit_isSome path (dep - i - 1) (by rw [hplen]; omega)
        rw [hbit]
        by_cases hbr : bit = RIGHT
        · simp only [if_pos hbr]
          exact ih (i + 1) _ _ (by omega)
        · simp only [if_neg hbr]
          exact ih (i + 1) _ _ (by omega)
      · rw [if_neg hc]
        exact ih (i + 1) _ _ (by omega)

theorem update_finish_total (hs : Hasher) (path value : Bytes) (side_nodes path_nodes : List Bytes)
    (cpc : Nat) (current : Bytes) (nodes2 values2 : Store) (root : Bytes)
    (hplen : path.length = hs.size) (hlen : side_nodes.length ≤ depth hs) :
    ∃ res, update_finish hs path value side_nodes path_nodes cpc current nodes2 values2
      root = some res := by
  unfold update_finish
  obtain ⟨res, hres⟩ := update_loop_total hs path side_nodes cpc (depth hs)
    (depth hs - side_nodes.length) hplen (by unfold depth; omega) rfl hlen
    (depth hs) 0 current ((path_nodes.drop 1).foldl Store.remove nodes2) (by omega)
  simp only [hres]
  obtain ⟨a, b⟩ := res
  exact ⟨_, rfl⟩

/-- C8: over a node store whose entries are serialized nodes and in which
every node reachable from the root is present, the walk returns
`current_data = Some(the raw serialized bytes stored under path_nodes[0])`
when `path_nodes[0]` is not the placeholder, and `None` when it is; hence the
unconditional `old_leaf_data.unwrap()` in `remove_with_side_nodes` and
`update_with_side_notes` — reached only after the
`path_nodes[0] == placeholder` early return — never fails, and neither
function panics at all on the walk's output. -/
theorem C8_walk_current_data (hs : Hasher) (t : SMT) (path root : Bytes)
    (hplen : path.length = hs.size)
    (hwf : NodeStoreWF hs t.nodes) (hpres : ReachPresent hs t.nodes root) :
    ∃ r, side_nodes_for_root hs t.nodes path root false = some r ∧
      ((r.path_nodes.head? = some (placeholder hs) ∧ r.current_data = none) ∨
       (∃ p0, r.path_nodes.head? = some p0 ∧ p0 ≠ placeholder hs ∧
         r.current_data = Store.get t.nodes p0 ∧ r.current_data ≠ none)) ∧
      remove_with_side_nodes hs t path r.side_nodes r.path_nodes r.current_data ≠ none ∧
      ∀ value, update_with_side_notes hs t path value r.side_nodes r.path_nodes
        r.current_data ≠ none := by
  obtain ⟨r, hwalk, hpost⟩ := walk_post hs t.nodes path root false hwf hpres hplen
  obtain ⟨l, l2, hpext, hsext, hslen, _⟩ :=
    side_nodes_for_root_ext hs t.nodes path root false r hwalk
  have hslen8 : r.side_nodes.length ≤ 8 * hs.size := by
    rw [hsext]
    unfold depth at hslen
    omega
  have hslend : r.side_nodes.length ≤ depth hs := by
    unfold depth
    omega
  refine ⟨r, hwalk, ?_, ?_, ?_⟩
  · rcases hpost with ⟨h1, h2⟩ | ⟨p0, dd, h1, h2, h3, h4⟩
    · exact Or.inl ⟨h1, h2⟩
    · refine Or.inr ⟨p0, h1, h2, by rw [h4, h3], by rw [h4]; simp⟩
  · rcases hpost with ⟨h1, h2⟩ | ⟨p0, dd, h1, h2, h3, h4⟩
    · have heval : remove_with_side_nodes hs t path r.side_nodes r.path_nodes
          r.current_data = some (none, t) := by
        simp only [remove_with_side_nodes, h1]
        rw [if_pos trivial]
      rw [heval]
      simp
    · have hgood : GoodNodeData hs dd := hwf (p0, dd) (Store.get_mem _ _ _ h3)
      obtain ⟨ap, rest2, hparse, haplen⟩ := parse_leaf_total_of_good hs dd hgood
      by_cases hpa : path ≠ ap
      · have heval : remove_with_side_nodes hs t path r.side_nodes r.path_nodes
            r.current_data = some (none, t) := by
          simp only [remove_with_side_nodes, h1]
          rw [if_neg h2]
          simp only [h4, hparse]
          rw [if_pos hpa]
        rw [heval]
        simp
      · obtain ⟨res, hres⟩ := remove_go_total hs path r.side_nodes.length hplen hslen8
          r.side_nodes 0 ([], [], false) (r.path_nodes.foldl Store.remove t.nodes)
          (by omega)
          (by
            intro kv hkv
            exact GoodNodeData.ne_nil hs kv.2
              (hwf kv (Store.mem_of_mem_foldl_remove r.path_nodes t.nodes kv hkv)))
        obtain ⟨ch, nd⟩ := res
        have heval : remove_with_side_nodes hs t path r.side_nodes r.path_nodes
            r.current_data = some (some (if ch = ([] : Bytes) then placeholder hs else ch),
              { t with nodes := nd }) := by
          simp only [remove_with_side_nodes, h1]
          rw [if_neg h2]
          simp only [h4, hparse]
          rw [if_neg hpa]
          simp only [hres]
        rw [heval]
        simp
  · intro value
    rcases hpost with ⟨h1, h2⟩ | ⟨p0, dd, h1, h2, h3, h4⟩
    · obtain ⟨res, hres⟩ := update_finish_total hs path value r.side_nodes r.path_nodes
        (depth hs) (digest_leaf hs path (hs.hash value)).1
        (Store.set t.nodes (digest_leaf hs path (hs.hash value)).1
          (digest_leaf hs path (hs.hash value)).2) t.values t.root hplen hslend
      have heval : update_with_side_notes hs t path value r.side_nodes r.path_nodes
          r.current_data = some res := by
        simp only [update_with_side_notes, h1]
        rw [if_pos trivial]
        simp only [ne_eq, not_true_eq_false, if_neg (by simp : ¬ (depth hs ≠ depth hs))]
        exact hres
      rw [heval]
      simp
    · have hgood : GoodNodeData hs dd := hwf (p0, dd) (Store.get_mem _ _ _ h3)
      obtain ⟨ap, rest2, hparse, haplen⟩ := parse_leaf_total_of_good hs dd hgood
      obtain ⟨cpc, hcpc, hcpcb⟩ := commonPrefixGo_total path ap
        (by rw [haplen, hplen]) (path.length * 8) 0 0 (by omega)
      have hcpc2 : commonPrefixCount path ap = some cpc := by
        unfold commonPrefixCount
        exact hcpc
      have hcb : cpc ≤ 8 * hs.size := by
        rw [hplen] at hcpcb
        omega
      by_cases hcd : cpc = depth hs
      · by_cases hvh : hs.hash value = rest2
        · have heval : update_with_side_notes hs t path value r.side_nodes r.path_nodes
              r.current_data = some (t.root, { t with nodes := Store.set t.nodes (digest_leaf hs path (hs.hash value)).1 (digest_leaf hs path (hs.hash value)).2 }) := by
            simp only [update_with_side_notes, h1]
            rw [if_neg h2]
            simp only [h4, hparse, hcpc2, hcd]
            simp only [ne_eq, not_true_eq_false,
              if_neg (by simp : ¬ (depth hs ≠ depth hs)), if_pos hvh]
            simp
          rw [heval]
          simp
        · obtain ⟨res, hres⟩ := update_finish_total hs path value r.side_nodes r.path_nodes
            (depth hs) (digest_leaf hs path (hs.hash value)).1
            (Store.remove (Store.set t.nodes (digest_leaf hs path (hs.hash value)).1
              (digest_leaf hs path (hs.hash value)).2) p0)
            (Store.remove t.values path) t.root hplen hslend
          have heval : update_with_side_notes hs t path value r.side_nodes r.path_nodes
              r.current_data = some res := by
            simp only [update_with_side_notes, h1]
            rw [if_neg h2]
            simp only [h4, hparse, hcpc2, hcd]
            simp only [ne_eq, not_true_eq_false,
              if_neg (by simp : ¬ (depth hs ≠ depth hs)), if_neg hvh]
            exact hres
          rw [heval]
          simp
      · obtain ⟨bit, hbit⟩ := get_bit_isSome path cpc
          (by rw [hplen]; unfold depth at hcd; omega)
        by_cases hbr : bit = RIGHT
        · obtain ⟨res, hres⟩ := update_finish_total hs path value r.side_nodes r.path_nodes
            cpc (digest_node hs p0 (digest_leaf hs path (hs.hash value)).1).1
            (Store.set (Store.set t.nodes (digest_leaf hs path (hs.hash value)).1
                (digest_leaf hs path (hs.hash value)).2)
              (digest_node hs p0 (digest_leaf hs path (hs.hash value)).1).1
              (digest_node hs p0 (digest_leaf hs path (hs.hash value)).1).2)
            t.values t.root hplen hslend
          have heval : update_with_side_notes hs t path value r.side_nodes r.path_nodes
              r.current_data = some res := by
            simp only [update_with_side_notes, h1]
            rw [if_neg h2]
            simp only [h4, hparse, hcpc2]
            rw [if_pos hcd, hbit]
            simp only [if_pos hbr]
            exact hres
          rw [heval]
          simp
        · obtain ⟨res, hres⟩ := update_finish_total hs path value r.side_nodes r.path_nodes
            cpc (digest_node hs (digest_leaf hs path (hs.hash value)).1 p0).1
            (Store.set (Store.set t.nodes (digest_leaf hs path (hs.hash value)).1
                (digest_leaf hs path (hs.hash value)).2)
              (digest_node hs (digest_leaf hs path (hs.hash value)).1 p0).1
              (digest_node hs (digest_leaf hs path (hs.hash value)).1 p0).2)
            t.values t.root hplen hslend
          have heval : update_with_side_notes hs t path value r.side_nodes r.path_nodes
              r.current_data = some res := by
            simp only [update_with_side_notes, h1]
            rw [if_neg h2]
            simp only [h4, hparse, hcpc2]
            rw [if_pos hcd, hbit]
            simp only [if_neg hbr]
            exact hres
          rw [heval]
          simp

theorem t2C1_wf : NodeStoreWF toy t2C1.nodes := by
  intro kv hkv
  simp [t2C1] at hkv
  rcases hkv with h | h | h <;> subst h
  · exact Or.inl ⟨[0], [219], rfl, rfl, rfl⟩
  · exact Or.inl ⟨[128], [220], rfl, rfl, rfl⟩
  · exact Or.inr ⟨[176], [129], rfl, rfl, rfl⟩

theorem t2C1_reach : ReachPresent toy t2C1.nodes [228] := by
  intro c hc hcp
  have hmem : c = [228] ∨ c = [176] ∨ c = [129] := by
    clear hcp
    induction hc with
    | refl => exact Or.inl rfl
    | step hr hget hlf hpn hcc ih =>
      rcases ih with h1 | h1 | h1 <;> subst h1
      · rw [show Store.get t2C1.nodes [228] = some [1, 176, 129] from rfl] at hget
        injection hget with hd
        subst hd
        rw [show parse_node toy (some [1, 176, 129]) = some ([176], [129]) from rfl] at hpn
        injection hpn with hp
        rcases hcc with rfl | rfl
        · exact Or.inr (Or.inl (congrArg Prod.fst hp).symm)
        · exact Or.inr (Or.inr (congrArg Prod.snd hp).symm)
      · rw [show Store.get t2C1.nodes [176] = some [0, 0, 219] from rfl] at hget
        injection hget with hd
        subst hd
        exact absurd hlf (by decide)
      · rw [show Store.get t2C1.nodes [129] = some [0, 128, 220] from rfl] at hget
        injection hget with hd
        subst hd
        exact absurd hlf (by decide)
  rcases hmem with rfl | rfl | rfl
  · exact ⟨[1, 176, 129], rfl⟩
  · exact ⟨[0, 0, 219], rfl⟩
  · exact ⟨[0, 128, 220], rfl⟩

/-- C8 witness: the two-leaf toy tree, walked for path `[0]` from its root
`[228]`. -/
theorem C8_w : ∃ r, side_nodes_for_root toy t2C1.nodes [0] [228] false = some r ∧
    ((r.path_nodes.head? = some (placeholder toy) ∧ r.current_data = none) ∨
     (∃ p0, r.path_nodes.head? = some p0 ∧ p0 ≠ placeholder toy ∧
       r.current_data = Store.get t2C1.nodes p0 ∧ r.current_data ≠ none)) ∧
    remove_with_side_nodes toy t2C1 [0] r.side_nodes r.path_nodes r.current_data ≠ none ∧
    ∀ value, update_with_side_notes toy t2C1 [0] value r.side_nodes r.path_nodes
      r.current_data ≠ none :=
  C8_walk_current_data toy t2C1 [0] [228] rfl t2C1_wf t2C1_reach

/-! # C2 development: canonical form of the sparse Merkle tree -/

/-- Path-level entries: `(path, value_hash)` pairs. -/
abbrev PE := List (Bytes × Bytes)

/-- The bit of `p` at MSB position `i`, defaulting to `0` out of range. -/
def pbit (p : Bytes) (i : Nat) : Nat := (get_bit_at_from_msb p i).getD 0

/-- Entries whose path has bit `i` clear (the left side of a node split). -/
def splitL (i : Nat) (S : PE) : PE := S.filter fun e => decide (pbit e.1 i ≠ RIGHT)

/-- Entries whose path has bit `i` set (the right side of a node split). -/
def splitR (i : Nat) (S : PE) : PE := S.filter fun e => decide (pbit e.1 i = RIGHT)

/-- The canonical digest of the subtree holding the entries `S`, rooted at bit
level `i` (fuel `f` = remaining levels): an empty subtree is the placeholder, a
singleton is a leaf, otherwise an internal node over the bit-`i` split. -/
def canonD (hs : Hasher) : Nat → Nat → PE → Bytes
  | _, _, [] => placeholder hs
  | _, _, [e] => (digest_leaf hs e.1 e.2).1
  | 0, _, _ => placeholder hs
  | f+1, i, S =>
    (digest_node hs (canonD hs f (i+1) (splitL i S)) (canonD hs f (i+1) (splitR i S))).1

/-- The serialization of the canonical subtree root (junk `[]` when empty). -/
def canonS (hs : Hasher) : Nat → Nat → PE → Bytes
  | _, _, [] => []
  | _, _, [e] => (digest_leaf hs e.1 e.2).2
  | 0, _, _ => []
  | f+1, i, S =>
    (digest_node hs (canonD hs f (i+1) (splitL i S)) (canonD hs f (i+1) (splitR i S))).2

/-- All serializations appearing in the canonical subtree of `S`. -/
def canonSerials (hs : Hasher) : Nat → Nat → PE → List Bytes
  | _, _, [] => []
  | _, _, [e] => [(digest_leaf hs e.1 e.2).2]
  | 0, _, _ => []
  | f+1, i, S =>
    (digest_node hs (canonD hs f (i+1) (splitL i S)) (canonD hs f (i+1) (splitR i S))).2 ::
      (canonSerials hs f (i+1) (splitL i S) ++ canonSerials hs f (i+1) (splitR i S))

/-- The number of materialized nodes of the canonical subtree of `S`. -/
def csize : Nat → Nat → PE → Nat
  | _, _, [] => 0
  | _, _, [_] => 1
  | 0, _, _ => 0
  | f+1, i, S => 1 + csize f (i+1) (splitL i S) + csize f (i+1) (splitR i S)

/-- A well-formed path: exactly `size` bytes, each an honest `u8`. -/
def PathWF (hs : Hasher) (p : Bytes) : Prop :=
  p.length = hs.size ∧ ∀ b ∈ p, b < 256

/-- Entry lists feeding the canonical form at level `i`: well-formed pairwise
distinct paths that agree on every bit below `i`. -/
structure CWF (hs : Hasher) (i : Nat) (S : PE) : Prop where
  wf : ∀ e ∈ S, PathWF hs e.1
  distinct : S.Pairwise fun e1 e2 => e1.1 ≠ e2.1
  agree : ∀ e1 ∈ S, ∀ e2 ∈ S, ∀ j < i, pbit e1.1 j = pbit e2.1 j

/-- Hash outputs are honest byte strings. -/
def HashBytes (hs : Hasher) : Prop :=
  ∀ d : Bytes, ∀ b ∈ hs.hash d, b < 256

/-- Pairwise injectivity of the hash over a fixed serial family. -/
def InjOnB (hs : Hasher) (B : List Bytes) : Prop :=
  ∀ a ∈ B, ∀ b ∈ B, hs.hash a = hs.hash b → a = b

/-- No serial of the family hashes to the placeholder. -/
def PhFree (hs : Hasher) (B : List Bytes) : Prop :=
  ∀ s ∈ B, hs.hash s ≠ placeholder hs

section Basic

theorem pbit_cases (p : Bytes) (i : Nat) : pbit p i = 0 ∨ pbit p i = RIGHT := by
  unfold pbit get_bit_at_from_msb
  cases p.get? (i / 8) with
  | none => left; rfl
  | some b =>
    simp only [Option.getD]
    split
    · right; rfl
    · left; rfl

theorem mem_splitL {i : Nat} {S : PE} {e : Bytes × Bytes} :
    e ∈ splitL i S ↔ e ∈ S ∧ pbit e.1 i ≠ RIGHT := by
  simp [splitL]

theorem mem_splitR {i : Nat} {S : PE} {e : Bytes × Bytes} :
    e ∈ splitR i S ↔ e ∈ S ∧ pbit e.1 i = RIGHT := by
  simp [splitR]

theorem splitL_sublist (i : Nat) (S : PE) : (splitL i S).Sublist S :=
  List.filter_sublist S

theorem splitR_sublist (i : Nat) (S : PE) : (splitR i S).Sublist S :=
  List.filter_sublist S

theorem CWF_splitL {hs : Hasher} {i : Nat} {S : PE} (h : CWF hs i S) :
    CWF hs (i + 1) (splitL i S) := by
  refine ⟨fun e he => h.wf e ((splitL_sublist i S).mem he), ?_, ?_⟩
  · exact (h.distinct.sublist (splitL_sublist i S))
  · intro e1 h1 e2 h2 j hj
    rcases mem_splitL.mp h1 with ⟨m1, b1⟩
    rcases mem_splitL.mp h2 with ⟨m2, b2⟩
    rcases Nat.lt_succ_iff_lt_or_eq.mp hj with hj' | rfl
    · exact h.agree e1 m1 e2 m2 j hj'
    · rcases pbit_cases e1.1 j with q1 | q1 <;> rcases pbit_cases e2.1 j with q2 | q2 <;>
        simp_all

theorem CWF_splitR {hs : Hasher} {i : Nat} {S : PE} (h : CWF hs i S) :
    CWF hs (i + 1) (splitR i S) := by
  refine ⟨fun e he => h.wf e ((splitR_sublist i S).mem he), ?_, ?_⟩
  · exact (h.distinct.sublist (splitR_sublist i S))
  · intro e1 h1 e2 h2 j hj
    rcases mem_splitR.mp h1 with ⟨m1, b1⟩
    rcases mem_splitR.mp h2 with ⟨m2, b2⟩
    rcases Nat.lt_succ_iff_lt_or_eq.mp hj with hj' | rfl
    · exact h.agree e1 m1 e2 m2 j hj'
    · rw [b1, b2]

end Basic

section Paths

theorem pbit_eq_testBit {p : Bytes} {i b : Nat} (h : p.get? (i / 8) = some b) :
    pbit p i = if b.testBit (8 - 1 - i % 8) then 1 else 0 := by
  unfold pbit
  rw [get_bit_eq_testBit p i b h]
  rfl

theorem path_eq_of_pbit_eq {hs : Hasher} {p1 p2 : Bytes} (h1 : PathWF hs p1)
    (h2 : PathWF hs p2) (h : ∀ j < depth hs, pbit p1 j = pbit p2 j) : p1 = p2 := by
  have hlen : p1.length = p2.length := by rw [h1.1, h2.1]
  apply List.ext_get?
  intro k
  rcases Nat.lt_or_ge k p1.length with hk | hk
  · have hk2 : k < p2.length := by omega
    have hg1 := List.get?_eq_get hk
    have hg2 := List.get?_eq_get hk2
    rw [hg1, hg2]
    congr 1
    have hb1 : p1.get ⟨k, hk⟩ < 256 := h1.2 _ (List.get_mem _ _ _)
    have hb2 : p2.get ⟨k, hk2⟩ < 256 := h2.2 _ (List.get_mem _ _ _)
    apply Nat.eq_of_testBit_eq
    intro t
    rcases Nat.lt_or_ge t 8 with ht | ht
    · have hj : 8 * k + (7 - t) < depth hs := by
        have : k < hs.size := by rw [← h1.1]; exact hk
        unfold depth; omega
      have hdiv : (8 * k + (7 - t)) / 8 = k := by omega
      have hmod : (8 * k + (7 - t)) % 8 = 7 - t := by omega
      have e1 : pbit p1 (8 * k + (7 - t)) =
          if (p1.get ⟨k, hk⟩).testBit (8 - 1 - (8 * k + (7 - t)) % 8) then 1 else 0 :=
        pbit_eq_testBit (by rw [hdiv]; exact hg1)
      have e2 : pbit p2 (8 * k + (7 - t)) =
          if (p2.get ⟨k, hk2⟩).testBit (8 - 1 - (8 * k + (7 - t)) % 8) then 1 else 0 :=
        pbit_eq_testBit (by rw [hdiv]; exact hg2)
      have heq := h _ hj
      rw [e1, e2, hmod] at heq
      have hidx : 8 - 1 - (7 - t) = t := by omega
      rw [hidx] at heq
      by_cases c1 : (p1.get ⟨k, hk⟩).testBit t <;> by_cases c2 : (p2.get ⟨k, hk2⟩).testBit t <;>
        simp_all
    · have l1 : (p1.get ⟨k, hk⟩).testBit t = false := by
        apply Nat.testBit_eq_false_of_lt
        calc p1.get ⟨k, hk⟩ < 256 := hb1
        _ = 2 ^ 8 := by norm_num
        _ ≤ 2 ^ t := Nat.pow_le_pow_right (by norm_num) ht
      have l2 : (p2.get ⟨k, hk2⟩).testBit t = false := by
        apply Nat.testBit_eq_false_of_lt
        calc p2.get ⟨k, hk2⟩ < 256 := hb2
        _ = 2 ^ 8 := by norm_num
        _ ≤ 2 ^ t := Nat.pow_le_pow_right (by norm_num) ht
      rw [l1, l2]
  · rw [List.get?_eq_none.mpr hk, List.get?_eq_none.mpr (by omega)]

theorem length_le_one_of_depth {hs : Hasher} {i : Nat} {S : PE} (h : CWF hs i S)
    (hd : depth hs ≤ i) : S.length ≤ 1 := by
  match S, h with
  | [], _ => simp
  | [e], _ => simp
  | e1 :: e2 :: rest, h =>
    exfalso
    have hne : e1.1 ≠ e2.1 := by
      have := h.distinct
      rw [List.pairwise_cons] at this
      exact this.1 e2 (by simp)
    apply hne
    apply path_eq_of_pbit_eq (h.wf e1 (by simp)) (h.wf e2 (by simp))
    intro j hj
    exact h.agree e1 (by simp) e2 (by simp) j (by omega)

end Paths

section CanonEqs

theorem canonD_nil {hs : Hasher} {f i : Nat} : canonD hs f i [] = placeholder hs := by
  cases f <;> rfl

theorem canonD_single {hs : Hasher} {f i : Nat} {e : Bytes × Bytes} :
    canonD hs f i [e] = (digest_leaf hs e.1 e.2).1 := by
  cases f <;> rfl

theorem canonD_node {hs : Hasher} {f i : Nat} {a b : Bytes × Bytes} {r : PE} :
    canonD hs (f+1) i (a :: b :: r) =
      (digest_node hs (canonD hs f (i+1) (splitL i (a :: b :: r)))
        (canonD hs f (i+1) (splitR i (a :: b :: r)))).1 := rfl

theorem canonS_single {hs : Hasher} {f i : Nat} {e : Bytes × Bytes} :
    canonS hs f i [e] = (digest_leaf hs e.1 e.2).2 := by
  cases f <;> rfl

theorem canonS_node {hs : Hasher} {f i : Nat} {a b : Bytes × Bytes} {r : PE} :
    canonS hs (f+1) i (a :: b :: r) =
      (digest_node hs (canonD hs f (i+1) (splitL i (a :: b :: r)))
        (canonD hs f (i+1) (splitR i (a :: b :: r)))).2 := rfl

theorem canonSerials_nil {hs : Hasher} {f i : Nat} : canonSerials hs f i [] = [] := by
  cases f <;> rfl

theorem canonSerials_single {hs : Hasher} {f i : Nat} {e : Bytes × Bytes} :
    canonSerials hs f i [e] = [(digest_leaf hs e.1 e.2).2] := by
  cases f <;> rfl

theorem canonSerials_node {hs : Hasher} {f i : Nat} {a b : Bytes × Bytes} {r : PE} :
    canonSerials hs (f+1) i (a :: b :: r) =
      (digest_node hs (canonD hs f (i+1) (splitL i (a :: b :: r)))
        (canonD hs f (i+1) (splitR i (a :: b :: r)))).2 ::
      (canonSerials hs f (i+1) (splitL i (a :: b :: r)) ++
        canonSerials hs f (i+1) (splitR i (a :: b :: r))) := rfl

theorem csize_nil {f i : Nat} : csize f i [] = 0 := by cases f <;> rfl

theorem csize_single {f i : Nat} {e : Bytes × Bytes} : csize f i [e] = 1 := by
  cases f <;> rfl

theorem csize_node {f i : Nat} {a b : Bytes × Bytes} {r : PE} :
    csize (f+1) i (a :: b :: r) =
      1 + csize f (i+1) (splitL i (a :: b :: r)) + csize f (i+1) (splitR i (a :: b :: r)) := rfl

theorem pe_shape (S : PE) : S = [] ∨ (∃ e, S = [e]) ∨ ∃ a b r, S = a :: b :: r := by
  match S with
  | [] => exact Or.inl rfl
  | [e] => exact Or.inr (Or.inl ⟨e, rfl⟩)
  | a :: b :: r => exact Or.inr (Or.inr ⟨a, b, r, rfl⟩)

theorem canonD_eq_hash {hs : Hasher} {f i : Nat} {S : PE} (h : CWF hs i S)
    (hif : i + f = depth hs) (hne : S ≠ []) :
    canonD hs f i S = hs.hash (canonS hs f i S) := by
  rcases pe_shape S with rfl | ⟨e, rfl⟩ | ⟨a, b, r, rfl⟩
  · exact absurd rfl hne
  · rw [canonD_single, canonS_single]; rfl
  · cases f with
    | zero =>
      exfalso
      have := length_le_one_of_depth h (by omega)
      simp at this
    | succ f' => rfl

theorem canonS_mem {hs : Hasher} {f i : Nat} {S : PE} (h : CWF hs i S)
    (hif : i + f = depth hs) (hne : S ≠ []) :
    canonS hs f i S ∈ canonSerials hs f i S := by
  rcases pe_shape S with rfl | ⟨e, rfl⟩ | ⟨a, b, r, rfl⟩
  · exact absurd rfl hne
  · rw [canonS_single, canonSerials_single]; simp
  · cases f with
    | zero =>
      exfalso
      have := length_le_one_of_depth h (by omega)
      simp at this
    | succ f' =>
      rw [canonS_node, canonSerials_node]
      simp

theorem canonSerials_splitL_sub {hs : Hasher} {f i : Nat} {a b : Bytes × Bytes} {r : PE} :
    ∀ s ∈ canonSerials hs f (i+1) (splitL i (a :: b :: r)),
      s ∈ canonSerials hs (f+1) i (a :: b :: r) := by
  intro s hsm
  rw [canonSerials_node]
  simp only [List.mem_cons, List.mem_append]
  exact Or.inr (Or.inl hsm)

theorem canonSerials_splitR_sub {hs : Hasher} {f i : Nat} {a b : Bytes × Bytes} {r : PE} :
    ∀ s ∈ canonSerials hs f (i+1) (splitR i (a :: b :: r)),
      s ∈ canonSerials hs (f+1) i (a :: b :: r) := by
  intro s hsm
  rw [canonSerials_node]
  simp only [List.mem_cons, List.mem_append]
  exact Or.inr (Or.inr hsm)

theorem canonD_length {hs : Hasher} (hl : HashLen hs) (f i : Nat) (S : PE) :
    (canonD hs f i S).length = hs.size := by
  rcases pe_shape S with rfl | ⟨e, rfl⟩ | ⟨a, b, r, rfl⟩
  · rw [canonD_nil]; exact List.length_replicate _ _
  · rw [canonD_single]; exact hl _
  · cases f with
    | zero => exact List.length_replicate _ _
    | succ f' => exact hl _

theorem canonD_ne_placeholder {hs : Hasher} {B : List Bytes} {f i : Nat} {S : PE}
    (hph : PhFree hs B) (h : CWF hs i S) (hif : i + f = depth hs) (hne : S ≠ [])
    (hsub : ∀ s ∈ canonSerials hs f i S, s ∈ B) :
    canonD hs f i S ≠ placeholder hs := by
  rw [canonD_eq_hash h hif hne]
  exact hph _ (hsub _ (canonS_mem h hif hne))

end CanonEqs

section SerialInj

theorem mem_split_iff {i : Nat} {S : PE} {e : Bytes × Bytes} :
    e ∈ S ↔ e ∈ splitL i S ∨ e ∈ splitR i S := by
  rw [mem_splitL, mem_splitR]
  rcases pbit_cases e.1 i with h | h
  · constructor
    · intro hm; exact Or.inl ⟨hm, by rw [h]; decide⟩
    · rintro (⟨hm, _⟩ | ⟨hm, _⟩) <;> exact hm
  · constructor
    · intro hm; exact Or.inr ⟨hm, h⟩
    · rintro (⟨hm, _⟩ | ⟨hm, _⟩) <;> exact hm

theorem leaf_serial_inj {hs : Hasher} {e1 e2 : Bytes × Bytes}
    (h1 : e1.1.length = hs.size) (h2 : e2.1.length = hs.size)
    (h : (digest_leaf hs e1.1 e1.2).2 = (digest_leaf hs e2.1 e2.2).2) : e1 = e2 := by
  have h' : LEAF_PREFIX ++ e1.1 ++ e1.2 = LEAF_PREFIX ++ e2.1 ++ e2.2 := h
  rw [List.append_assoc, List.append_assoc] at h'
  have h'' : e1.1 ++ e1.2 = e2.1 ++ e2.2 := by
    have := List.append_inj h' rfl
    exact this.2
  have := List.append_inj h'' (by rw [h1, h2])
  exact Prod.ext this.1 this.2

/-- A singleton's serial determines the other side: the entry lists have the
same members and the same node count. -/
theorem serial_leaf_determines {hs : Hasher} {f2 i2 : Nat} {e1 : Bytes × Bytes} {S2 : PE}
    (hwf1 : e1.1.length = hs.size) (h2 : CWF hs i2 S2) (hif2 : i2 + f2 = depth hs)
    (hne2 : S2 ≠ []) (heq : (digest_leaf hs e1.1 e1.2).2 = canonS hs f2 i2 S2) :
    (∀ e, e ∈ [e1] ↔ e ∈ S2) ∧ 1 = csize f2 i2 S2 := by
  rcases pe_shape S2 with rfl | ⟨e2, rfl⟩ | ⟨a, b, r, rfl⟩
  · exact absurd rfl hne2
  · rw [canonS_single] at heq
    have := leaf_serial_inj hwf1 ((h2.wf e2 (by simp)).1) heq
    subst this
    rw [csize_single]
    exact ⟨fun e => Iff.rfl, rfl⟩
  · exfalso
    cases f2 with
    | zero =>
      have := length_le_one_of_depth h2 (by omega)
      simp at this
    | succ f2' =>
      rw [canonS_node] at heq
      have h0 : (digest_leaf hs e1.1 e1.2).2 = LEAF_PREFIX ++ e1.1 ++ e1.2 := rfl
      rw [h0] at heq
      have : (0 : Nat) = 1 := by
        have := congrArg (fun l => l.head? ) heq
        simpa [LEAF_PREFIX, NODE_PREFIX, digest_node] using this
      omega

/-- The core injectivity property of canonical serializations: over a serial
family on which the hash is injective and placeholder-free, equal serials mean
equal entry sets and equal node counts. -/
theorem canon_serial_determines {hs : Hasher} {B : List Bytes} (hl : HashLen hs)
    (hph : PhFree hs B) (hinj : InjOnB hs B) :
    ∀ f1 i1 S1 f2 i2 S2, CWF hs i1 S1 → CWF hs i2 S2 →
      i1 + f1 = depth hs → i2 + f2 = depth hs → S1 ≠ [] → S2 ≠ [] →
      (∀ s ∈ canonSerials hs f1 i1 S1, s ∈ B) →
      (∀ s ∈ canonSerials hs f2 i2 S2, s ∈ B) →
      canonS hs f1 i1 S1 = canonS hs f2 i2 S2 →
      (∀ e, e ∈ S1 ↔ e ∈ S2) ∧ csize f1 i1 S1 = csize f2 i2 S2 := by
  intro f1
  induction f1 with
  | zero =>
    intro i1 S1 f2 i2 S2 h1 h2 hif1 hif2 hne1 hne2 hB1 hB2 heq
    have hlen := length_le_one_of_depth h1 (by omega)
    rcases pe_shape S1 with rfl | ⟨e1, rfl⟩ | ⟨a, b, r, rfl⟩
    · exact absurd rfl hne1
    · rw [canonS_single] at heq
      have := serial_leaf_determines ((h1.wf e1 (by simp)).1) h2 hif2 hne2 heq
      rw [csize_single]
      exact this
    · simp at hlen
  | succ f1' ih =>
    intro i1 S1 f2 i2 S2 h1 h2 hif1 hif2 hne1 hne2 hB1 hB2 heq
    rcases pe_shape S1 with rfl | ⟨e1, rfl⟩ | ⟨a, b, r, rfl⟩
    · exact absurd rfl hne1
    · rw [canonS_single] at heq
      have := serial_leaf_determines ((h1.wf e1 (by simp)).1) h2 hif2 hne2 heq
      rw [csize_single]
      exact this
    · -- S1 is a node; S2 must be a node too
      rcases pe_shape S2 with rfl | ⟨e2, rfl⟩ | ⟨a2, b2, r2, rfl⟩
      · exact absurd rfl hne2
      · rw [canonS_single] at heq
        have := serial_leaf_determines ((h2.wf e2 (by simp)).1) h1 hif1 (by simp) heq.symm
        rw [csize_single]
        refine ⟨fun e => (this.1 e).symm, this.2.symm⟩
      · cases f2 with
        | zero =>
          exfalso
          have := length_le_one_of_depth h2 (by omega)
          simp at this
        | succ f2' =>
          rw [canonS_node, canonS_node] at heq
          have hd1 : (digest_node hs (canonD hs f1' (i1+1) (splitL i1 (a :: b :: r)))
              (canonD hs f1' (i1+1) (splitR i1 (a :: b :: r)))).2 =
              NODE_PREFIX ++ canonD hs f1' (i1+1) (splitL i1 (a :: b :: r)) ++
                canonD hs f1' (i1+1) (splitR i1 (a :: b :: r)) := rfl
          have hd2 : (digest_node hs (canonD hs f2' (i2+1) (splitL i2 (a2 :: b2 :: r2)))
              (canonD hs f2' (i2+1) (splitR i2 (a2 :: b2 :: r2)))).2 =
              NODE_PREFIX ++ canonD hs f2' (i2+1) (splitL i2 (a2 :: b2 :: r2)) ++
                canonD hs f2' (i2+1) (splitR i2 (a2 :: b2 :: r2)) := rfl
          rw [hd1, hd2, List.append_assoc, List.append_assoc] at heq
          have heq2 := (List.append_inj heq rfl).2
          have hL : canonD hs f1' (i1+1) (splitL i1 (a :: b :: r)) =
              canonD hs f2' (i2+1) (splitL i2 (a2 :: b2 :: r2)) :=
            (List.append_inj heq2 (by rw [canonD_length hl, canonD_length hl])).1
          have hR : canonD hs f1' (i1+1) (splitR i1 (a :: b :: r)) =
              canonD hs f2' (i2+1) (splitR i2 (a2 :: b2 :: r2)) :=
            (List.append_inj heq2 (by rw [canonD_length hl, canonD_length hl])).2
          -- relate the two left children, then the two right children
          have hside : ∀ (T1 T2 : PE), CWF hs (i1+1) T1 → CWF hs (i2+1) T2 →
              (∀ s ∈ canonSerials hs f1' (i1+1) T1, s ∈ B) →
              (∀ s ∈ canonSerials hs f2' (i2+1) T2, s ∈ B) →
              canonD hs f1' (i1+1) T1 = canonD hs f2' (i2+1) T2 →
              (∀ e, e ∈ T1 ↔ e ∈ T2) ∧ csize f1' (i1+1) T1 = csize f2' (i2+1) T2 := by
            intro T1 T2 hT1 hT2 hTB1 hTB2 hTD
            rcases eq_or_ne T1 [] with rfl | hTne1
            · rcases eq_or_ne T2 [] with rfl | hTne2
              · exact ⟨fun e => Iff.rfl, by rw [csize_nil, csize_nil]⟩
              · exfalso
                rw [canonD_nil] at hTD
                exact canonD_ne_placeholder hph hT2 (by omega) hTne2 hTB2 hTD.symm
            · rcases eq_or_ne T2 [] with rfl | hTne2
              · exfalso
                rw [canonD_nil] at hTD
                exact canonD_ne_placeholder hph hT1 (by omega) hTne1 hTB1 hTD
              · rw [canonD_eq_hash hT1 (by omega) hTne1,
                  canonD_eq_hash hT2 (by omega) hTne2] at hTD
                have hs_eq := hinj _ (hTB1 _ (canonS_mem hT1 (by omega) hTne1))
                  _ (hTB2 _ (canonS_mem hT2 (by omega) hTne2)) hTD
                exact ih (i1+1) T1 f2' (i2+1) T2 hT1 hT2 (by omega) (by omega)
                  hTne1 hTne2 hTB1 hTB2 hs_eq
          have hLs := hside _ _ (CWF_splitL h1) (CWF_splitL h2)
            (fun s hsm => hB1 s (canonSerials_splitL_sub s hsm))
            (fun s hsm => hB2 s (canonSerials_splitL_sub s hsm)) hL
          have hRs := hside _ _ (CWF_splitR h1) (CWF_splitR h2)
            (fun s hsm => hB1 s (canonSerials_splitR_sub s hsm))
            (fun s hsm => hB2 s (canonSerials_splitR_sub s hsm)) hR
          constructor
          · intro e
            exact (@mem_split_iff i1 (a :: b :: r) e).trans
              ((or_congr (hLs.1 e) (hRs.1 e)).trans (@mem_split_iff i2 (a2 :: b2 :: r2) e).symm)
          · rw [csize_node, csize_node, hLs.2, hRs.2]

end SerialInj

section PermAndShift

theorem canonD_zero_node {hs : Hasher} {i : Nat} {a b : Bytes × Bytes} {r : PE} :
    canonD hs 0 i (a :: b :: r) = placeholder hs := rfl

theorem csize_zero_node {i : Nat} {a b : Bytes × Bytes} {r : PE} :
    csize 0 i (a :: b :: r) = 0 := rfl

theorem filter_all_eq_self {α : Type} (p : α → Bool) (l : List α) (h : ∀ x ∈ l, p x = true) :
    l.filter p = l := List.filter_eq_self.mpr h

/-- Lists of ≥ 2 entries that all agree at bit `j` put everything on one side
of the split, so the canonical node at level `j` is a single wrapper. -/
theorem csize_shift_step {j : Nat} {S : PE} {f : Nat}
    (hagree : ∀ e1 ∈ S, ∀ e2 ∈ S, pbit e1.1 j = pbit e2.1 j)
    (hlen : 2 ≤ S.length) :
    csize (f+1) j S = 1 + csize f (j+1) S := by
  rcases pe_shape S with rfl | ⟨e, rfl⟩ | ⟨a, b, r, rfl⟩
  · simp at hlen
  · simp at hlen
  · rw [csize_node]
    rcases pbit_cases a.1 j with ha | ha
    · have hL : splitL j (a :: b :: r) = a :: b :: r := by
        apply filter_all_eq_self
        intro x hx
        have hxa := hagree x hx a (by simp)
        simp [hxa, ha, RIGHT]
      have hR : splitR j (a :: b :: r) = [] := by
        apply List.filter_eq_nil_iff.mpr
        intro x hx
        have hxa := hagree x hx a (by simp)
        simp [hxa, ha, RIGHT]
      rw [hL, hR, csize_nil]
      omega
    · have hL2 : splitL j (a :: b :: r) = [] := by
        apply List.filter_eq_nil_iff.mpr
        intro x hx
        have hxa := hagree x hx a (by simp)
        simp [hxa, ha, RIGHT]
      have hR2 : splitR j (a :: b :: r) = a :: b :: r := by
        apply filter_all_eq_self
        intro x hx
        have hxa := hagree x hx a (by simp)
        simp [hxa, ha, RIGHT]
      rw [hL2, hR2, csize_nil]

/-- Shifting a two-or-more-entry list that agrees on bits `[j, i')` from
level `i'` up to level `j` adds exactly one wrapper node per level. -/
theorem csize_shift {hs : Hasher} {i' : Nat} {S : PE} (hcwf : CWF hs i' S)
    (hlen : 2 ≤ S.length) :
    ∀ d f j, j + d = i' → csize (f + d) j S = d + csize f i' S := by
  intro d
  induction d with
  | zero =>
    intro f j hj
    have : j = i' := by omega
    subst this
    simp
  | succ d' ih =>
    intro f j hj
    have hstep : csize (f + (d' + 1)) j S = 1 + csize (f + d') (j + 1) S := by
      apply csize_shift_step
      · intro e1 h1 e2 h2
        exact hcwf.agree e1 h1 e2 h2 _ (by omega)
      · exact hlen
    rw [hstep, ih f (j + 1) (by omega)]
    omega

end PermAndShift

section Perm

theorem canonD_perm {hs : Hasher} :
    ∀ f i (S1 S2 : PE), S1.Perm S2 → canonD hs f i S1 = canonD hs f i S2 := by
  intro f
  induction f with
  | zero =>
    intro i S1 S2 hp
    rcases pe_shape S1 with rfl | ⟨e, rfl⟩ | ⟨a, b, r, rfl⟩
    · rw [hp.symm.eq_nil]
    · rw [List.singleton_perm.mp hp]
    · have hlen := hp.length_eq
      rcases pe_shape S2 with rfl | ⟨e2, rfl⟩ | ⟨a2, b2, r2, rfl⟩
      · simp at hlen
      · exfalso; simp at hlen
      · rw [canonD_zero_node, canonD_zero_node]
  | succ f' ih =>
    intro i S1 S2 hp
    rcases pe_shape S1 with rfl | ⟨e, rfl⟩ | ⟨a, b, r, rfl⟩
    · rw [hp.symm.eq_nil]
    · rw [List.singleton_perm.mp hp]
    · have hlen := hp.length_eq
      rcases pe_shape S2 with rfl | ⟨e2, rfl⟩ | ⟨a2, b2, r2, rfl⟩
      · simp at hlen
      · exfalso; simp at hlen
      · have hpl : (splitL i (a :: b :: r)).Perm (splitL i (a2 :: b2 :: r2)) :=
          hp.filter _
        have hpr : (splitR i (a :: b :: r)).Perm (splitR i (a2 :: b2 :: r2)) :=
          hp.filter _
        rw [canonD_node, canonD_node, ih (i+1) _ _ hpl, ih (i+1) _ _ hpr]

theorem canonS_perm {hs : Hasher} {f i : Nat} {S1 S2 : PE} (hp : S1.Perm S2) :
    canonS hs f i S1 = canonS hs f i S2 := by
  rcases pe_shape S1 with rfl | ⟨e, rfl⟩ | ⟨a, b, r, rfl⟩
  · rw [hp.symm.eq_nil]
  · rw [List.singleton_perm.mp hp]
  · have hlen := hp.length_eq
    rcases pe_shape S2 with rfl | ⟨e2, rfl⟩ | ⟨a2, b2, r2, rfl⟩
    · simp at hlen
    · exfalso; simp at hlen
    · cases f with
      | zero => rfl
      | succ f' =>
        have hpl : (splitL i (a :: b :: r)).Perm (splitL i (a2 :: b2 :: r2)) :=
          hp.filter _
        have hpr : (splitR i (a :: b :: r)).Perm (splitR i (a2 :: b2 :: r2)) :=
          hp.filter _
        rw [canonS_node, canonS_node, canonD_perm f' (i+1) _ _ hpl,
          canonD_perm f' (i+1) _ _ hpr]

theorem csize_perm :
    ∀ f i (S1 S2 : PE), S1.Perm S2 → csize f i S1 = csize f i S2 := by
  intro f
  induction f with
  | zero =>
    intro i S1 S2 hp
    rcases pe_shape S1 with rfl | ⟨e, rfl⟩ | ⟨a, b, r, rfl⟩
    · rw [hp.symm.eq_nil]
    · rw [List.singleton_perm.mp hp]
    · have hlen := hp.length_eq
      rcases pe_shape S2 with rfl | ⟨e2, rfl⟩ | ⟨a2, b2, r2, rfl⟩
      · simp at hlen
      · exfalso; simp at hlen
      · rw [csize_zero_node, csize_zero_node]
  | succ f' ih =>
    intro i S1 S2 hp
    rcases pe_shape S1 with rfl | ⟨e, rfl⟩ | ⟨a, b, r, rfl⟩
    · rw [hp.symm.eq_nil]
    · rw [List.singleton_perm.mp hp]
    · have hlen := hp.length_eq
      rcases pe_shape S2 with rfl | ⟨e2, rfl⟩ | ⟨a2, b2, r2, rfl⟩
      · simp at hlen
      · exfalso; simp at hlen
      · have hpl : (splitL i (a :: b :: r)).Perm (splitL i (a2 :: b2 :: r2)) :=
          hp.filter _
        have hpr : (splitR i (a :: b :: r)).Perm (splitR i (a2 :: b2 :: r2)) :=
          hp.filter _
        rw [csize_node, csize_node, ih (i+1) _ _ hpl, ih (i+1) _ _ hpr]

theorem canonSerials_perm {hs : Hasher} :
    ∀ f i (S1 S2 : PE), S1.Perm S2 →
      (canonSerials hs f i S1).Perm (canonSerials hs f i S2) := by
  intro f
  induction f with
  | zero =>
    intro i S1 S2 hp
    rcases pe_shape S1 with rfl | ⟨e, rfl⟩ | ⟨a, b, r, rfl⟩
    · rw [hp.symm.eq_nil]
    · rw [List.singleton_perm.mp hp]
    · have hlen := hp.length_eq
      rcases pe_shape S2 with rfl | ⟨e2, rfl⟩ | ⟨a2, b2, r2, rfl⟩
      · simp at hlen
      · exfalso; simp at hlen
      · exact List.Perm.refl _
  | succ f' ih =>
    intro i S1 S2 hp
    rcases pe_shape S1 with rfl | ⟨e, rfl⟩ | ⟨a, b, r, rfl⟩
    · rw [hp.symm.eq_nil]
    · rw [List.singleton_perm.mp hp]
    · have hlen := hp.length_eq
      rcases pe_shape S2 with rfl | ⟨e2, rfl⟩ | ⟨a2, b2, r2, rfl⟩
      · simp at hlen
      · exfalso; simp at hlen
      · have hpl : (splitL i (a :: b :: r)).Perm (splitL i (a2 :: b2 :: r2)) :=
          hp.filter _
        have hpr : (splitR i (a :: b :: r)).Perm (splitR i (a2 :: b2 :: r2)) :=
          hp.filter _
        rw [canonSerials_node, canonSerials_node, canonD_perm f' (i+1) _ _ hpl,
          canonD_perm f' (i+1) _ _ hpr]
        exact List.Perm.cons _ ((ih (i+1) _ _ hpl).append (ih (i+1) _ _ hpr))

/-- Entry lists with pairwise-distinct paths and the same members are
permutations of each other. -/
theorem perm_of_mem_iff {S1 S2 : PE}
    (h1 : S1.Pairwise fun e1 e2 => e1.1 ≠ e2.1)
    (h2 : S2.Pairwise fun e1 e2 => e1.1 ≠ e2.1)
    (hmem : ∀ e, e ∈ S1 ↔ e ∈ S2) : S1.Perm S2 := by
  have hn1 : S1.Nodup := h1.imp fun hne => by
    intro hcon
    exact hne (congrArg Prod.fst hcon)
  have hn2 : S2.Nodup := h2.imp fun hne => by
    intro hcon
    exact hne (congrArg Prod.fst hcon)
  exact (List.perm_ext_iff_of_nodup hn1 hn2).mpr hmem

end Perm

section MemStruct

/-- Every serial of the canonical tree of `S` is the serial of a canonical
subtree: a nonempty bit-prefix-closed sub-collection `T` of `S` at some level
`i' ≥ i`, with no larger node count and all of its serials among those of
`S`. -/
theorem mem_canonSerials_struct {hs : Hasher} :
    ∀ f i S, CWF hs i S → i + f = depth hs →
      ∀ s ∈ canonSerials hs f i S,
        ∃ i' T, i ≤ i' ∧ i' ≤ depth hs ∧ s = canonS hs (depth hs - i') i' T ∧ T ≠ [] ∧
          CWF hs i' T ∧ (∀ e ∈ T, e ∈ S) ∧
          (∀ e1 ∈ T, ∀ e2 ∈ S, (∀ j, j < i' → pbit e2.1 j = pbit e1.1 j) → e2 ∈ T) ∧
          csize (depth hs - i') i' T ≤ csize f i S ∧
          (∀ s2 ∈ canonSerials hs (depth hs - i') i' T, s2 ∈ canonSerials hs f i S) := by
  intro f
  induction f with
  | zero =>
    intro i S hcwf hif s hsm
    rcases pe_shape S with rfl | ⟨e, rfl⟩ | ⟨a, b, r, rfl⟩
    · rw [canonSerials_nil] at hsm; exact absurd hsm (List.not_mem_nil s)
    · rw [canonSerials_single] at hsm
      have hse : s = (digest_leaf hs e.1 e.2).2 := by simpa using hsm
      have hfi : depth hs - i = 0 := by omega
      refine ⟨i, [e], Nat.le_refl i, by omega, ?_, by simp, hcwf, fun x hx => hx, ?_, ?_, ?_⟩
      · rw [hfi, hse, canonS_single]
      · intro e1 h1 e2 h2 _
        simp at h1 h2
        subst h1; subst h2; simp
      · rw [hfi, csize_single]
      · intro s2 hs2
        rw [hfi, canonSerials_single] at hs2
        rw [canonSerials_single]
        exact hs2
    · exfalso
      have := length_le_one_of_depth hcwf (by omega)
      simp at this
  | succ f' ih =>
    intro i S hcwf hif s hsm
    rcases pe_shape S with rfl | ⟨e, rfl⟩ | ⟨a, b, r, rfl⟩
    · rw [canonSerials_nil] at hsm; exact absurd hsm (List.not_mem_nil s)
    · rw [canonSerials_single] at hsm
      have hse : s = (digest_leaf hs e.1 e.2).2 := by simpa using hsm
      have hfi : depth hs - i = f' + 1 := by omega
      refine ⟨i, [e], Nat.le_refl i, by omega, ?_, by simp, hcwf, fun x hx => hx, ?_, ?_, ?_⟩
      · rw [hfi, hse, canonS_single]
      · intro e1 h1 e2 h2 _
        simp at h1 h2
        subst h1; subst h2; simp
      · rw [hfi, csize_single]
      · intro s2 hs2
        rw [hfi, canonSerials_single] at hs2
        rw [canonSerials_single]
        exact hs2
    · rw [canonSerials_node] at hsm
      rcases List.mem_cons.mp hsm with rfl | hsm'
      · -- the root serial itself
        have hfi : depth hs - i = f' + 1 := by omega
        refine ⟨i, a :: b :: r, Nat.le_refl i, by omega, ?_, by simp, hcwf, fun x hx => hx,
          ?_, ?_, ?_⟩
        · rw [hfi, canonS_node]
        · intro e1 h1 e2 h2 _
          exact h2
        · rw [hfi]
        · intro s2 hs2
          rw [hfi] at hs2
          exact hs2
      · have hlift : ∀ (b0 : Bool) (T0 : PE),
            T0 = (if b0 then splitL i (a :: b :: r) else splitR i (a :: b :: r)) →
            CWF hs (i+1) T0 →
            (∀ s2 ∈ canonSerials hs f' (i+1) T0,
              s2 ∈ canonSerials hs (f'+1) i (a :: b :: r)) →
            s ∈ canonSerials hs f' (i+1) T0 →
            ∃ i' T, i ≤ i' ∧ i' ≤ depth hs ∧ s = canonS hs (depth hs - i') i' T ∧ T ≠ [] ∧
              CWF hs i' T ∧ (∀ e ∈ T, e ∈ a :: b :: r) ∧
              (∀ e1 ∈ T, ∀ e2 ∈ a :: b :: r,
                (∀ j, j < i' → pbit e2.1 j = pbit e1.1 j) → e2 ∈ T) ∧
              csize (depth hs - i') i' T ≤ csize (f'+1) i (a :: b :: r) ∧
              (∀ s2 ∈ canonSerials hs (depth hs - i') i' T,
                s2 ∈ canonSerials hs (f'+1) i (a :: b :: r)) := by
          intro b0 T0 hT0 hcwf0 hsub0 hsm0
          obtain ⟨i', T, hi', hi'dep, hse, hTne, hTcwf, hTsub, hTclosed, hTsize, hTser⟩ :=
            ih (i+1) T0 hcwf0 (by omega) s hsm0
          have hsplit : T0 = splitL i (a :: b :: r) ∨ T0 = splitR i (a :: b :: r) := by
            cases b0 with
            | true => exact Or.inl hT0
            | false => exact Or.inr hT0
          have hT0sub : ∀ e ∈ T0, e ∈ a :: b :: r := by
            intro e he
            rcases hsplit with rfl | rfl
            · exact (mem_splitL.mp he).1
            · exact (mem_splitR.mp he).1
          refine ⟨i', T, by omega, hi'dep, hse, hTne, hTcwf,
            fun e he => hT0sub e (hTsub e he),
            ?_, ?_, fun s2 hs2 => hsub0 s2 (hTser s2 hs2)⟩
          · -- prefix closure lifts through the split
            intro e1 h1 e2 h2 hagree
            have he1T0 : e1 ∈ T0 := hTsub e1 h1
            have hbit : pbit e2.1 i = pbit e1.1 i := hagree i (by omega)
            have he2T0 : e2 ∈ T0 := by
              rcases hsplit with rfl | rfl
              · have hfact := (mem_splitL.mp he1T0).2
                exact mem_splitL.mpr ⟨h2, by rw [hbit]; exact hfact⟩
              · have hfact := (mem_splitR.mp he1T0).2
                exact mem_splitR.mpr ⟨h2, by rw [hbit]; exact hfact⟩
            exact hTclosed e1 h1 e2 he2T0 hagree
          · -- the node count can only shrink down the tree
            rw [csize_node]
            have hcmp : csize f' (i+1) T0 ≤
                csize f' (i+1) (splitL i (a :: b :: r)) +
                  csize f' (i+1) (splitR i (a :: b :: r)) := by
              rcases hsplit with rfl | rfl <;> omega
            omega
        rcases List.mem_append.mp hsm' with hL | hR
        · exact hlift true _ (by simp) (CWF_splitL hcwf)
            (fun s2 hs2 => canonSerials_splitL_sub s2 hs2) hL
        · exact hlift false _ (by simp) (CWF_splitR hcwf)
            (fun s2 hs2 => canonSerials_splitR_sub s2 hs2) hR

end MemStruct

section Descend

/-- The split we descend into when following path `p` at level `i`. -/
def pdx (p : Bytes) (i : Nat) (S : PE) : PE :=
  if pbit p i = RIGHT then splitR i S else splitL i S

/-- The sibling split when following path `p` at level `i`. -/
def psx (p : Bytes) (i : Nat) (S : PE) : PE :=
  if pbit p i = RIGHT then splitL i S else splitR i S

/-- The entry collection `k` levels down the spine of `p` from level `i`. -/
def pdescend (p : Bytes) (i : Nat) : Nat → PE → PE
  | 0, S => S
  | k+1, S => pdescend p (i+1) k (pdx p i S)

/-- The insert abstraction: bind path `p` to `vh`, dropping any old binding. -/
def peInsert (p vh : Bytes) (S : PE) : PE :=
  (p, vh) :: S.filter fun e => decide (e.1 ≠ p)

/-- The remove abstraction: drop the binding of path `p`. -/
def peRemove (p : Bytes) (S : PE) : PE :=
  S.filter fun e => decide (e.1 ≠ p)

theorem pdx_right {p : Bytes} {i : Nat} (S : PE) (hp : pbit p i = RIGHT) :
    pdx p i S = splitR i S := by
  simp [pdx, hp]

theorem pdx_left {p : Bytes} {i : Nat} (S : PE) (hp : pbit p i = 0) :
    pdx p i S = splitL i S := by
  simp [pdx, hp, RIGHT]

theorem psx_right {p : Bytes} {i : Nat} (S : PE) (hp : pbit p i = RIGHT) :
    psx p i S = splitL i S := by
  simp [psx, hp]

theorem psx_left {p : Bytes} {i : Nat} (S : PE) (hp : pbit p i = 0) :
    psx p i S = splitR i S := by
  simp [psx, hp, RIGHT]

theorem mem_pdx {p : Bytes} {i : Nat} {S : PE} {e : Bytes × Bytes} :
    e ∈ pdx p i S ↔ e ∈ S ∧ pbit e.1 i = pbit p i := by
  rcases pbit_cases p i with hp | hp
  · rw [pdx_left S hp, mem_splitL, hp]
    rcases pbit_cases e.1 i with he | he <;> simp [he, RIGHT]
  · rw [pdx_right S hp, mem_splitR, hp]

theorem mem_psx {p : Bytes} {i : Nat} {S : PE} {e : Bytes × Bytes} :
    e ∈ psx p i S ↔ e ∈ S ∧ pbit e.1 i ≠ pbit p i := by
  rcases pbit_cases p i with hp | hp
  · rw [psx_left S hp, mem_splitR, hp]
    rcases pbit_cases e.1 i with he | he <;> simp [he, RIGHT]
  · rw [psx_right S hp, mem_splitL, hp]

theorem pdx_cwf {hs : Hasher} {p : Bytes} {i : Nat} {S : PE} (h : CWF hs i S) :
    CWF hs (i+1) (pdx p i S) := by
  unfold pdx
  split
  · exact CWF_splitR h
  · exact CWF_splitL h

theorem psx_cwf {hs : Hasher} {p : Bytes} {i : Nat} {S : PE} (h : CWF hs i S) :
    CWF hs (i+1) (psx p i S) := by
  unfold psx
  split
  · exact CWF_splitL h
  · exact CWF_splitR h

theorem pdescend_cwf {hs : Hasher} {p : Bytes} :
    ∀ k i (S : PE), CWF hs i S → CWF hs (i+k) (pdescend p i k S) := by
  intro k
  induction k with
  | zero => intro i S h; exact h
  | succ k' ih =>
    intro i S h
    have hstep := ih (i+1) (pdx p i S) (pdx_cwf h)
    have harith : i + 1 + k' = i + (k' + 1) := by omega
    rw [harith] at hstep
    exact hstep

theorem mem_pdescend {p : Bytes} :
    ∀ k i (S : PE) e, e ∈ pdescend p i k S ↔
      e ∈ S ∧ ∀ j, i ≤ j → j < i + k → pbit e.1 j = pbit p j := by
  intro k
  induction k with
  | zero =>
    intro i S e
    constructor
    · intro h; exact ⟨h, fun j h1 h2 => by omega⟩
    · intro h; exact h.1
  | succ k' ih =>
    intro i S e
    rw [pdescend, ih (i+1) (pdx p i S) e, mem_pdx]
    constructor
    · rintro ⟨⟨hm, hbit⟩, hrest⟩
      refine ⟨hm, fun j h1 h2 => ?_⟩
      rcases Nat.eq_or_lt_of_le h1 with rfl | hlt
      · exact hbit
      · exact hrest j (by omega) (by omega)
    · rintro ⟨hm, hall⟩
      exact ⟨⟨hm, hall i (by omega) (by omega)⟩, fun j h1 h2 => hall j (by omega) (by omega)⟩

theorem filter_comm_pe (q r : Bytes × Bytes → Bool) (S : PE) :
    (S.filter q).filter r = (S.filter r).filter q := by
  rw [List.filter_filter, List.filter_filter]
  apply List.filter_congr
  intro e _
  rw [Bool.and_comm]

theorem splitL_filter (i : Nat) (q : Bytes × Bytes → Bool) (S : PE) :
    splitL i (S.filter q) = (splitL i S).filter q := by
  unfold splitL
  exact filter_comm_pe q _ S

theorem splitR_filter (i : Nat) (q : Bytes × Bytes → Bool) (S : PE) :
    splitR i (S.filter q) = (splitR i S).filter q := by
  unfold splitR
  exact filter_comm_pe q _ S

theorem pdx_filter (p : Bytes) (i : Nat) (q : Bytes × Bytes → Bool) (S : PE) :
    pdx p i (S.filter q) = (pdx p i S).filter q := by
  unfold pdx
  split
  · exact splitR_filter i q S
  · exact splitL_filter i q S

theorem psx_filter (p : Bytes) (i : Nat) (q : Bytes × Bytes → Bool) (S : PE) :
    psx p i (S.filter q) = (psx p i S).filter q := by
  unfold psx
  split
  · exact splitL_filter i q S
  · exact splitR_filter i q S

theorem pdescend_filter (p : Bytes) :
    ∀ k i (q : Bytes × Bytes → Bool) (S : PE),
      pdescend p i k (S.filter q) = (pdescend p i k S).filter q := by
  intro k
  induction k with
  | zero => intro i q S; rfl
  | succ k' ih =>
    intro i q S
    rw [pdescend, pdx_filter, ih, pdescend]

theorem pdx_cons_self (p vh : Bytes) (i : Nat) (X : PE) :
    pdx p i ((p, vh) :: X) = (p, vh) :: pdx p i X := by
  rcases pbit_cases p i with hp | hp
  · rw [pdx_left _ hp, pdx_left _ hp]
    simp [splitL, List.filter_cons, hp, RIGHT]
  · rw [pdx_right _ hp, pdx_right _ hp]
    simp [splitR, List.filter_cons, hp]

theorem psx_cons_self (p vh : Bytes) (i : Nat) (X : PE) :
    psx p i ((p, vh) :: X) = psx p i X := by
  rcases pbit_cases p i with hp | hp
  · rw [psx_left _ hp, psx_left _ hp]
    simp [splitR, List.filter_cons, hp, RIGHT]
  · rw [psx_right _ hp, psx_right _ hp]
    simp [splitL, List.filter_cons, hp]

theorem pdx_peInsert (p vh : Bytes) (i : Nat) (S : PE) :
    pdx p i (peInsert p vh S) = peInsert p vh (pdx p i S) := by
  unfold peInsert
  rw [pdx_cons_self, pdx_filter]

theorem pdescend_peInsert (p vh : Bytes) :
    ∀ k i (S : PE), pdescend p i k (peInsert p vh S) = peInsert p vh (pdescend p i k S) := by
  intro k
  induction k with
  | zero => intro i S; rfl
  | succ k' ih =>
    intro i S
    rw [pdescend, pdx_peInsert, ih, pdescend]

theorem pdescend_peRemove (p : Bytes) (k i : Nat) (S : PE) :
    pdescend p i k (peRemove p S) = peRemove p (pdescend p i k S) := by
  unfold peRemove
  exact pdescend_filter p k i _ S

theorem psx_no_p {p : Bytes} {i : Nat} {S : PE} :
    ∀ e ∈ psx p i S, e.1 ≠ p := by
  intro e he hcon
  have hb := (mem_psx.mp he).2
  rw [hcon] at hb
  exact hb rfl

theorem psx_filter_p (p : Bytes) (i : Nat) (S : PE) :
    (psx p i S).filter (fun e => decide (e.1 ≠ p)) = psx p i S := by
  apply filter_all_eq_self
  intro e he
  simpa using psx_no_p e he

theorem psx_peInsert (p vh : Bytes) (k i : Nat) (S : PE) :
    psx p (i+k) (pdescend p i k (peInsert p vh S)) = psx p (i+k) (pdescend p i k S) := by
  rw [pdescend_peInsert]
  unfold peInsert
  rw [psx_cons_self, psx_filter, psx_filter_p]

theorem psx_peRemove (p : Bytes) (k i : Nat) (S : PE) :
    psx p (i+k) (pdescend p i k (peRemove p S)) = psx p (i+k) (pdescend p i k S) := by
  rw [pdescend_peRemove]
  unfold peRemove
  rw [psx_filter, psx_filter_p]

end Descend

section WalkDefs

/-- Sibling digests along the spine of `p`, deepest first (`k` levels from `i`). -/
def sibDigests (hs : Hasher) (p : Bytes) : Nat → Nat → PE → List Bytes
  | 0, _, _ => []
  | k+1, i, S => sibDigests hs p k (i+1) (pdx p i S) ++
      [canonD hs (depth hs - (i+1)) (i+1) (psx p i S)]

/-- Spine-child digests along the spine of `p`, deepest first. -/
def spineDigests (hs : Hasher) (p : Bytes) : Nat → Nat → PE → List Bytes
  | 0, _, _ => []
  | k+1, i, S => spineDigests hs p k (i+1) (pdx p i S) ++
      [canonD hs (depth hs - (i+1)) (i+1) (pdx p i S)]

/-- The walk's terminal data: the leaf serial when the spine ends at a leaf. -/
def termData (hs : Hasher) (T : PE) : Option Bytes :=
  match T with
  | [e] => some ((digest_leaf hs e.1 e.2).2)
  | _ => none

theorem sibDigests_length (hs : Hasher) (p : Bytes) :
    ∀ k i S, (sibDigests hs p k i S).length = k := by
  intro k
  induction k with
  | zero => intro i S; rfl
  | succ k' ih => intro i S; rw [sibDigests, List.length_append, ih]; simp

theorem spineDigests_length (hs : Hasher) (p : Bytes) :
    ∀ k i S, (spineDigests hs p k i S).length = k := by
  intro k
  induction k with
  | zero => intro i S; rfl
  | succ k' ih => intro i S; rw [spineDigests, List.length_append, ih]; simp

theorem canonSerials_pdx_sub {hs : Hasher} {p : Bytes} {f i : Nat}
    {a b : Bytes × Bytes} {r : PE} :
    ∀ s ∈ canonSerials hs f (i+1) (pdx p i (a :: b :: r)),
      s ∈ canonSerials hs (f+1) i (a :: b :: r) := by
  intro s hsm
  rcases pbit_cases p i with hp | hp
  · rw [pdx_left _ hp] at hsm
    exact canonSerials_splitL_sub s hsm
  · rw [pdx_right _ hp] at hsm
    exact canonSerials_splitR_sub s hsm

theorem canonSerials_psx_sub {hs : Hasher} {p : Bytes} {f i : Nat}
    {a b : Bytes × Bytes} {r : PE} :
    ∀ s ∈ canonSerials hs f (i+1) (psx p i (a :: b :: r)),
      s ∈ canonSerials hs (f+1) i (a :: b :: r) := by
  intro s hsm
  rcases pbit_cases p i with hp | hp
  · rw [psx_left _ hp] at hsm
    exact canonSerials_splitR_sub s hsm
  · rw [psx_right _ hp] at hsm
    exact canonSerials_splitL_sub s hsm

theorem parse_leaf_shape2 (hs : Hasher) (q v : Bytes) (hq : q.length = hs.size) :
    parse_leaf hs (LEAF_PREFIX ++ q ++ v) = some (q, v) := by
  unfold parse_leaf
  rw [if_pos (by simp [LEAF_PREFIX, hq]; omega)]
  congr 1
  have hd : ((LEAF_PREFIX ++ q ++ v : Bytes)).drop 1 = q ++ v := by simp [LEAF_PREFIX]
  have h1 : (((LEAF_PREFIX ++ q ++ v : Bytes)).drop 1).take hs.size = q := by
    rw [hd, ← hq, List.take_left]
  have h2 : ((LEAF_PREFIX ++ q ++ v : Bytes)).drop (1 + hs.size) = v := by
    have hform : (LEAF_PREFIX ++ q ++ v : Bytes) = 0 :: (q ++ v) := by simp [LEAF_PREFIX]
    rw [hform, Nat.add_comm 1 hs.size, List.drop_succ_cons, ← hq, List.drop_left]
  rw [h1, h2]

/-- The node serial of a two-or-more collection, oriented along `p`. -/
theorem canonS_node_arr {hs : Hasher} {p : Bytes} {f i : Nat} {a b : Bytes × Bytes} {r : PE} :
    canonS hs (f+1) i (a :: b :: r) =
      (if pbit p i = RIGHT
        then NODE_PREFIX ++ canonD hs f (i+1) (psx p i (a :: b :: r)) ++
          canonD hs f (i+1) (pdx p i (a :: b :: r))
        else NODE_PREFIX ++ canonD hs f (i+1) (pdx p i (a :: b :: r)) ++
          canonD hs f (i+1) (psx p i (a :: b :: r))) := by
  rcases pbit_cases p i with hp | hp
  · rw [canonS_node, pdx_left _ hp, psx_left _ hp, hp]
    simp [RIGHT, digest_node]
  · rw [canonS_node, pdx_right _ hp, psx_right _ hp, hp]
    simp [digest_node]

end WalkDefs

section WalkLemma

/-- The side-nodes walk over a store representing the canonical tree of `S`
follows the canonical spine of `p`: it returns the sibling digests and spine
digests (deepest first) down to the first level whose collection has at most
one entry, plus the leaf serial found there, if any. -/
theorem side_nodes_go_canon {hs : Hasher} {B : List Bytes} {p : Bytes}
    (hl : HashLen hs) (hph : PhFree hs B) (hpw : PathWF hs p) :
    ∀ f i S (nodes : Store) (sacc pacc : List Bytes),
      CWF hs i S → i + f = depth hs → 2 ≤ S.length →
      (∀ s ∈ canonSerials hs f i S, s ∈ B) →
      (∀ s ∈ canonSerials hs f i S, Store.get nodes (hs.hash s) = some s) →
      ∃ m, 0 < m ∧ m ≤ f ∧
        (∀ k, k < m → 2 ≤ (pdescend p i k S).length) ∧
        (pdescend p i m S).length ≤ 1 ∧
        side_nodes_go hs nodes p false i (some (canonS hs f i S)) sacc pacc f =
          some ⟨sibDigests hs p m i S ++ sacc, spineDigests hs p m i S ++ pacc, none,
            termData hs (pdescend p i m S)⟩ := by
  intro f
  induction f with
  | zero =>
    intro i S nodes sacc pacc hcwf hif hlen hB hpres
    exfalso
    have := length_le_one_of_depth hcwf (by omega)
    omega
  | succ f' ih =>
    intro i S nodes sacc pacc hcwf hif hlen hB hpres
    rcases pe_shape S with rfl | ⟨e, rfl⟩ | ⟨a, b, r, rfl⟩
    · simp at hlen
    · simp at hlen
    · have hfi : depth hs - (i+1) = f' := by omega
      have hDL : (canonD hs f' (i+1) (splitL i (a :: b :: r))).length = hs.size :=
        canonD_length hl _ _ _
      have hDR : (canonD hs f' (i+1) (splitR i (a :: b :: r))).length = hs.size :=
        canonD_length hl _ _ _
      have hpn : parse_node hs (some (canonS hs (f'+1) i (a :: b :: r))) =
          some (canonD hs f' (i+1) (splitL i (a :: b :: r)),
            canonD hs f' (i+1) (splitR i (a :: b :: r))) := by
        rw [canonS_node]
        exact parse_node_node_shape hs _ _ hDL hDR
      obtain ⟨bit, hbit⟩ := get_bit_isSome p i (by rw [hpw.1]; unfold depth at hif; omega)
      have hpbit : pbit p i = bit := by unfold pbit; rw [hbit]; rfl
      unfold side_nodes_go
      simp only [hpn, hbit]
      have hsub : ∀ s ∈ canonSerials hs f' (i+1) (pdx p i (a :: b :: r)),
          s ∈ canonSerials hs (f'+1) i (a :: b :: r) := canonSerials_pdx_sub
      have hpdxcwf := pdx_cwf (p := p) (i := i) hcwf
      have hsib1 : sibDigests hs p 1 i (a :: b :: r) =
          [canonD hs f' (i+1) (psx p i (a :: b :: r))] := by
        rw [sibDigests, sibDigests, hfi]
        rfl
      have hspn1 : spineDigests hs p 1 i (a :: b :: r) =
          [canonD hs f' (i+1) (pdx p i (a :: b :: r))] := by
        rw [spineDigests, spineDigests, hfi]
        rfl
      by_cases hempty : pdx p i (a :: b :: r) = []
      · -- the spine ends in an empty slot at the next level
        have hD2 : canonD hs f' (i+1) (pdx p i (a :: b :: r)) = placeholder hs := by
          rw [hempty, canonD_nil]
        have hterm : termData hs (pdescend p i 1 (a :: b :: r)) = none := by
          show termData hs (pdescend p (i+1) 0 (pdx p i (a :: b :: r))) = none
          rw [pdescend, hempty]
          rfl
        refine ⟨1, by omega, by omega, ?_, ?_, ?_⟩
        · intro k hk
          have hk0 : k = 0 := by omega
          subst hk0
          exact hlen
        · show (pdescend p (i+1) 0 (pdx p i (a :: b :: r))).length ≤ 1
          rw [pdescend, hempty]
          simp
        · rcases eq_or_ne bit RIGHT with hbr | hbr
          · have hb' : pbit p i = RIGHT := by rw [hpbit]; exact hbr
            rw [if_pos hbr, ← pdx_right (a :: b :: r) hb', ← psx_right (a :: b :: r) hb',
              if_pos hD2, if_neg Bool.false_ne_true, hsib1, hspn1, hterm, hD2]
            rfl
          · have hb' : pbit p i = 0 := by
              rcases pbit_cases p i with h0 | h0
              · exact h0
              · rw [hpbit] at h0; exact absurd h0 hbr
            rw [if_neg hbr, ← pdx_left (a :: b :: r) hb', ← psx_left (a :: b :: r) hb',
              if_pos hD2, if_neg Bool.false_ne_true, hsib1, hspn1, hterm, hD2]
            rfl
      · -- the next-level collection is nonempty: its digest is a real hash
        have hD2ne : canonD hs f' (i+1) (pdx p i (a :: b :: r)) ≠ placeholder hs :=
          canonD_ne_placeholder hph hpdxcwf (by omega) hempty (fun s hsm => hB s (hsub s hsm))
        have hget2 : Store.get nodes (canonD hs f' (i+1) (pdx p i (a :: b :: r))) =
            some (canonS hs f' (i+1) (pdx p i (a :: b :: r))) := by
          rw [canonD_eq_hash hpdxcwf (by omega) hempty]
          exact hpres _ (hsub _ (canonS_mem hpdxcwf (by omega) hempty))
        rcases pe_shape (pdx p i (a :: b :: r)) with hsh | ⟨e0, hsh⟩ | ⟨a0, b0, r0, hsh⟩
        · exact absurd hsh hempty
        · -- the spine ends at a leaf at the next level
          have hlf : is_leaf (some (canonS hs f' (i+1) (pdx p i (a :: b :: r)))) =
              some true := by
            rw [hsh, canonS_single]
            exact is_leaf_leaf_shape hs e0.1 e0.2
          have hterm : termData hs (pdescend p i 1 (a :: b :: r)) =
              some (canonS hs f' (i+1) (pdx p i (a :: b :: r))) := by
            show termData hs (pdescend p (i+1) 0 (pdx p i (a :: b :: r))) = _
            rw [pdescend, hsh, canonS_single]
            rfl
          refine ⟨1, by omega, by omega, ?_, ?_, ?_⟩
          · intro k hk
            have hk0 : k = 0 := by omega
            subst hk0
            exact hlen
          · show (pdescend p (i+1) 0 (pdx p i (a :: b :: r))).length ≤ 1
            rw [pdescend, hsh]
            simp
          · rcases eq_or_ne bit RIGHT with hbr | hbr
            · have hb' : pbit p i = RIGHT := by rw [hpbit]; exact hbr
              rw [if_pos hbr, ← pdx_right (a :: b :: r) hb', ← psx_right (a :: b :: r) hb']
              dsimp only
              rw [if_neg hD2ne]
              simp only [hget2, hlf]
              rw [if_neg Bool.false_ne_true, hsib1, hspn1, hterm]
              rfl
            · have hb' : pbit p i = 0 := by
                rcases pbit_cases p i with h0 | h0
                · exact h0
                · rw [hpbit] at h0; exact absurd h0 hbr
              rw [if_neg hbr, ← pdx_left (a :: b :: r) hb', ← psx_left (a :: b :: r) hb']
              dsimp only
              rw [if_neg hD2ne]
              simp only [hget2, hlf]
              rw [if_neg Bool.false_ne_true, hsib1, hspn1, hterm]
              rfl
        · -- the spine continues: recurse one level deeper
          have hlf : is_leaf (some (canonS hs f' (i+1) (pdx p i (a :: b :: r)))) =
              some false := by
            rw [hsh]
            cases f' with
            | zero =>
              exfalso
              have hc := length_le_one_of_depth (hsh ▸ hpdxcwf) (by omega)
              simp at hc
            | succ f'' =>
              rw [canonS_node]
              exact is_leaf_node_shape hs _ _
          obtain ⟨m', hm0, hmle, hksz, hmsz, heq⟩ := ih (i+1) (pdx p i (a :: b :: r)) nodes
            (canonD hs f' (i+1) (psx p i (a :: b :: r)) :: sacc)
            (canonD hs f' (i+1) (pdx p i (a :: b :: r)) :: pacc)
            hpdxcwf (by omega) (by rw [hsh]; simp [Nat.succ_le_succ])
            (fun s hsm => hB s (hsub s hsm))
            (fun s hsm => hpres s (hsub s hsm))
          refine ⟨m' + 1, by omega, by omega, ?_, ?_, ?_⟩
          · intro k hk
            cases k with
            | zero => exact hlen
            | succ k' =>
              show 2 ≤ (pdescend p (i+1) k' (pdx p i (a :: b :: r))).length
              exact hksz k' (by omega)
          · show (pdescend p (i+1) m' (pdx p i (a :: b :: r))).length ≤ 1
            exact hmsz
          · have hsibstep : sibDigests hs p (m'+1) i (a :: b :: r) ++ sacc =
                sibDigests hs p m' (i+1) (pdx p i (a :: b :: r)) ++
                  (canonD hs f' (i+1) (psx p i (a :: b :: r)) :: sacc) := by
              rw [sibDigests, hfi, List.append_assoc]
              rfl
            have hspnstep : spineDigests hs p (m'+1) i (a :: b :: r) ++ pacc =
                spineDigests hs p m' (i+1) (pdx p i (a :: b :: r)) ++
                  (canonD hs f' (i+1) (pdx p i (a :: b :: r)) :: pacc) := by
              rw [spineDigests, hfi, List.append_assoc]
              rfl
            have htstep : termData hs (pdescend p i (m'+1) (a :: b :: r)) =
                termData hs (pdescend p (i+1) m' (pdx p i (a :: b :: r))) := rfl
            rcases eq_or_ne bit RIGHT with hbr | hbr
            · have hb' : pbit p i = RIGHT := by rw [hpbit]; exact hbr
              rw [if_pos hbr, ← pdx_right (a :: b :: r) hb', ← psx_right (a :: b :: r) hb']
              dsimp only
              rw [if_neg hD2ne]
              simp only [hget2, hlf]
              rw [hsibstep, hspnstep, htstep]
              exact heq
            · have hb' : pbit p i = 0 := by
                rcases pbit_cases p i with h0 | h0
                · exact h0
                · rw [hpbit] at h0; exact absurd h0 hbr
              rw [if_neg hbr, ← pdx_left (a :: b :: r) hb', ← psx_left (a :: b :: r) hb']
              dsimp only
              rw [if_neg hD2ne]
              simp only [hget2, hlf]
              rw [hsibstep, hspnstep, htstep]
              exact heq

end WalkLemma

section RebuildPrereqs

theorem Store.get_set_eq (n : Store) (k v k2 : Bytes) :
    Store.get (Store.set n k v) k2 = if k = k2 then some v else Store.get n k2 := by
  induction n with
  | nil =>
    show (if k = k2 then some v else none) = if k = k2 then some v else none
    rfl
  | cons kv rest ih =>
    obtain ⟨k1, v1⟩ := kv
    show Store.get (if k1 = k then (k, v) :: rest else (k1, v1) :: Store.set rest k v) k2 = _
    by_cases h : k1 = k
    · rw [if_pos h]
      show (if k = k2 then some v else Store.get rest k2) = _
      by_cases h2 : k = k2
      · rw [if_pos h2, if_pos h2]
      · rw [if_neg h2, if_neg h2]
        show Store.get rest k2 = Store.get ((k1, v1) :: rest) k2
        show Store.get rest k2 = if k1 = k2 then some v1 else Store.get rest k2
        rw [if_neg (by rw [h]; exact h2)]
    · rw [if_neg h]
      show (if k1 = k2 then some v1 else Store.get (Store.set rest k v) k2) = _
      by_cases h2 : k1 = k2
      · rw [if_pos h2, if_neg (fun hc => h (h2.trans hc.symm))]
        show some v1 = Store.get ((k1, v1) :: rest) k2
        show some v1 = if k1 = k2 then some v1 else Store.get rest k2
        rw [if_pos h2]
      · rw [if_neg h2, ih]
        by_cases h3 : k = k2
        · rw [if_pos h3, if_pos h3]
        · rw [if_neg h3, if_neg h3]
          show Store.get rest k2 = if k1 = k2 then some v1 else Store.get rest k2
          rw [if_neg h2]

theorem Store.get_remove_ne (n : Store) (k k2 : Bytes) (h : k ≠ k2) :
    Store.get (Store.remove n k) k2 = Store.get n k2 := by
  induction n with
  | nil => rfl
  | cons kv rest ih =>
    obtain ⟨k1, v1⟩ := kv
    show Store.get (if k1 = k then rest else (k1, v1) :: Store.remove rest k) k2 = _
    by_cases hk : k1 = k
    · rw [if_pos hk]
      show Store.get rest k2 = if k1 = k2 then some v1 else Store.get rest k2
      rw [if_neg (by rw [hk]; exact h)]
    · rw [if_neg hk]
      show (if k1 = k2 then some v1 else Store.get (Store.remove rest k) k2) = _
      by_cases h2 : k1 = k2
      · rw [if_pos h2]
        show _ = if k1 = k2 then some v1 else Store.get rest k2
        rw [if_pos h2]
      · rw [if_neg h2, ih]
        show _ = if k1 = k2 then some v1 else Store.get rest k2
        rw [if_neg h2]

theorem Store.get_foldl_remove_ne (ks : List Bytes) :
    ∀ (n : Store) (key : Bytes), (∀ k ∈ ks, k ≠ key) →
      Store.get (ks.foldl Store.remove n) key = Store.get n key := by
  induction ks with
  | nil => intro n key _; rfl
  | cons k rest ih =>
    intro n key hne
    rw [List.foldl_cons, ih _ _ (fun k2 hk2 => hne k2 (by simp [hk2]))]
    exact Store.get_remove_ne n k key (hne k (by simp))

theorem Store.mem_foldl_remove (ks : List Bytes) :
    ∀ (n : Store) (kv : Bytes × Bytes), kv ∈ ks.foldl Store.remove n → kv ∈ n := by
  induction ks with
  | nil => intro n kv h; exact h
  | cons k rest ih =>
    intro n kv h
    exact Store.mem_of_mem_remove _ _ _ (ih _ _ h)

theorem pdescend_snoc (p : Bytes) :
    ∀ k i (S : PE), pdescend p i (k+1) S = pdx p (i+k) (pdescend p i k S) := by
  intro k
  induction k with
  | zero => intro i S; rfl
  | succ k' ih =>
    intro i S
    show pdescend p (i+1) (k'+1) (pdx p i S) = _
    rw [ih (i+1) (pdx p i S)]
    have harith : i + 1 + k' = i + (k' + 1) := by omega
    rw [harith]
    rfl

theorem canonD_node_arr {hs : Hasher} {p : Bytes} {f ℓ : Nat} {S : PE}
    (hlen : 2 ≤ S.length) :
    canonD hs (f+1) ℓ S =
      (if pbit p ℓ = RIGHT
        then digest_node hs (canonD hs f (ℓ+1) (psx p ℓ S)) (canonD hs f (ℓ+1) (pdx p ℓ S))
        else digest_node hs (canonD hs f (ℓ+1) (pdx p ℓ S)) (canonD hs f (ℓ+1) (psx p ℓ S))).1 := by
  rcases pe_shape S with rfl | ⟨e, rfl⟩ | ⟨a, b, r, rfl⟩
  · simp at hlen
  · simp at hlen
  · rcases pbit_cases p ℓ with hp | hp
    · rw [canonD_node, pdx_left _ hp, psx_left _ hp, hp]
      simp [RIGHT]
    · rw [canonD_node, pdx_right _ hp, psx_right _ hp, hp]
      simp

theorem canonS_pdescend_mem {hs : Hasher} {p : Bytes} :
    ∀ k i (S : PE), CWF hs i S → i + (depth hs - i) = depth hs →
      (∀ k', k' < k → 2 ≤ (pdescend p i k' S).length) →
      pdescend p i k S ≠ [] → i + k ≤ depth hs →
      canonS hs (depth hs - (i+k)) (i+k) (pdescend p i k S) ∈
        canonSerials hs (depth hs - i) i S := by
  intro k
  induction k with
  | zero =>
    intro i S hcwf hif hge hne hle
    have harith : i + 0 = i := by omega
    rw [harith]
    exact canonS_mem hcwf (by omega) hne
  | succ k' ih =>
    intro i S hcwf hif hge hne hle
    have h2 : 2 ≤ S.length := by
      have := hge 0 (by omega)
      exact this
    rcases pe_shape S with rfl | ⟨e, rfl⟩ | ⟨a, b, r, rfl⟩
    · simp at h2
    · simp at h2
    · have hrec := ih (i+1) (pdx p i (a :: b :: r)) (pdx_cwf hcwf) (by omega)
        (fun k'' hk'' => hge (k''+1) (by omega)) hne (by omega)
      have harith : i + 1 + k' = i + (k' + 1) := by omega
      rw [harith] at hrec
      have hfi : depth hs - i = (depth hs - (i+1)) + 1 := by omega
      rw [hfi]
      exact canonSerials_pdx_sub _ hrec

theorem sibDigests_get {hs : Hasher} {p : Bytes} :
    ∀ k i (S : PE) j, j < k →
      (sibDigests hs p k i S).get? j =
        some (canonD hs (depth hs - (i + (k - 1 - j) + 1)) (i + (k - 1 - j) + 1)
          (psx p (i + (k - 1 - j)) (pdescend p i (k - 1 - j) S))) := by
  intro k
  induction k with
  | zero => intro i S j hj; omega
  | succ k' ih =>
    intro i S j hj
    rw [sibDigests]
    rcases Nat.lt_or_ge j k' with hlt | hge
    · rw [List.get?_append (by rw [sibDigests_length]; exact hlt), ih (i+1) _ j hlt]
      have h1 : i + 1 + (k' - 1 - j) = i + (k' + 1 - 1 - j) := by omega
      have h2 : pdescend p (i+1) (k' - 1 - j) (pdx p i S) =
          pdescend p i (k' + 1 - 1 - j) S := by
        have hnz : k' + 1 - 1 - j = (k' - 1 - j) + 1 := by omega
        rw [hnz]
        rfl
      rw [h2, h1]
    · have hjk : k' = j := by omega
      subst hjk
      have hidx : (sibDigests hs p k' (i+1) (pdx p i S)).length = k' := sibDigests_length _ _ _ _ _
      rw [List.get?_append_right (by rw [hidx])]
      rw [hidx]
      have hz : k' - k' = 0 := by omega
      rw [hz]
      have h3 : k' + 1 - 1 - k' = 0 := by omega
      rw [h3]
      rfl

end RebuildPrereqs

section CPC

theorem canonS_node_arr2 {hs : Hasher} {p : Bytes} {f ℓ : Nat} {S : PE}
    (hlen : 2 ≤ S.length) :
    canonS hs (f+1) ℓ S =
      (if pbit p ℓ = RIGHT
        then NODE_PREFIX ++ canonD hs f (ℓ+1) (psx p ℓ S) ++ canonD hs f (ℓ+1) (pdx p ℓ S)
        else NODE_PREFIX ++ canonD hs f (ℓ+1) (pdx p ℓ S) ++ canonD hs f (ℓ+1) (psx p ℓ S)) := by
  rcases pe_shape S with rfl | ⟨e, rfl⟩ | ⟨a, b, r, rfl⟩
  · simp at hlen
  · simp at hlen
  · exact canonS_node_arr

/-- `count_common_prefix` on two honest equal-length paths: the result counts
the agreeing bit positions up to the first difference. -/
theorem commonPrefixCount_spec {p q : Bytes} (hq : q.length = p.length) :
    ∃ c, commonPrefixCount p q = some c ∧ c ≤ 8 * p.length ∧
      (∀ j, j < c → pbit p j = pbit q j) ∧
      (c < 8 * p.length → pbit p c ≠ pbit q c) := by
  have hgo : ∀ fuel i, i + fuel = 8 * p.length →
      ∃ c, commonPrefixGo p q i i fuel = some c ∧ i ≤ c ∧ c ≤ 8 * p.length ∧
        (∀ j, i ≤ j → j < c → pbit p j = pbit q j) ∧
        (c < 8 * p.length → pbit p c ≠ pbit q c) := by
    intro fuel
    induction fuel with
    | zero =>
      intro i hi
      exact ⟨i, rfl, Nat.le_refl i, by omega, fun j h1 h2 => by omega, by omega⟩
    | succ n ih =>
      intro i hi
      obtain ⟨x, hx⟩ := get_bit_isSome p i (by omega)
      obtain ⟨y, hy⟩ := get_bit_isSome q i (by rw [hq]; omega)
      have hpx : pbit p i = x := by unfold pbit; rw [hx]; rfl
      have hqy : pbit q i = y := by unfold pbit; rw [hy]; rfl
      unfold commonPrefixGo
      rw [hx, hy]
      dsimp only
      by_cases hxy : x = y
      · rw [if_pos hxy]
        obtain ⟨c, hc, hic, hcle, hagree, hdiff⟩ := ih (i+1) (by omega)
        refine ⟨c, hc, by omega, hcle, ?_, hdiff⟩
        intro j h1 h2
        rcases Nat.eq_or_lt_of_le h1 with rfl | hlt
        · rw [hpx, hqy, hxy]
        · exact hagree j (by omega) h2
      · rw [if_neg hxy]
        refine ⟨i, rfl, Nat.le_refl i, by omega, fun j h1 h2 => by omega, ?_⟩
        intro _
        rw [hpx, hqy]
        exact hxy
  obtain ⟨c, hc, _, hcle, hagree, hdiff⟩ := hgo (8 * p.length) 0 (by omega)
  refine ⟨c, ?_, hcle, fun j hj => hagree j (by omega) hj, hdiff⟩
  unfold commonPrefixCount
  have harith : p.length * 8 = 8 * p.length := by omega
  rw [harith]
  exact hc

end CPC

section LoopCanon

theorem update_loop_skip {hs : Hasher} {p : Bytes} {sns : List Bytes} {cpc dep0 offset : Nat} :
    ∀ j i (cur : Bytes) (nodes : Store) fuel,
      (∀ t, i ≤ t → t < i + j → ¬ offset ≤ t ∧ ¬(cpc ≠ dep0 ∧ dep0 - t - 1 < cpc)) →
      update_loop hs p sns cpc dep0 offset i cur nodes (j + fuel) =
        update_loop hs p sns cpc dep0 offset (i + j) cur nodes fuel := by
  intro j
  induction j with
  | zero => intro i cur nodes fuel _; rw [Nat.zero_add, Nat.add_zero]
  | succ j' ih =>
    intro i cur nodes fuel hcond
    have hc := hcond i (Nat.le_refl i) (by omega)
    have hfe : j' + 1 + fuel = (j' + fuel) + 1 := by omega
    rw [hfe]
    have hstep : update_loop hs p sns cpc dep0 offset i cur nodes ((j' + fuel) + 1) =
        update_loop hs p sns cpc dep0 offset (i+1) cur nodes (j' + fuel) := by
      conv_lhs => unfold update_loop
      rw [if_neg hc.1, if_neg hc.2]
    rw [hstep, ih (i+1) cur nodes fuel (fun t h1 h2 => hcond t (by omega) (by omega))]
    have harith : i + 1 + j' = i + (j' + 1) := by omega
    rw [harith]

theorem update_loop_canon {hs : Hasher} {B : List Bytes} {p : Bytes} {S' : PE}
    {sns : List Bytes} {cpc offset m ls : Nat}
    (hl : HashLen hs) (hinj : InjOnB hs B)
    (hB' : ∀ s ∈ canonSerials hs (depth hs) 0 S', s ∈ B)
    (hS'cwf : CWF hs 0 S') (hpw : PathWF hs p)
    (hoff : offset = depth hs - m) (hmdep : m ≤ depth hs) (hmls : m ≤ ls)
    (hlsdep : ls ≤ depth hs)
    (hcpc1 : cpc = depth hs → ls = m)
    (hcpc2 : cpc ≠ depth hs → ls = cpc)
    (hcomb : ∀ ℓ, ℓ < m → 2 ≤ (pdescend p 0 ℓ S').length ∧
      sns.get? (m - 1 - ℓ) =
        some (canonD hs (depth hs - (ℓ+1)) (ℓ+1) (psx p ℓ (pdescend p 0 ℓ S'))))
    (hwrap : ∀ ℓ, m ≤ ℓ → ℓ < ls →
      2 ≤ (pdescend p 0 ℓ S').length ∧ psx p ℓ (pdescend p 0 ℓ S') = []) :
    ∀ fuel i (nodes : Store) (cur : Bytes),
      i + fuel = depth hs → depth hs - i ≤ ls →
      cur = canonD hs i (depth hs - i) (pdescend p 0 (depth hs - i) S') →
      ∃ nodes2,
        update_loop hs p sns cpc (depth hs) offset i cur nodes fuel =
          some (canonD hs (depth hs) 0 S', nodes2) ∧
        (∀ kv ∈ nodes2, kv ∈ nodes ∨ ∃ s ∈ B, kv.1 = hs.hash s ∧ kv.2 = s) ∧
        (∀ s ∈ B, Store.get nodes (hs.hash s) = some s →
          Store.get nodes2 (hs.hash s) = some s) ∧
        (∀ ℓ2, ℓ2 < depth hs - i →
          Store.get nodes2 (hs.hash (canonS hs (depth hs - ℓ2) ℓ2 (pdescend p 0 ℓ2 S'))) =
            some (canonS hs (depth hs - ℓ2) ℓ2 (pdescend p 0 ℓ2 S'))) := by
  intro fuel
  induction fuel with
  | zero =>
    intro i nodes cur hif hls hcur
    have hi : i = depth hs := by omega
    subst hi
    have hz : depth hs - depth hs = 0 := by omega
    rw [hz] at hcur
    refine ⟨nodes, ?_, fun kv hkv => Or.inl hkv, fun s _ h => h, ?_⟩
    · show some (cur, nodes) = _
      rw [hcur]
      rfl
    · intro ℓ2 hℓ2
      omega
  | succ fuel' ih =>
    intro i nodes cur hif hls hcur
    obtain ⟨ℓ, hℓeq⟩ : ∃ ℓ0, depth hs - i - 1 = ℓ0 := ⟨_, rfl⟩
    have hℓi : depth hs - i = ℓ + 1 := by omega
    have hℓlt : ℓ < ls := by omega
    have hℓdep : ℓ < depth hs := by omega
    have hfuelℓ : depth hs - (ℓ+1) = i := by omega
    have hfuelℓ2 : depth hs - ℓ = i + 1 := by omega
    obtain ⟨bit, hbit⟩ := get_bit_isSome p (depth hs - i - 1)
      (by rw [hpw.1]; unfold depth at hℓdep ⊢; omega)
    rw [hℓeq] at hbit
    have hpbit : pbit p ℓ = bit := by unfold pbit; rw [hbit]; rfl
    have hT : CWF hs ℓ (pdescend p 0 ℓ S') := by
      have hx := pdescend_cwf (p := p) ℓ 0 S' hS'cwf
      simpa using hx
    have hsnoc : pdescend p 0 (ℓ+1) S' = pdx p ℓ (pdescend p 0 ℓ S') := by
      have hx := pdescend_snoc p ℓ 0 S'
      simpa using hx
    have hcur' : cur = canonD hs i (ℓ+1) (pdx p ℓ (pdescend p 0 ℓ S')) := by
      rw [hcur, hℓi, hsnoc]
    -- shared continuation: one canonical node written, then the recursive call
    have hkey : ∀ (hd : Bytes × Bytes),
        hd.1 = hs.hash (canonS hs (i+1) ℓ (pdescend p 0 ℓ S')) →
        hd.2 = canonS hs (i+1) ℓ (pdescend p 0 ℓ S') →
        (∀ k', k' < ℓ → 2 ≤ (pdescend p 0 k' S').length) →
        2 ≤ (pdescend p 0 ℓ S').length →
        ∃ nodes2,
          update_loop hs p sns cpc (depth hs) offset (i+1) hd.1
              (Store.set nodes hd.1 hd.2) fuel' =
            some (canonD hs (depth hs) 0 S', nodes2) ∧
          (∀ kv ∈ nodes2, kv ∈ nodes ∨ ∃ s ∈ B, kv.1 = hs.hash s ∧ kv.2 = s) ∧
          (∀ s ∈ B, Store.get nodes (hs.hash s) = some s →
            Store.get nodes2 (hs.hash s) = some s) ∧
          (∀ ℓ2, ℓ2 < depth hs - i →
            Store.get nodes2 (hs.hash (canonS hs (depth hs - ℓ2) ℓ2 (pdescend p 0 ℓ2 S'))) =
              some (canonS hs (depth hs - ℓ2) ℓ2 (pdescend p 0 ℓ2 S'))) := by
      intro hd hd1 hd2 hprev h2len
      have hTne : pdescend p 0 ℓ S' ≠ [] := by
        intro hc
        rw [hc] at h2len
        simp at h2len
      have hserB : canonS hs (i+1) ℓ (pdescend p 0 ℓ S') ∈ B := by
        have hmem := canonS_pdescend_mem ℓ 0 S' hS'cwf (by omega)
          (fun k' hk' => hprev k' hk') hTne (by omega)
        simp only [Nat.zero_add, Nat.sub_zero] at hmem
        rw [hfuelℓ2] at hmem
        exact hB' _ hmem
      have hDeq : hd.1 = canonD hs (i+1) ℓ (pdescend p 0 ℓ S') := by
        rw [hd1, canonD_eq_hash hT (by omega) hTne]
      obtain ⟨nodes2, hloop, hO2, hO3, hO4⟩ := ih (i+1) (Store.set nodes hd.1 hd.2) hd.1
        (by omega) (by omega) (by rw [hDeq]; have hx : depth hs - (i+1) = ℓ := by omega
                                  rw [hx])
      refine ⟨nodes2, hloop, ?_, ?_, ?_⟩
      · intro kv hkv
        rcases hO2 kv hkv with hin | hB2
        · rcases Store.mem_set nodes hd.1 hd.2 kv hin with heq | hin2
          · right
            exact ⟨canonS hs (i+1) ℓ (pdescend p 0 ℓ S'), hserB,
              by rw [heq, hd1], by rw [heq, hd2]⟩
          · exact Or.inl hin2
        · exact Or.inr hB2
      · intro s hsB hget
        apply hO3 s hsB
        rw [Store.get_set_eq]
        by_cases hk : hd.1 = hs.hash s
        · rw [if_pos hk]
          have hseq : canonS hs (i+1) ℓ (pdescend p 0 ℓ S') = s := by
            apply hinj _ hserB _ hsB
            rw [← hd1, hk]
          rw [hd2, hseq]
        · rw [if_neg hk]
          exact hget
      · intro ℓ2 hℓ2
        have hℓ2le : ℓ2 ≤ ℓ := by omega
        rcases Nat.eq_or_lt_of_le hℓ2le with rfl | hℓ2lt
        · rw [hfuelℓ2]
          apply hO3 _ hserB
          rw [Store.get_set_eq, if_pos hd1]
          rw [hd2]
        · exact hO4 ℓ2 (by omega)
    -- now split on the code branch at this level
    unfold update_loop
    by_cases hoffi : offset ≤ i
    · -- combine with the stored sibling
      have hℓm : ℓ < m := by omega
      obtain ⟨h2len, hsget⟩ := hcomb ℓ hℓm
      rw [hfuelℓ] at hsget
      have hidx : i - offset = m - 1 - ℓ := by omega
      rw [if_pos hoffi, hidx, hℓeq]
      simp only [hsget, hbit]
      have hprev : ∀ k', k' < ℓ → 2 ≤ (pdescend p 0 k' S').length := by
        intro k' hk'
        exact (hcomb k' (by omega)).1
      rcases eq_or_ne bit RIGHT with hbr | hbr
      · rw [if_pos hbr]
        have hpb : pbit p ℓ = RIGHT := by rw [hpbit]; exact hbr
        have harr := @canonD_node_arr hs p i ℓ (pdescend p 0 ℓ S') h2len
        have harrS := @canonS_node_arr2 hs p i ℓ (pdescend p 0 ℓ S') h2len
        rw [if_pos hpb] at harr harrS
        have hdig : (digest_node hs (canonD hs i (ℓ+1) (psx p ℓ (pdescend p 0 ℓ S'))) cur).2 =
            canonS hs (i+1) ℓ (pdescend p 0 ℓ S') := by
          rw [harrS, hcur']
          rfl
        have hdig1 : (digest_node hs (canonD hs i (ℓ+1) (psx p ℓ (pdescend p 0 ℓ S'))) cur).1 =
            hs.hash (canonS hs (i+1) ℓ (pdescend p 0 ℓ S')) := by
          rw [← hdig]
          rfl
        exact hkey _ hdig1 hdig hprev h2len
      · rw [if_neg hbr]
        have hpb : pbit p ℓ = 0 := by
          rcases pbit_cases p ℓ with h0 | h0
          · exact h0
          · rw [hpbit] at h0; exact absurd h0 hbr
        have harr := @canonD_node_arr hs p i ℓ (pdescend p 0 ℓ S') h2len
        have harrS := @canonS_node_arr2 hs p i ℓ (pdescend p 0 ℓ S') h2len
        rw [if_neg (by rw [hpb]; simp [RIGHT])] at harr harrS
        have hdig : (digest_node hs cur (canonD hs i (ℓ+1) (psx p ℓ (pdescend p 0 ℓ S')))).2 =
            canonS hs (i+1) ℓ (pdescend p 0 ℓ S') := by
          rw [harrS, hcur']
          rfl
        have hdig1 : (digest_node hs cur (canonD hs i (ℓ+1) (psx p ℓ (pdescend p 0 ℓ S')))).1 =
            hs.hash (canonS hs (i+1) ℓ (pdescend p 0 ℓ S')) := by
          rw [← hdig]
          rfl
        exact hkey _ hdig1 hdig hprev h2len
    · -- wrap with a placeholder sibling
      have hℓm : m ≤ ℓ := by omega
      have hcne : cpc ≠ depth hs := by
        intro hc
        have := hcpc1 hc
        omega
      have hcls : ls = cpc := hcpc2 hcne
      obtain ⟨h2len, hpsxnil⟩ := hwrap ℓ hℓm hℓlt
      have hprev : ∀ k', k' < ℓ → 2 ≤ (pdescend p 0 k' S').length := by
        intro k' hk'
        rcases Nat.lt_or_ge k' m with hk'm | hk'm
        · exact (hcomb k' hk'm).1
        · exact (hwrap k' hk'm (by omega)).1
      rw [if_neg hoffi, if_pos (by rw [hℓeq]; exact ⟨hcne, by omega⟩), hℓeq]
      simp only [hbit]
      rcases eq_or_ne bit RIGHT with hbr | hbr
      · rw [if_pos hbr]
        have hpb : pbit p ℓ = RIGHT := by rw [hpbit]; exact hbr
        have harr := @canonD_node_arr hs p i ℓ (pdescend p 0 ℓ S') h2len
        have harrS := @canonS_node_arr2 hs p i ℓ (pdescend p 0 ℓ S') h2len
        rw [if_pos hpb, hpsxnil] at harr harrS
        have hdig : (digest_right_node hs cur).2 =
            canonS hs (i+1) ℓ (pdescend p 0 ℓ S') := by
          rw [harrS, hcur', canonD_nil]
          rfl
        have hdig1 : (digest_right_node hs cur).1 =
            hs.hash (canonS hs (i+1) ℓ (pdescend p 0 ℓ S')) := by
          rw [← hdig]
          rfl
        exact hkey _ hdig1 hdig hprev h2len
      · rw [if_neg hbr]
        have hpb : pbit p ℓ = 0 := by
          rcases pbit_cases p ℓ with h0 | h0
          · exact h0
          · rw [hpbit] at h0; exact absurd h0 hbr
        have harrS := @canonS_node_arr2 hs p i ℓ (pdescend p 0 ℓ S') h2len
        rw [if_neg (by rw [hpb]; simp [RIGHT]), hpsxnil] at harrS
        have hdig : (digest_left_node hs cur).2 =
            canonS hs (i+1) ℓ (pdescend p 0 ℓ S') := by
          rw [harrS, hcur', canonD_nil]
          rfl
        have hdig1 : (digest_left_node hs cur).1 =
            hs.hash (canonS hs (i+1) ℓ (pdescend p 0 ℓ S')) := by
          rw [← hdig]
          rfl
        exact hkey _ hdig1 hdig hprev h2len

end LoopCanon


section Decomp

theorem pdescend_all {p : Bytes} :
    ∀ k i (S : PE), (∀ e ∈ S, ∀ j, i ≤ j → j < i + k → pbit e.1 j = pbit p j) →
      pdescend p i k S = S := by
  intro k
  induction k with
  | zero => intro i S _; rfl
  | succ k' ih =>
    intro i S hall
    have hpdx : pdx p i S = S := by
      rcases pbit_cases p i with hp | hp
      · rw [pdx_left _ hp]
        apply filter_all_eq_self
        intro e he
        have hb := hall e he i (by omega) (by omega)
        simp [hb, hp, RIGHT]
      · rw [pdx_right _ hp]
        apply filter_all_eq_self
        intro e he
        have hb := hall e he i (by omega) (by omega)
        simp [hb, hp]
    rw [pdescend, hpdx, ih (i+1) S (fun e he j h1 h2 => hall e he j (by omega) (by omega))]

theorem psx_nil_of_agree {p : Bytes} {i : Nat} {S : PE}
    (hall : ∀ e ∈ S, pbit e.1 i = pbit p i) : psx p i S = [] := by
  rcases pbit_cases p i with hp | hp
  · rw [psx_left _ hp]
    apply List.filter_eq_nil_iff.mpr
    intro e he
    have hb := hall e he
    simp [hb, hp, RIGHT]
  · rw [psx_right _ hp]
    apply List.filter_eq_nil_iff.mpr
    intro e he
    have hb := hall e he
    simp [hb, hp]

theorem mem_leaf_serial {hs : Hasher} :
    ∀ f i (S : PE), CWF hs i S → i + f = depth hs →
      ∀ e ∈ S, (digest_leaf hs e.1 e.2).2 ∈ canonSerials hs f i S := by
  intro f
  induction f with
  | zero =>
    intro i S hcwf hif e he
    rcases pe_shape S with rfl | ⟨e0, rfl⟩ | ⟨a, b, r, rfl⟩
    · exact absurd he (List.not_mem_nil e)
    · have : e = e0 := by simpa using he
      subst this
      rw [canonSerials_single]
      simp
    · exfalso
      have := length_le_one_of_depth hcwf (by omega)
      simp at this
  | succ f' ih =>
    intro i S hcwf hif e he
    rcases pe_shape S with rfl | ⟨e0, rfl⟩ | ⟨a, b, r, rfl⟩
    · exact absurd he (List.not_mem_nil e)
    · have : e = e0 := by simpa using he
      subst this
      rw [canonSerials_single]
      simp
    · rcases (@mem_split_iff i (a :: b :: r) e).mp he with hL | hR
      · exact canonSerials_splitL_sub _ (ih (i+1) _ (CWF_splitL hcwf) (by omega) e hL)
      · exact canonSerials_splitR_sub _ (ih (i+1) _ (CWF_splitR hcwf) (by omega) e hR)

theorem canonSerials_singleton_mem {hs : Hasher} {f1 f2 i1 i2 : Nat} {e : Bytes × Bytes}
    {s : Bytes} (h : s ∈ canonSerials hs f1 i1 [e]) : s ∈ canonSerials hs f2 i2 [e] := by
  rw [canonSerials_single] at h ⊢
  exact h

/-- Serials of sibling subtrees along the spine of `p` are serials of the
whole tree (or of a resting entry's leaf). -/
theorem sib_serials_sub {hs : Hasher} {p : Bytes} :
    ∀ k i (S : PE), CWF hs i S → i + k < depth hs →
      ∀ s ∈ canonSerials hs (depth hs - (i+k+1)) (i+k+1) (psx p (i+k) (pdescend p i k S)),
        s ∈ canonSerials hs (depth hs - i) i S := by
  intro k
  induction k with
  | zero =>
    intro i S hcwf hik s hsm
    simp only [Nat.add_zero] at hsm
    rcases pe_shape S with rfl | ⟨e, rfl⟩ | ⟨a, b, r, rfl⟩
    · have hnil : psx p i (pdescend p i 0 ([] : PE)) = [] := by
        show psx p i ([] : PE) = []
        unfold psx splitL splitR
        split <;> rfl
      rw [hnil, canonSerials_nil] at hsm
      exact absurd hsm (List.not_mem_nil s)
    · have hsub : (psx p i (pdescend p i 0 [e])).Sublist [e] := by
        show (psx p i [e]).Sublist [e]
        unfold psx
        split
        · exact splitL_sublist i [e]
        · exact splitR_sublist i [e]
      rcases pe_shape (psx p i (pdescend p i 0 [e])) with hsh | ⟨e0, hsh⟩ | ⟨a0, b0, r0, hsh⟩
      · rw [hsh, canonSerials_nil] at hsm
        exact absurd hsm (List.not_mem_nil s)
      · rw [hsh] at hsub hsm
        have he0 : e0 = e := by
          have := hsub.mem (by simp : e0 ∈ [e0])
          simpa using this
        subst he0
        exact canonSerials_singleton_mem hsm
      · exfalso
        rw [hsh] at hsub
        have := hsub.length_le
        simp at this
    · have hfi : depth hs - i = (depth hs - (i+1)) + 1 := by omega
      rw [hfi]
      exact canonSerials_psx_sub s (by simpa using hsm)
  | succ k' ih =>
    intro i S hcwf hik s hsm
    have hshift : pdescend p i (k'+1) S = pdescend p (i+1) k' (pdx p i S) := rfl
    have harith : i + (k' + 1) = (i + 1) + k' := by omega
    rw [hshift, harith] at hsm
    have hrec := ih (i+1) (pdx p i S) (pdx_cwf hcwf) (by omega) s hsm
    rcases pe_shape S with rfl | ⟨e, rfl⟩ | ⟨a, b, r, rfl⟩
    · have hnil : pdx p i ([] : PE) = [] := by
        unfold pdx splitL splitR
        split <;> rfl
      rw [hnil, canonSerials_nil] at hrec
      exact absurd hrec (List.not_mem_nil s)
    · have hsub : (pdx p i [e]).Sublist [e] := by
        unfold pdx
        split
        · exact splitR_sublist i [e]
        · exact splitL_sublist i [e]
      rcases pe_shape (pdx p i [e]) with hsh | ⟨e0, hsh⟩ | ⟨a0, b0, r0, hsh⟩
      · rw [hsh, canonSerials_nil] at hrec
        exact absurd hrec (List.not_mem_nil s)
      · rw [hsh] at hsub hrec
        have he0 : e0 = e := by
          have := hsub.mem (by simp : e0 ∈ [e0])
          simpa using this
        subst he0
        exact canonSerials_singleton_mem hrec
      · exfalso
        rw [hsh] at hsub
        have := hsub.length_le
        simp at this
    · have hfi : depth hs - i = (depth hs - (i+1)) + 1 := by omega
      rw [hfi]
      exact canonSerials_pdx_sub s hrec

/-- Every serial of the canonical tree is either a spine-node serial along
`p` or lives in a sibling subtree hanging off the spine. -/
theorem canonSerials_spine_decomp {hs : Hasher} {p : Bytes} :
    ∀ f i (S : PE), CWF hs i S → i + f = depth hs →
      ∀ s ∈ canonSerials hs f i S,
        (∃ k, i + k ≤ depth hs ∧ (∀ k', k' < k → 2 ≤ (pdescend p i k' S).length) ∧
          pdescend p i k S ≠ [] ∧
          s = canonS hs (depth hs - (i+k)) (i+k) (pdescend p i k S)) ∨
        (∃ k, i + k < depth hs ∧ (∀ k', k' ≤ k → 2 ≤ (pdescend p i k' S).length) ∧
          s ∈ canonSerials hs (depth hs - (i+k+1)) (i+k+1) (psx p (i+k) (pdescend p i k S))) := by
  intro f
  induction f with
  | zero =>
    intro i S hcwf hif s hsm
    rcases pe_shape S with rfl | ⟨e, rfl⟩ | ⟨a, b, r, rfl⟩
    · rw [canonSerials_nil] at hsm
      exact absurd hsm (List.not_mem_nil s)
    · left
      have hp0 : pdescend p i 0 [e] = [e] := rfl
      refine ⟨0, by omega, by omega, by rw [hp0]; simp, ?_⟩
      have hz : i + 0 = i := by omega
      have hf0 : depth hs - i = 0 := by omega
      rw [hz, hf0, hp0]
      rw [canonSerials_single] at hsm
      have hse : s = (digest_leaf hs e.1 e.2).2 := by simpa using hsm
      rw [hse, canonS_single]
    · exfalso
      have := length_le_one_of_depth hcwf (by omega)
      simp at this
  | succ f' ih =>
    intro i S hcwf hif s hsm
    rcases pe_shape S with rfl | ⟨e, rfl⟩ | ⟨a, b, r, rfl⟩
    · rw [canonSerials_nil] at hsm
      exact absurd hsm (List.not_mem_nil s)
    · left
      have hp0 : pdescend p i 0 [e] = [e] := rfl
      refine ⟨0, by omega, by omega, by rw [hp0]; simp, ?_⟩
      have hz : i + 0 = i := by omega
      have hf0 : depth hs - i = f' + 1 := by omega
      rw [hz, hf0, hp0]
      rw [canonSerials_single] at hsm
      have hse : s = (digest_leaf hs e.1 e.2).2 := by simpa using hsm
      rw [hse, canonS_single]
    · rw [canonSerials_node] at hsm
      have h2len : 2 ≤ (a :: b :: r).length := by simp [Nat.succ_le_succ]
      rcases List.mem_cons.mp hsm with rfl | hsm'
      · left
        have hp0 : pdescend p i 0 (a :: b :: r) = a :: b :: r := rfl
        refine ⟨0, by omega, by omega, by rw [hp0]; simp, ?_⟩
        have hz : i + 0 = i := by omega
        have hf0 : depth hs - i = f' + 1 := by omega
        rw [hz, hf0, hp0, canonS_node]
      · have hlift : ∀ s0, s0 ∈ canonSerials hs f' (i+1) (pdx p i (a :: b :: r)) →
            (∃ k, i + k ≤ depth hs ∧
              (∀ k', k' < k → 2 ≤ (pdescend p i k' (a :: b :: r)).length) ∧
              pdescend p i k (a :: b :: r) ≠ [] ∧
              s0 = canonS hs (depth hs - (i+k)) (i+k) (pdescend p i k (a :: b :: r))) ∨
            (∃ k, i + k < depth hs ∧
              (∀ k', k' ≤ k → 2 ≤ (pdescend p i k' (a :: b :: r)).length) ∧
              s0 ∈ canonSerials hs (depth hs - (i+k+1)) (i+k+1)
                (psx p (i+k) (pdescend p i k (a :: b :: r)))) := by
          intro s0 hs0
          rcases ih (i+1) (pdx p i (a :: b :: r)) (pdx_cwf hcwf) (by omega) s0 hs0 with
            ⟨k, hk1, hk2, hk3, hk4⟩ | ⟨k, hk1, hk2, hk3⟩
          · left
            refine ⟨k+1, by omega, ?_, hk3, ?_⟩
            · intro k' hk'
              cases k' with
              | zero => exact h2len
              | succ k'' =>
                show 2 ≤ (pdescend p (i+1) k'' (pdx p i (a :: b :: r))).length
                exact hk2 k'' (by omega)
            · have harith : i + (k+1) = (i+1) + k := by omega
              rw [harith]
              exact hk4
          · right
            refine ⟨k+1, by omega, ?_, ?_⟩
            · intro k' hk'
              cases k' with
              | zero => exact h2len
              | succ k'' =>
                show 2 ≤ (pdescend p (i+1) k'' (pdx p i (a :: b :: r))).length
                exact hk2 k'' (by omega)
            · have harith : i + (k+1) = (i+1) + k := by omega
              rw [harith]
              exact hk3
        rcases List.mem_append.mp hsm' with hL | hR
        · rcases pbit_cases p i with hp | hp
          · -- left split is the descend side
            rw [← pdx_left (a :: b :: r) hp] at hL
            exact hlift s hL
          · -- left split is the sibling side
            right
            refine ⟨0, by omega, fun k' hk' => by
              have hz : k' = 0 := by omega
              subst hz
              exact h2len, ?_⟩
            have hz : i + 0 = i := by omega
            rw [hz]
            show s ∈ canonSerials hs (depth hs - (i+1)) (i+1) (psx p i (a :: b :: r))
            rw [psx_right _ hp]
            have hfi : depth hs - (i+1) = f' := by omega
            rw [hfi]
            exact hL
        · rcases pbit_cases p i with hp | hp
          · right
            refine ⟨0, by omega, fun k' hk' => by
              have hz : k' = 0 := by omega
              subst hz
              exact h2len, ?_⟩
            have hz : i + 0 = i := by omega
            rw [hz]
            show s ∈ canonSerials hs (depth hs - (i+1)) (i+1) (psx p i (a :: b :: r))
            rw [psx_left _ hp]
            have hfi : depth hs - (i+1) = f' := by omega
            rw [hfi]
            exact hR
          · rw [← pdx_right (a :: b :: r) hp] at hR
            exact hlift s hR

end Decomp

section RemovalSafe

theorem two_le_length_of_two_mem {T : PE} {a b : Bytes × Bytes} (ha : a ∈ T) (hb : b ∈ T)
    (hne : a ≠ b) : 2 ≤ T.length := by
  rcases pe_shape T with rfl | ⟨e, rfl⟩ | ⟨x, y, r, rfl⟩
  · exact absurd ha (List.not_mem_nil a)
  · have ha' : a = e := by simpa using ha
    have hb' : b = e := by simpa using hb
    exact absurd (ha'.trans hb'.symm) hne
  · simp [Nat.succ_le_succ]

/-- No serial of the new canonical tree can hash to the digest of a removed
node that still holds a dropped entry `w`. -/
theorem removal_safe_kill {hs : Hasher} {B : List Bytes} (hl : HashLen hs)
    (hph : PhFree hs B) (hinj : InjOnB hs B)
    {S2 : PE} (hcwf2 : CWF hs 0 S2)
    (hB2 : ∀ s2 ∈ canonSerials hs (depth hs) 0 S2, s2 ∈ B)
    {j : Nat} {R : PE} (hcwfR : CWF hs j R) (hjdep : j ≤ depth hs) (hRne : R ≠ [])
    (hBR : ∀ s2 ∈ canonSerials hs (depth hs - j) j R, s2 ∈ B)
    (w : Bytes × Bytes) (hwR : w ∈ R) (hwS2 : w ∉ S2) :
    ∀ s ∈ canonSerials hs (depth hs) 0 S2, hs.hash s ≠ canonD hs (depth hs - j) j R := by
  intro s hsm heq
  rw [canonD_eq_hash hcwfR (by omega) hRne] at heq
  have hsB : s ∈ B := hB2 s hsm
  have hrB : canonS hs (depth hs - j) j R ∈ B := hBR _ (canonS_mem hcwfR (by omega) hRne)
  have hseq : s = canonS hs (depth hs - j) j R := hinj s hsB _ hrB heq
  obtain ⟨i', T, _, hi'dep, hse, hTne, hTcwf, hTsub, _, _, hTser⟩ :=
    mem_canonSerials_struct (depth hs) 0 S2 hcwf2 (by omega) s hsm
  have hcmp := canon_serial_determines hl hph hinj (depth hs - i') i' T (depth hs - j) j R
    hTcwf hcwfR (by omega) (by omega) hTne hRne
    (fun s2 hs2 => hB2 s2 (hTser s2 hs2)) hBR (by rw [← hse, hseq])
  have hwT : w ∈ T := (hcmp.1 w).mpr hwR
  exact hwS2 (hTsub w hwT)

/-- No serial of the new canonical tree can hash to the digest of a removed
spine node when the new tree holds `(p, vh)` but the removed node's members
avoid path `p` while agreeing with it below their level. -/
theorem removal_safe_fresh {hs : Hasher} {B : List Bytes} {p vh : Bytes} (hl : HashLen hs)
    (hph : PhFree hs B) (hinj : InjOnB hs B)
    {S2 : PE} (hcwf2 : CWF hs 0 S2)
    (hB2 : ∀ s2 ∈ canonSerials hs (depth hs) 0 S2, s2 ∈ B)
    (hpS2 : (p, vh) ∈ S2)
    {j : Nat} {R : PE} (hcwfR : CWF hs j R) (hjdep : j ≤ depth hs) (h2R : 2 ≤ R.length)
    (hBR : ∀ s2 ∈ canonSerials hs (depth hs - j) j R, s2 ∈ B)
    (hRagree : ∀ w ∈ R, ∀ b, b < j → pbit w.1 b = pbit p b)
    (hRnop : ∀ w ∈ R, w.1 ≠ p)
    (hRsub : ∀ w ∈ R, w ∈ S2) :
    ∀ s ∈ canonSerials hs (depth hs) 0 S2, hs.hash s ≠ canonD hs (depth hs - j) j R := by
  intro s hsm heq
  have hRne : R ≠ [] := by
    intro hc
    rw [hc] at h2R
    simp at h2R
  rw [canonD_eq_hash hcwfR (by omega) hRne] at heq
  have hsB : s ∈ B := hB2 s hsm
  have hrB : canonS hs (depth hs - j) j R ∈ B := hBR _ (canonS_mem hcwfR (by omega) hRne)
  have hseq : s = canonS hs (depth hs - j) j R := hinj s hsB _ hrB heq
  obtain ⟨i', T, _, hi'dep, hse, hTne, hTcwf, hTsub, hTclosed, _, hTser⟩ :=
    mem_canonSerials_struct (depth hs) 0 S2 hcwf2 (by omega) s hsm
  have hcmp := canon_serial_determines hl hph hinj (depth hs - i') i' T (depth hs - j) j R
    hTcwf hcwfR (by omega) (by omega) hTne hRne
    (fun s2 hs2 => hB2 s2 (hTser s2 hs2)) hBR (by rw [← hse, hseq])
  rcases le_or_lt i' j with hij | hij
  · -- the closure pulls the new entry into the removed node's members
    obtain ⟨e1, he1⟩ := List.exists_mem_of_ne_nil T hTne
    have he1R : e1 ∈ R := (hcmp.1 e1).mp he1
    have hpT : (p, vh) ∈ T := by
      apply hTclosed e1 he1 (p, vh) hpS2
      intro jj hjj
      have := hRagree e1 he1R jj (by omega)
      rw [this]
    exact hRnop (p, vh) ((hcmp.1 (p, vh)).mp hpT) rfl
  · -- level mismatch: the wrapper count contradicts the equal node counts
    obtain ⟨a, b, r, hsh⟩ : ∃ a b r, R = a :: b :: r := by
      rcases pe_shape R with rfl | ⟨e, rfl⟩ | ⟨a, b, r, rfl⟩
      · simp at h2R
      · simp at h2R
      · exact ⟨a, b, r, rfl⟩
    have hane : a ≠ b := by
      have hd := hcwfR.distinct
      rw [hsh, List.pairwise_cons] at hd
      intro hc
      exact (hd.1 b (by simp)) (congrArg Prod.fst hc)
    have haT : a ∈ T := (hcmp.1 a).mpr (by rw [hsh]; simp)
    have hbT : b ∈ T := (hcmp.1 b).mpr (by rw [hsh]; simp)
    have h2T : 2 ≤ T.length := two_le_length_of_two_mem haT hbT hane
    have hperm : T.Perm R := perm_of_mem_iff hTcwf.distinct hcwfR.distinct hcmp.1
    have hshift := csize_shift hTcwf h2T (i' - j) (depth hs - i') j (by omega)
    have hfj : depth hs - i' + (i' - j) = depth hs - j := by omega
    rw [hfj] at hshift
    have hpermsz : csize (depth hs - j) j R = csize (depth hs - j) j T :=
      csize_perm _ _ _ _ hperm.symm
    have hfinal := hcmp.2
    omega

end RemovalSafe

section AssemblyHelpers

/-- The representation invariant: the tree's root and node store hold exactly
the canonical tree of the entry collection `S`, over the serial family `B`. -/
structure RepInv (hs : Hasher) (B : List Bytes) (t : SMT) (S : PE) : Prop where
  cwf : CWF hs 0 S
  root : t.root = canonD hs (depth hs) 0 S
  serials : ∀ s ∈ canonSerials hs (depth hs) 0 S, s ∈ B
  present : ∀ s ∈ canonSerials hs (depth hs) 0 S, Store.get t.nodes (hs.hash s) = some s
  honest : ∀ kv ∈ t.nodes, ∃ s ∈ B, kv.1 = hs.hash s ∧ kv.2 = s

theorem get_set_honest {hs : Hasher} {B : List Bytes} (hinj : InjOnB hs B)
    {s s2 : Bytes} (hsB : s ∈ B) (hs2B : s2 ∈ B) (n : Store)
    (h : Store.get n (hs.hash s) = some s) :
    Store.get (Store.set n (hs.hash s2) s2) (hs.hash s) = some s := by
  rw [Store.get_set_eq]
  by_cases hk : hs.hash s2 = hs.hash s
  · rw [if_pos hk]
    rw [hinj s2 hs2B s hsB hk]
  · rw [if_neg hk]
    exact h

theorem peInsert_cwf {hs : Hasher} {p vh : Bytes} {S : PE} (h : CWF hs 0 S)
    (hp : PathWF hs p) : CWF hs 0 (peInsert p vh S) := by
  refine ⟨?_, ?_, ?_⟩
  · intro e he
    rcases List.mem_cons.mp he with rfl | he'
    · exact hp
    · exact h.wf e ((List.filter_sublist S).mem he')
  · rw [peInsert, List.pairwise_cons]
    refine ⟨?_, h.distinct.sublist (List.filter_sublist S)⟩
    intro e he
    have := List.of_mem_filter he
    simp only [decide_eq_true_eq] at this
    intro hc
    exact this (by rw [← hc])
  · intro e1 _ e2 _ j hj
    omega

theorem peRemove_cwf {hs : Hasher} {p : Bytes} {S : PE} (h : CWF hs 0 S) :
    CWF hs 0 (peRemove p S) := by
  refine ⟨?_, ?_, ?_⟩
  · intro e he
    exact h.wf e ((List.filter_sublist S).mem he)
  · exact h.distinct.sublist (List.filter_sublist S)
  · intro e1 _ e2 _ j hj
    omega

theorem peInsert_mem_head (p vh : Bytes) (S : PE) : (p, vh) ∈ peInsert p vh S := by
  rw [peInsert]
  simp

theorem filter_ne_of_no_p {p : Bytes} {S : PE} (h : ∀ e ∈ S, e.1 ≠ p) :
    S.filter (fun e => decide (e.1 ≠ p)) = S := by
  apply filter_all_eq_self
  intro e he
  simpa using h e he

theorem spineDigests_head {hs : Hasher} {p : Bytes} :
    ∀ m i (S : PE), 0 < m →
      (spineDigests hs p m i S).head? =
        some (canonD hs (depth hs - (i+m)) (i+m) (pdescend p i m S)) := by
  intro m
  induction m with
  | zero => intro i S h; omega
  | succ m' ih =>
    intro i S _
    rw [spineDigests]
    rcases Nat.eq_zero_or_pos m' with rfl | hpos
    · show (([] : List Bytes) ++ [canonD hs (depth hs - (i+1)) (i+1) (pdx p i S)]).head? = _
      have harith : i + 1 = i + 1 := rfl
      show some (canonD hs (depth hs - (i+1)) (i+1) (pdx p i S)) = _
      have hp1 : pdescend p i 1 S = pdx p i S := rfl
      rw [hp1]
    · rw [List.head?_append_of_ne_nil]
      · rw [ih (i+1) (pdx p i S) hpos]
        have harith : i + 1 + m' = i + (m' + 1) := by omega
        rw [harith]
        rfl
      · intro hc
        have := congrArg List.length hc
        rw [spineDigests_length] at this
        simp at this
        omega

theorem mem_spineDigests {hs : Hasher} {p : Bytes} :
    ∀ m i (S : PE) d, d ∈ spineDigests hs p m i S →
      ∃ j, 1 ≤ j ∧ j ≤ m ∧
        d = canonD hs (depth hs - (i+j)) (i+j) (pdescend p i j S) := by
  intro m
  induction m with
  | zero =>
    intro i S d hd
    rw [spineDigests] at hd
    exact absurd hd (List.not_mem_nil d)
  | succ m' ih =>
    intro i S d hd
    rw [spineDigests] at hd
    rcases List.mem_append.mp hd with hsub | hlast
    · obtain ⟨j, hj1, hj2, hj3⟩ := ih (i+1) (pdx p i S) d hsub
      refine ⟨j + 1, by omega, by omega, ?_⟩
      have harith : i + (j + 1) = i + 1 + j := by omega
      rw [harith]
      rw [hj3]
      rfl
    · have hde : d = canonD hs (depth hs - (i+1)) (i+1) (pdx p i S) := by simpa using hlast
      refine ⟨1, Nat.le_refl 1, by omega, ?_⟩
      have hp1 : pdescend p i 1 S = pdx p i S := rfl
      rw [hp1]
      exact hde

end AssemblyHelpers

section InsertNil

theorem update_insert_nil {hs : Hasher} {B : List Bytes}
    (hl : HashLen hs) (hhb : HashBytes hs)
    {t : SMT} (hrep : RepInv hs B t [])
    (k v : Bytes) (hv : v ≠ DEFAULT_VALUE)
    (hS'B : ∀ s ∈ canonSerials hs (depth hs) 0 (peInsert (hs.hash k) (hs.hash v) []), s ∈ B) :
    ∃ t2, update hs t k v = some t2 ∧ RepInv hs B t2 (peInsert (hs.hash k) (hs.hash v) []) := by
  have hpw : PathWF hs (hs.hash k) := ⟨hl k, hhb k⟩
  have hroot' : t.root = placeholder hs := by rw [hrep.root, canonD_nil]
  have hS'eq : peInsert (hs.hash k) (hs.hash v) [] = [(hs.hash k, hs.hash v)] := rfl
  have hwalk : side_nodes_for_root hs t.nodes (hs.hash k) t.root false =
      some ⟨[], [t.root], none, none⟩ := by
    unfold side_nodes_for_root
    rw [if_pos hroot']
  have h1 : update_for_root hs t k v t.root =
      update_with_side_notes hs t (hs.hash k) v [] [t.root] none := by
    unfold update_for_root
    simp only [hwalk]
    rw [if_neg hv]
  have h2 : update_with_side_notes hs t (hs.hash k) v [] [t.root] none =
      update_finish hs (hs.hash k) v [] [t.root] (depth hs)
        (digest_leaf hs (hs.hash k) (hs.hash v)).1
        (Store.set t.nodes (digest_leaf hs (hs.hash k) (hs.hash v)).1
          (digest_leaf hs (hs.hash k) (hs.hash v)).2)
        t.values t.root := by
    unfold update_with_side_notes
    simp only [List.head?_cons, if_pos hroot']
    rw [if_neg (show ¬ depth hs ≠ depth hs from fun h => h rfl)]
  have hloop : update_loop hs (hs.hash k) [] (depth hs) (depth hs) (depth hs) 0
      (digest_leaf hs (hs.hash k) (hs.hash v)).1
      (Store.set t.nodes (digest_leaf hs (hs.hash k) (hs.hash v)).1
        (digest_leaf hs (hs.hash k) (hs.hash v)).2) (depth hs) =
      some ((digest_leaf hs (hs.hash k) (hs.hash v)).1,
        Store.set t.nodes (digest_leaf hs (hs.hash k) (hs.hash v)).1
          (digest_leaf hs (hs.hash k) (hs.hash v)).2) := by
    have hskip : update_loop hs (hs.hash k) [] (depth hs) (depth hs) (depth hs) 0
        (digest_leaf hs (hs.hash k) (hs.hash v)).1
        (Store.set t.nodes (digest_leaf hs (hs.hash k) (hs.hash v)).1
          (digest_leaf hs (hs.hash k) (hs.hash v)).2) (depth hs + 0) =
        update_loop hs (hs.hash k) [] (depth hs) (depth hs) (depth hs) (0 + depth hs)
          (digest_leaf hs (hs.hash k) (hs.hash v)).1
          (Store.set t.nodes (digest_leaf hs (hs.hash k) (hs.hash v)).1
            (digest_leaf hs (hs.hash k) (hs.hash v)).2) 0 :=
      update_loop_skip (depth hs) 0 _ _ 0 (fun tt h1 h2 => ⟨by omega, fun hc => hc.1 rfl⟩)
    rw [Nat.add_zero] at hskip
    rw [hskip]
    rfl
  have h3 : update_finish hs (hs.hash k) v [] [t.root] (depth hs)
      (digest_leaf hs (hs.hash k) (hs.hash v)).1
      (Store.set t.nodes (digest_leaf hs (hs.hash k) (hs.hash v)).1
        (digest_leaf hs (hs.hash k) (hs.hash v)).2)
      t.values t.root =
      some ((digest_leaf hs (hs.hash k) (hs.hash v)).1,
        ⟨Store.set t.nodes (digest_leaf hs (hs.hash k) (hs.hash v)).1
          (digest_leaf hs (hs.hash k) (hs.hash v)).2,
          Store.set t.values (hs.hash k) v, t.root⟩) := by
    unfold update_finish
    simp only [List.drop_succ_cons, List.drop_nil, List.foldl_nil, List.length_nil,
      Nat.sub_zero]
    simp only [hloop]
  have hupd : update hs t k v =
      some ⟨Store.set t.nodes (digest_leaf hs (hs.hash k) (hs.hash v)).1
        (digest_leaf hs (hs.hash k) (hs.hash v)).2,
        Store.set t.values (hs.hash k) v, (digest_leaf hs (hs.hash k) (hs.hash v)).1⟩ := by
    unfold update
    simp only [h1, h2, h3]
  refine ⟨_, hupd, ?_, ?_, hS'B, ?_, ?_⟩
  · exact peInsert_cwf hrep.cwf hpw
  · show (digest_leaf hs (hs.hash k) (hs.hash v)).1 = _
    rw [hS'eq, canonD_single]
  · intro s hsm
    rw [hS'eq, canonSerials_single] at hsm
    have hse : s = (digest_leaf hs (hs.hash k) (hs.hash v)).2 := by simpa using hsm
    subst hse
    show Store.get (Store.set t.nodes (digest_leaf hs (hs.hash k) (hs.hash v)).1
      (digest_leaf hs (hs.hash k) (hs.hash v)).2) _ = _
    rw [Store.get_set_eq]
    rw [if_pos (show (digest_leaf hs (hs.hash k) (hs.hash v)).1 =
      hs.hash (digest_leaf hs (hs.hash k) (hs.hash v)).2 from rfl)]
  · intro kv hkv
    rcases Store.mem_set _ _ _ _ hkv with rfl | hmem
    · refine ⟨(digest_leaf hs (hs.hash k) (hs.hash v)).2, ?_, rfl, rfl⟩
      apply hS'B
      rw [hS'eq, canonSerials_single]
      simp
    · exact hrep.honest kv hmem

end InsertNil

section InsertHelpers

theorem pdx_nil (p : Bytes) (i : Nat) : pdx p i ([] : PE) = [] := by
  unfold pdx splitL splitR
  split <;> rfl

theorem psx_nil (p : Bytes) (i : Nat) : psx p i ([] : PE) = [] := by
  unfold psx splitL splitR
  split <;> rfl

theorem pdx_pair {p : Bytes} {e : Bytes × Bytes} {i : Nat} (hne : pbit e.1 i ≠ pbit p i) :
    pdx p i [e] = [] := by
  rcases pbit_cases p i with hp | hp
  · rw [pdx_left _ hp]
    rcases pbit_cases e.1 i with hq | hq
    · exact absurd (hq.trans hp.symm) hne
    · simp [splitL, List.filter_cons, hq]
  · rw [pdx_right _ hp]
    rcases pbit_cases e.1 i with hq | hq
    · simp [splitR, List.filter_cons, hq, RIGHT]
    · exact absurd (hq.trans hp.symm) hne

theorem psx_pair {p : Bytes} {e : Bytes × Bytes} {i : Nat} (hne : pbit e.1 i ≠ pbit p i) :
    psx p i [e] = [e] := by
  rcases pbit_cases p i with hp | hp
  · rw [psx_left _ hp]
    rcases pbit_cases e.1 i with hq | hq
    · exact absurd (hq.trans hp.symm) hne
    · simp [splitR, List.filter_cons, hq]
  · rw [psx_right _ hp]
    rcases pbit_cases e.1 i with hq | hq
    · simp [splitL, List.filter_cons, hq, RIGHT]
    · exact absurd (hq.trans hp.symm) hne

theorem pdescend_singleton_p (p vh : Bytes) :
    ∀ k i, pdescend p i k [(p, vh)] = [(p, vh)] := by
  intro k
  induction k with
  | zero => intro i; rfl
  | succ k' ih =>
    intro i
    have hpdx : pdx p i [(p, vh)] = [(p, vh)] := by
      rw [show ([(p, vh)] : PE) = (p, vh) :: [] from rfl, pdx_cons_self, pdx_nil]
    rw [pdescend, hpdx, ih (i+1)]

theorem pdescend_add (p : Bytes) :
    ∀ k1 k2 i (S : PE),
      pdescend p i (k1 + k2) S = pdescend p (i + k1) k2 (pdescend p i k1 S) := by
  intro k1
  induction k1 with
  | zero =>
    intro k2 i S
    rw [Nat.zero_add]
    rfl
  | succ k1' ih =>
    intro k2 i S
    have harith : k1' + 1 + k2 = (k1' + k2) + 1 := by omega
    rw [harith]
    show pdescend p (i+1) (k1' + k2) (pdx p i S) = _
    rw [ih k2 (i+1) (pdx p i S)]
    have h2 : i + 1 + k1' = i + (k1' + 1) := by omega
    rw [h2]
    rfl

theorem filter_length_ge (p : Bytes) :
    ∀ (X : PE), X.Pairwise (fun e1 e2 => e1.1 ≠ e2.1) →
      X.length - 1 ≤ (X.filter fun e => decide (e.1 ≠ p)).length := by
  intro X
  induction X with
  | nil => intro _; simp
  | cons x xs ih =>
    intro hp
    rw [List.pairwise_cons] at hp
    by_cases hx : x.1 = p
    · have hall : xs.filter (fun e => decide (e.1 ≠ p)) = xs := by
        apply filter_all_eq_self
        intro e he
        have := hp.1 e he
        rw [hx] at this
        simpa using fun hc => this hc.symm
      rw [List.filter_cons]
      rw [if_neg (by simpa using hx)]
      rw [hall]
      simp
    · rw [List.filter_cons, if_pos (by simpa using hx)]
      have := ih hp.2
      simp only [List.length_cons]
      omega

theorem two_le_peInsert {p vh : Bytes} {X : PE} (h2 : 2 ≤ X.length)
    (hdist : X.Pairwise (fun e1 e2 => e1.1 ≠ e2.1)) :
    2 ≤ (peInsert p vh X).length := by
  have := filter_length_ge p X hdist
  rw [peInsert, List.length_cons]
  omega

theorem mem_peInsert_of_ne {p vh : Bytes} {X : PE} {e : Bytes × Bytes}
    (he : e ∈ X) (hne : e.1 ≠ p) : e ∈ peInsert p vh X := by
  rw [peInsert]
  exact List.mem_cons_of_mem _ (List.mem_filter.mpr ⟨he, by simpa using hne⟩)

theorem peInsert_perm {p vh : Bytes} :
    ∀ {X : PE}, X.Pairwise (fun e1 e2 => e1.1 ≠ e2.1) → (p, vh) ∈ X →
      (peInsert p vh X).Perm X := by
  intro X
  induction X with
  | nil => intro _ hm; exact absurd hm (List.not_mem_nil _)
  | cons x xs ih =>
    intro hdist hm
    rw [List.pairwise_cons] at hdist
    rcases List.mem_cons.mp hm with rfl | hm'
    · have hall : xs.filter (fun e => decide (e.1 ≠ p)) = xs := by
        apply filter_all_eq_self
        intro e he
        have := hdist.1 e he
        simpa using fun hc => this hc.symm
      rw [peInsert, List.filter_cons, if_neg (by simp), hall]
    · have hx : x.1 ≠ p := by
        intro hc
        exact hdist.1 (p, vh) hm' (by rw [hc])
      rw [peInsert, List.filter_cons, if_pos (by simpa using hx)]
      have hrec : ((p, vh) :: xs.filter fun e => decide (e.1 ≠ p)).Perm xs := ih hdist.2 hm'
      exact (List.Perm.swap x (p, vh) _).trans (hrec.cons x)

theorem canonSerials_pdescend_sub {hs : Hasher} {p : Bytes} :
    ∀ k i (S : PE), CWF hs i S → i + (depth hs - i) = depth hs →
      (∀ k', k' < k → 2 ≤ (pdescend p i k' S).length) →
      ∀ s ∈ canonSerials hs (depth hs - (i+k)) (i+k) (pdescend p i k S),
        s ∈ canonSerials hs (depth hs - i) i S := by
  intro k
  induction k with
  | zero =>
    intro i S _ _ _ s hsm
    have harith : i + 0 = i := by omega
    rw [harith] at hsm
    exact hsm
  | succ k' ih =>
    intro i S hcwf hif hge s hsm
    have h2 : 2 ≤ S.length := hge 0 (by omega)
    rcases pe_shape S with rfl | ⟨e, rfl⟩ | ⟨a, b, r, rfl⟩
    · simp at h2
    · simp at h2
    · have hidep : i < depth hs := by
        by_contra hc
        have := length_le_one_of_depth hcwf (by omega)
        simp at this
      have hshift : pdescend p i (k'+1) (a :: b :: r) =
          pdescend p (i+1) k' (pdx p i (a :: b :: r)) := rfl
      have harith : i + (k' + 1) = (i + 1) + k' := by omega
      rw [hshift, harith] at hsm
      have hrec := ih (i+1) (pdx p i (a :: b :: r)) (pdx_cwf hcwf) (by omega)
        (fun k'' hk'' => hge (k''+1) (by omega)) s hsm
      have hfi : depth hs - i = (depth hs - (i+1)) + 1 := by omega
      rw [hfi]
      exact canonSerials_pdx_sub s hrec

end InsertHelpers

section PresenceAssemble

/-- Assemble presence of every canonical serial of the new collection from
presence of the spine nodes above the terminal, the terminal leaf itself, and
the sibling subtrees hanging off the spine. -/
theorem presence_assemble {hs : Hasher} {p vh : Bytes} {S' : PE} {L : Nat}
    (hS'cwf : CWF hs 0 S') (hLdep : L ≤ depth hs)
    (hterm : pdescend p 0 L S' = [(p, vh)])
    (nodes2 : Store)
    (Hspine : ∀ ℓ, ℓ < L →
      Store.get nodes2 (hs.hash (canonS hs (depth hs - ℓ) ℓ (pdescend p 0 ℓ S'))) =
        some (canonS hs (depth hs - ℓ) ℓ (pdescend p 0 ℓ S')))
    (Hterm : Store.get nodes2 (hs.hash ((digest_leaf hs p vh).2)) =
      some ((digest_leaf hs p vh).2))
    (Hsib : ∀ kk, kk < L →
      ∀ s ∈ canonSerials hs (depth hs - (kk+1)) (kk+1) (psx p kk (pdescend p 0 kk S')),
        Store.get nodes2 (hs.hash s) = some s) :
    ∀ s ∈ canonSerials hs (depth hs) 0 S', Store.get nodes2 (hs.hash s) = some s := by
  intro s hsm
  rcases canonSerials_spine_decomp (depth hs) 0 S' hS'cwf (by omega) s hsm with
    ⟨kk, hkdep, hklen, hkne, hse⟩ | ⟨kk, hkdep, hklen, hsm2⟩
  · simp only [Nat.zero_add] at hkdep hklen hkne hse
    rcases Nat.lt_or_ge kk L with hkL | hkL
    · rw [hse]
      exact Hspine kk hkL
    · rcases Nat.eq_or_lt_of_le hkL with hkL' | hkL'
      · rw [hkL'] at hterm
        rw [hse, hterm, canonS_single]
        exact Hterm
      · exfalso
        have := hklen L hkL'
        rw [hterm] at this
        simp at this
  · simp only [Nat.zero_add] at hkdep hklen hsm2
    rcases Nat.lt_or_ge kk L with hkL | hkL
    · exact Hsib kk hkL s hsm2
    · exfalso
      have := hklen L hkL
      rw [hterm] at this
      simp at this

end PresenceAssemble

section FinishCanon

/-- The shared tail of `update_with_side_notes`: orphan the stale spine
nodes, climb the rebuild loop, and return the canonical root of the new
collection with every canonical serial present in the store. -/
theorem update_finish_canon {hs : Hasher} {B : List Bytes}
    (hl : HashLen hs) (hinj : InjOnB hs B)
    {p vh : Bytes} (hpw : PathWF hs p)
    {S' : PE} (hS'cwf : CWF hs 0 S')
    (hS'B : ∀ s ∈ canonSerials hs (depth hs) 0 S', s ∈ B)
    {m ls L cpc : Nat} {sns pns : List Bytes}
    (hsns : sns.length = m)
    (hm : m ≤ ls) (hlsdep : ls ≤ depth hs) (hlsL : ls ≤ L) (hLdep : L ≤ depth hs)
    (hcpc1 : cpc = depth hs → ls = m) (hcpc2 : cpc ≠ depth hs → ls = cpc)
    (hcomb : ∀ ℓ, ℓ < m → 2 ≤ (pdescend p 0 ℓ S').length ∧
      sns.get? (m - 1 - ℓ) =
        some (canonD hs (depth hs - (ℓ+1)) (ℓ+1) (psx p ℓ (pdescend p 0 ℓ S'))))
    (hwrap : ∀ ℓ, m ≤ ℓ → ℓ < ls →
      2 ≤ (pdescend p 0 ℓ S').length ∧ psx p ℓ (pdescend p 0 ℓ S') = [])
    (h2S' : ∀ ℓ, ℓ < L → 2 ≤ (pdescend p 0 ℓ S').length)
    (htermS' : pdescend p 0 L S' = [(p, vh)])
    {cur : Bytes} (hcur : cur = canonD hs (depth hs - ls) ls (pdescend p 0 ls S'))
    {nodes_in : Store} (values_in : Store) (root0 : Bytes) (v : Bytes)
    (hpresT : Store.get nodes_in (hs.hash ((digest_leaf hs p vh).2)) =
      some ((digest_leaf hs p vh).2))
    (hpresM : ∀ ℓ, ls ≤ ℓ → ℓ < L →
      Store.get nodes_in (hs.hash (canonS hs (depth hs - ℓ) ℓ (pdescend p 0 ℓ S'))) =
        some (canonS hs (depth hs - ℓ) ℓ (pdescend p 0 ℓ S')))
    (hpresS : ∀ kk, kk < L →
      ∀ s2 ∈ canonSerials hs (depth hs - (kk+1)) (kk+1) (psx p kk (pdescend p 0 kk S')),
        Store.get nodes_in (hs.hash s2) = some s2)
    (hsafe : ∀ s2 ∈ canonSerials hs (depth hs) 0 S', ∀ d ∈ pns.drop 1, hs.hash s2 ≠ d)
    (hhon : ∀ kv ∈ nodes_in, ∃ s2 ∈ B, kv.1 = hs.hash s2 ∧ kv.2 = s2) :
    ∃ nodes2, update_finish hs p v sns pns cpc cur nodes_in values_in root0 =
        some (canonD hs (depth hs) 0 S',
          ⟨nodes2, Store.set values_in p v, root0⟩) ∧
      (∀ s ∈ canonSerials hs (depth hs) 0 S', Store.get nodes2 (hs.hash s) = some s) ∧
      (∀ kv ∈ nodes2, ∃ s2 ∈ B, kv.1 = hs.hash s2 ∧ kv.2 = s2) := by
  obtain ⟨nodes1, hn1⟩ : ∃ x, (pns.drop 1).foldl Store.remove nodes_in = x := ⟨_, rfl⟩
  -- the skip phase over the wrapper-free bottom of the climb
  have hskipcond : ∀ t0, 0 ≤ t0 → t0 < 0 + (depth hs - ls) →
      ¬(depth hs - m ≤ t0) ∧ ¬(cpc ≠ depth hs ∧ depth hs - t0 - 1 < cpc) := by
    intro t0 _ ht0
    constructor
    · omega
    · rintro ⟨hne, hlt⟩
      have := hcpc2 hne
      omega
  have hcurfix : cur = canonD hs (depth hs - ls) (depth hs - (depth hs - ls))
      (pdescend p 0 (depth hs - (depth hs - ls)) S') := by
    have hrw : depth hs - (depth hs - ls) = ls := by omega
    rw [hrw]
    exact hcur
  obtain ⟨nodes2, hloop, hO2, hO3, hO4⟩ :=
    update_loop_canon hl hinj hS'B hS'cwf hpw rfl (by omega) hm hlsdep hcpc1 hcpc2
      hcomb hwrap ls (depth hs - ls) nodes1 cur (by omega) (by omega) hcurfix
  have hwin : depth hs - (depth hs - ls) = ls := by omega
  rw [hwin] at hO4
  have hloopfull : update_loop hs p sns cpc (depth hs) (depth hs - m) 0 cur nodes1
      (depth hs) = some (canonD hs (depth hs) 0 S', nodes2) := by
    have hfuel : depth hs = (depth hs - ls) + ls := by omega
    calc update_loop hs p sns cpc (depth hs) (depth hs - m) 0 cur nodes1 (depth hs)
        = update_loop hs p sns cpc (depth hs) (depth hs - m) 0 cur nodes1
            ((depth hs - ls) + ls) := by rw [← hfuel]
      _ = update_loop hs p sns cpc (depth hs) (depth hs - m) (0 + (depth hs - ls))
            cur nodes1 ls := update_loop_skip _ _ _ _ _ hskipcond
      _ = some (canonD hs (depth hs) 0 S', nodes2) := by rw [Nat.zero_add]; exact hloop
  -- survival of a serial through the orphan removals
  have hsurv : ∀ s2, s2 ∈ canonSerials hs (depth hs) 0 S' →
      Store.get nodes_in (hs.hash s2) = some s2 →
      Store.get nodes2 (hs.hash s2) = some s2 := by
    intro s2 hmem hget
    apply hO3 s2 (hS'B s2 hmem)
    rw [← hn1]
    rw [Store.get_foldl_remove_ne (pns.drop 1) nodes_in (hs.hash s2)
      (fun d hd => (hsafe s2 hmem d hd).symm)]
    exact hget
  refine ⟨nodes2, ?_, ?_, ?_⟩
  · unfold update_finish
    simp only [hsns, hn1, hloopfull]
  · apply presence_assemble hS'cwf hLdep htermS' nodes2
    · -- spine levels below the terminal
      intro ℓ hℓL
      rcases Nat.lt_or_ge ℓ ls with hls' | hls'
      · exact hO4 ℓ hls'
      · have hmem : canonS hs (depth hs - ℓ) ℓ (pdescend p 0 ℓ S') ∈
            canonSerials hs (depth hs) 0 S' := by
          have := canonS_pdescend_mem ℓ 0 S' hS'cwf (by omega)
            (fun k' hk' => h2S' k' (by omega))
            (by
              have h2 := h2S' ℓ hℓL
              intro hc
              rw [hc] at h2
              simp at h2)
            (by omega)
          simpa using this
        exact hsurv _ hmem (hpresM ℓ hls' hℓL)
    · -- the terminal leaf
      have hmem : (digest_leaf hs p vh).2 ∈ canonSerials hs (depth hs) 0 S' := by
        have := canonS_pdescend_mem L 0 S' hS'cwf (by omega)
          (fun k' hk' => h2S' k' hk')
          (by rw [htermS']; simp)
          (by omega)
        rw [Nat.zero_add, htermS', canonS_single] at this
        simpa using this
      exact hsurv _ hmem hpresT
    · -- sibling subtrees along the spine
      intro kk hkkL s2 hs2m
      have hmem : s2 ∈ canonSerials hs (depth hs) 0 S' := by
        have := sib_serials_sub kk 0 S' hS'cwf (by omega : 0 + kk < depth hs) s2
          (by simpa using hs2m)
        simpa using this
      exact hsurv s2 hmem (hpresS kk hkkL s2 hs2m)
  · intro kv hkv
    rcases hO2 kv hkv with hin1 | hnew
    · apply hhon
      apply Store.mem_foldl_remove (pns.drop 1) nodes_in
      rw [hn1]
      exact hin1
    · exact hnew

end FinishCanon

section WsnCanon

/-- The head of the path-node accumulator is the deepest spine digest. -/
theorem pns_head_canon {hs : Hasher} {p root : Bytes} {S : PE} {m : Nat}
    (hroot : root = canonD hs (depth hs) 0 S) :
    (spineDigests hs p m 0 S ++ [root]).head? =
      some (canonD hs (depth hs - m) m (pdescend p 0 m S)) := by
  rcases Nat.eq_zero_or_pos m with rfl | hmpos
  · show ([] ++ [root] : List Bytes).head? = _
    rw [List.nil_append]
    show some root = _
    rw [hroot]
    rfl
  · rw [List.head?_append_of_ne_nil]
    · have hsp := @spineDigests_head hs p m 0 S hmpos
      rw [hsp]
      simp only [Nat.zero_add]
    · intro hc
      have := congrArg List.length hc
      rw [spineDigests_length] at this
      simp at this
      omega

theorem mem_spineDigests_drop1 {hs : Hasher} {p : Bytes} :
    ∀ m i (S : PE) d, d ∈ (spineDigests hs p m i S).drop 1 →
      ∃ j, 1 ≤ j ∧ j < m ∧
        d = canonD hs (depth hs - (i+j)) (i+j) (pdescend p i j S) := by
  intro m
  induction m with
  | zero =>
    intro i S d hd
    rw [spineDigests] at hd
    simp at hd
  | succ m' ih =>
    intro i S d hd
    rw [spineDigests] at hd
    rcases Nat.eq_zero_or_pos m' with rfl | hpos
    · rw [spineDigests] at hd
      simp at hd
    · rw [List.drop_append_of_le_length (by rw [spineDigests_length]; omega)] at hd
      rcases List.mem_append.mp hd with hd1 | hd2
      · obtain ⟨j, hj1, hj2, hj3⟩ := ih (i+1) (pdx p i S) d hd1
        refine ⟨j + 1, by omega, by omega, ?_⟩
        have harith : i + (j + 1) = i + 1 + j := by omega
        rw [harith, hj3]
        rfl
      · have hdx : d = canonD hs (depth hs - (i+1)) (i+1) (pdx p i S) := by
          simpa using hd2
        refine ⟨1, Nat.le_refl 1, by omega, ?_⟩
        rw [hdx]
        rfl

theorem update_wsn_canon {hs : Hasher} {B : List Bytes}
    (hl : HashLen hs) (hhb : HashBytes hs) (hph : PhFree hs B) (hinj : InjOnB hs B)
    {t : SMT} {S : PE} (hrep : RepInv hs B t S)
    (k v : Bytes) (hv : v ≠ DEFAULT_VALUE)
    (hS'B : ∀ s ∈ canonSerials hs (depth hs) 0 (peInsert (hs.hash k) (hs.hash v) S), s ∈ B)
    {m : Nat} (hm : m ≤ depth hs)
    (hspine : ∀ k', k' < m → 2 ≤ (pdescend (hs.hash k) 0 k' S).length)
    (hterm1 : (pdescend (hs.hash k) 0 m S).length ≤ 1) :
    ∃ t', update_with_side_notes hs t (hs.hash k) v
        (sibDigests hs (hs.hash k) m 0 S)
        (spineDigests hs (hs.hash k) m 0 S ++ [t.root])
        (termData hs (pdescend (hs.hash k) 0 m S)) =
      some (canonD hs (depth hs) 0 (peInsert (hs.hash k) (hs.hash v) S), t') ∧
      t'.root = t.root ∧
      (∀ s ∈ canonSerials hs (depth hs) 0 (peInsert (hs.hash k) (hs.hash v) S),
        Store.get t'.nodes (hs.hash s) = some s) ∧
      (∀ kv ∈ t'.nodes, ∃ s2 ∈ B, kv.1 = hs.hash s2 ∧ kv.2 = s2) := by
  have hpw : PathWF hs (hs.hash k) := ⟨hl k, hhb k⟩
  have hcwf := hrep.cwf
  have hcwf' : CWF hs 0 (peInsert (hs.hash k) (hs.hash v) S) := peInsert_cwf hcwf hpw
  have hhead : (spineDigests hs (hs.hash k) m 0 S ++ [t.root]).head? =
      some (canonD hs (depth hs - m) m (pdescend (hs.hash k) 0 m S)) :=
    pns_head_canon hrep.root
  have horph : ∀ d ∈ (spineDigests hs (hs.hash k) m 0 S ++ [t.root]).drop 1,
      ∃ j, j < m ∧ d = canonD hs (depth hs - j) j (pdescend (hs.hash k) 0 j S) := by
    intro d hd
    rcases Nat.eq_zero_or_pos m with rfl | hmpos
    · exfalso
      have h0 : spineDigests hs (hs.hash k) 0 0 S = [] := rfl
      rw [h0] at hd
      simp at hd
    · rw [List.drop_append_of_le_length (by rw [spineDigests_length]; omega)] at hd
      rcases List.mem_append.mp hd with hd1 | hd2
      · obtain ⟨j, hj1, hj2, hj3⟩ := mem_spineDigests_drop1 m 0 S d hd1
        refine ⟨j, by omega, by simpa using hj3⟩
      · have hdr : d = t.root := by simpa using hd2
        refine ⟨0, hmpos, ?_⟩
        rw [hdr, hrep.root]
        rfl
  have hcombS : ∀ ℓ, ℓ < m → 2 ≤ (pdescend (hs.hash k) 0 ℓ
      (peInsert (hs.hash k) (hs.hash v) S)).length ∧
      (sibDigests hs (hs.hash k) m 0 S).get? (m - 1 - ℓ) =
        some (canonD hs (depth hs - (ℓ+1)) (ℓ+1) (psx (hs.hash k) ℓ
          (pdescend (hs.hash k) 0 ℓ (peInsert (hs.hash k) (hs.hash v) S)))) := by
    intro ℓ hℓ
    constructor
    · rw [pdescend_peInsert]
      apply two_le_peInsert (hspine ℓ hℓ)
      have hdcwf : CWF hs (0 + ℓ) (pdescend (hs.hash k) 0 ℓ S) :=
        pdescend_cwf ℓ 0 S hcwf
      exact hdcwf.distinct
    · have hget := @sibDigests_get hs (hs.hash k) m 0 S (m - 1 - ℓ) (by omega)
      have hidx : m - 1 - (m - 1 - ℓ) = ℓ := by omega
      rw [hidx] at hget
      simp only [Nat.zero_add] at hget
      rw [hget]
      have hpsx := psx_peInsert (hs.hash k) (hs.hash v) ℓ 0 S
      simp only [Nat.zero_add] at hpsx
      rw [hpsx]
  have hsafeFresh : (∀ w ∈ S, w.1 ≠ hs.hash k) →
      ∀ s2 ∈ canonSerials hs (depth hs) 0 (peInsert (hs.hash k) (hs.hash v) S),
      ∀ d ∈ (spineDigests hs (hs.hash k) m 0 S ++ [t.root]).drop 1,
        hs.hash s2 ≠ d := by
    intro hnop s2 hs2 d hd
    obtain ⟨j, hjm, rfl⟩ := horph d hd
    have hdcwf : CWF hs j (pdescend (hs.hash k) 0 j S) := by
      have := pdescend_cwf (p := hs.hash k) j 0 S hcwf
      rw [Nat.zero_add] at this
      exact this
    refine removal_safe_fresh hl hph hinj hcwf' hS'B (peInsert_mem_head _ _ _)
      hdcwf (by omega) (hspine j hjm) ?_ ?_ ?_ ?_ s2 hs2
    · intro s3 hs3
      apply hrep.serials
      have := canonSerials_pdescend_sub j 0 S hcwf (by omega)
        (fun k' hk' => hspine k' (by omega)) s3 (by simpa using hs3)
      simpa using this
    · intro w hw b hb
      exact ((mem_pdescend j 0 S w).mp hw).2 b (by omega) (by omega)
    · intro w hw
      exact hnop w ((mem_pdescend j 0 S w).mp hw).1
    · intro w hw
      exact mem_peInsert_of_ne ((mem_pdescend j 0 S w).mp hw).1
        (hnop w ((mem_pdescend j 0 S w).mp hw).1)
  rcases pe_shape (pdescend (hs.hash k) 0 m S) with hA | ⟨e0, hBe⟩ | ⟨a, b, r, hsh⟩
  · -- the spine ends in a vacant slot: fresh leaf insertion
    have hnop : ∀ w ∈ S, w.1 ≠ hs.hash k := by
      intro w hw hc
      have hwm : w ∈ pdescend (hs.hash k) 0 m S :=
        (mem_pdescend m 0 S w).mpr ⟨hw, fun j _ _ => by rw [hc]⟩
      rw [hA] at hwm
      exact absurd hwm (List.not_mem_nil w)
    have hterm' : pdescend (hs.hash k) 0 m (peInsert (hs.hash k) (hs.hash v) S) =
        [(hs.hash k, hs.hash v)] := by
      rw [pdescend_peInsert, hA]
      rfl
    have hP0 : canonD hs (depth hs - m) m (pdescend (hs.hash k) 0 m S) = placeholder hs := by
      rw [hA, canonD_nil]
    have hred : update_with_side_notes hs t (hs.hash k) v (sibDigests hs (hs.hash k) m 0 S)
        (spineDigests hs (hs.hash k) m 0 S ++ [t.root])
        (termData hs (pdescend (hs.hash k) 0 m S)) =
        update_finish hs (hs.hash k) v (sibDigests hs (hs.hash k) m 0 S)
          (spineDigests hs (hs.hash k) m 0 S ++ [t.root]) (depth hs)
          (digest_leaf hs (hs.hash k) (hs.hash v)).1
          (Store.set t.nodes (digest_leaf hs (hs.hash k) (hs.hash v)).1
            (digest_leaf hs (hs.hash k) (hs.hash v)).2)
          t.values t.root := by
      unfold update_with_side_notes
      simp only [hhead, if_pos hP0]
      rw [if_neg (show ¬ depth hs ≠ depth hs from fun h => h rfl)]
    have hlf2mem : (digest_leaf hs (hs.hash k) (hs.hash v)).2 ∈
        canonSerials hs (depth hs) 0 (peInsert (hs.hash k) (hs.hash v) S) := by
      have := canonS_pdescend_mem m 0 (peInsert (hs.hash k) (hs.hash v) S) hcwf' (by omega)
        (fun k' hk' => (hcombS k' hk').1)
        (by rw [hterm']; simp) (by omega)
      rw [Nat.zero_add, hterm', canonS_single] at this
      simpa using this
    have hlf2B : (digest_leaf hs (hs.hash k) (hs.hash v)).2 ∈ B := hS'B _ hlf2mem
    have hpresTA : Store.get (Store.set t.nodes (digest_leaf hs (hs.hash k) (hs.hash v)).1
        (digest_leaf hs (hs.hash k) (hs.hash v)).2)
        (hs.hash ((digest_leaf hs (hs.hash k) (hs.hash v)).2)) =
        some ((digest_leaf hs (hs.hash k) (hs.hash v)).2) := by
      rw [Store.get_set_eq]
      rw [if_pos (show (digest_leaf hs (hs.hash k) (hs.hash v)).1 =
        hs.hash (digest_leaf hs (hs.hash k) (hs.hash v)).2 from rfl)]
    have hpresSA : ∀ kk, kk < m →
        ∀ s2 ∈ canonSerials hs (depth hs - (kk+1)) (kk+1)
          (psx (hs.hash k) kk (pdescend (hs.hash k) 0 kk
            (peInsert (hs.hash k) (hs.hash v) S))),
        Store.get (Store.set t.nodes (digest_leaf hs (hs.hash k) (hs.hash v)).1
          (digest_leaf hs (hs.hash k) (hs.hash v)).2) (hs.hash s2) = some s2 := by
      intro kk hkk s2 hs2m
      have hpsx := psx_peInsert (hs.hash k) (hs.hash v) kk 0 S
      simp only [Nat.zero_add] at hpsx
      rw [hpsx] at hs2m
      have hmemS : s2 ∈ canonSerials hs (depth hs) 0 S := by
        have := sib_serials_sub kk 0 S hcwf (by omega : 0 + kk < depth hs) s2
          (by simpa using hs2m)
        simpa using this
      exact get_set_honest hinj (hrep.serials s2 hmemS) hlf2B t.nodes (hrep.present s2 hmemS)
    have hsafeA := hsafeFresh hnop
    have hhonA : ∀ kv ∈ Store.set t.nodes (digest_leaf hs (hs.hash k) (hs.hash v)).1
        (digest_leaf hs (hs.hash k) (hs.hash v)).2,
        ∃ s2 ∈ B, kv.1 = hs.hash s2 ∧ kv.2 = s2 := by
      intro kv hkv
      rcases Store.mem_set _ _ _ _ hkv with rfl | hmem
      · exact ⟨_, hlf2B, rfl, rfl⟩
      · exact hrep.honest kv hmem
    have hcurA : (digest_leaf hs (hs.hash k) (hs.hash v)).1 =
        canonD hs (depth hs - m) m (pdescend (hs.hash k) 0 m
          (peInsert (hs.hash k) (hs.hash v) S)) := by
      rw [hterm', canonD_single]
    obtain ⟨nodes2, hfin, hpres2, hhon2⟩ :=
      update_finish_canon hl hinj hpw hcwf' hS'B (sibDigests_length hs (hs.hash k) m 0 S)
        (Nat.le_refl m) hm (Nat.le_refl m) hm
        (fun _ => rfl) (fun h => absurd rfl h)
        hcombS (fun ℓ h1 h2 => absurd (h1.trans_lt h2) (lt_irrefl m))
        (fun ℓ hℓ => (hcombS ℓ hℓ).1) hterm'
        hcurA
        t.values t.root v
        hpresTA (fun ℓ h1 h2 => absurd (h1.trans_lt h2) (lt_irrefl m)) hpresSA hsafeA hhonA
    refine ⟨⟨nodes2, Store.set t.values (hs.hash k) v, t.root⟩, ?_, rfl, hpres2, hhon2⟩
    rw [hred]
    exact hfin
  · -- the spine ends at an existing leaf
    have he0pd : e0 ∈ pdescend (hs.hash k) 0 m S := by rw [hBe]; simp
    have he0S : e0 ∈ S := ((mem_pdescend m 0 S e0).mp he0pd).1
    have he0agree : ∀ j, j < m → pbit e0.1 j = pbit (hs.hash k) j := by
      intro j hj
      exact ((mem_pdescend m 0 S e0).mp he0pd).2 j (by omega) (by omega)
    have he0wf : PathWF hs e0.1 := hcwf.wf e0 he0S
    have he0len : e0.1.length = (hs.hash k).length := by rw [he0wf.1, hl k]
    have he0serB : (digest_leaf hs e0.1 e0.2).2 ∈ B := by
      apply hrep.serials
      exact mem_leaf_serial (depth hs) 0 S hcwf (by omega) e0 he0S
    have hP0 : canonD hs (depth hs - m) m (pdescend (hs.hash k) 0 m S) =
        (digest_leaf hs e0.1 e0.2).1 := by rw [hBe, canonD_single]
    have hP0ne : ¬ canonD hs (depth hs - m) m (pdescend (hs.hash k) 0 m S) =
        placeholder hs := by
      rw [hP0]
      show hs.hash (digest_leaf hs e0.1 e0.2).2 ≠ placeholder hs
      exact hph _ he0serB
    have htd : termData hs (pdescend (hs.hash k) 0 m S) =
        some ((digest_leaf hs e0.1 e0.2).2) := by rw [hBe]; rfl
    have hpl : parse_leaf hs ((digest_leaf hs e0.1 e0.2).2) = some (e0.1, e0.2) :=
      parse_leaf_shape2 hs e0.1 e0.2 he0wf.1
    obtain ⟨c, hcpc, hcle, hagree, hdiff⟩ := commonPrefixCount_spec he0len
    have hdep8 : 8 * (hs.hash k).length = depth hs := by
      rw [hl k]
      show 8 * hs.size = hs.size * 8
      omega
    have hcdep : c ≤ depth hs := by omega
    have hmc : m ≤ c := by
      by_contra hcon
      push_neg at hcon
      exact hdiff (by omega) (he0agree c (by omega)).symm
    have he0agree2 : ∀ j, j < c → pbit e0.1 j = pbit (hs.hash k) j :=
      fun j hj => (hagree j hj).symm
    rcases eq_or_ne c (depth hs) with hceq | hcne
    · -- the walk ended at a leaf with the same path
      have he0p : e0.1 = hs.hash k :=
        path_eq_of_pbit_eq he0wf hpw (fun j hj => he0agree2 j (by omega))
      by_cases hveq : hs.hash v = e0.2
      · -- identical value hash: short-circuit, nothing changes
        have he0eq : e0 = (hs.hash k, hs.hash v) := Prod.ext he0p hveq.symm
        have hperm : (peInsert (hs.hash k) (hs.hash v) S).Perm S :=
          peInsert_perm hcwf.distinct (he0eq ▸ he0S)
        have hredB : update_with_side_notes hs t (hs.hash k) v
            (sibDigests hs (hs.hash k) m 0 S)
            (spineDigests hs (hs.hash k) m 0 S ++ [t.root])
            (termData hs (pdescend (hs.hash k) 0 m S)) =
            some (t.root, ⟨Store.set t.nodes (digest_leaf hs (hs.hash k) (hs.hash v)).1
              (digest_leaf hs (hs.hash k) (hs.hash v)).2, t.values, t.root⟩) := by
          unfold update_with_side_notes
          simp only [hhead, if_neg hP0ne, htd, hpl, hcpc, hceq,
            if_neg (show ¬ depth hs ≠ depth hs from fun h => h rfl), if_pos hveq]
        have hrooteq : canonD hs (depth hs) 0 (peInsert (hs.hash k) (hs.hash v) S) =
            t.root := by
          rw [canonD_perm (depth hs) 0 _ _ hperm, hrep.root]
        have hlf2B : (digest_leaf hs (hs.hash k) (hs.hash v)).2 ∈ B := by
          have : (digest_leaf hs (hs.hash k) (hs.hash v)).2 =
              (digest_leaf hs e0.1 e0.2).2 := by rw [he0eq]
          rw [this]
          exact he0serB
        refine ⟨⟨Store.set t.nodes (digest_leaf hs (hs.hash k) (hs.hash v)).1
          (digest_leaf hs (hs.hash k) (hs.hash v)).2, t.values, t.root⟩, ?_, rfl, ?_, ?_⟩
        · rw [hredB, hrooteq]
        · intro s hsm
          have hsmS : s ∈ canonSerials hs (depth hs) 0 S :=
            (canonSerials_perm (depth hs) 0 _ _ hperm).mem_iff.mp hsm
          exact get_set_honest hinj (hrep.serials s hsmS) hlf2B t.nodes
            (hrep.present s hsmS)
        · intro kv hkv
          rcases Store.mem_set _ _ _ _ hkv with rfl | hmem
          · exact ⟨_, hlf2B, rfl, rfl⟩
          · exact hrep.honest kv hmem
      · -- same path, different value hash: replace the leaf
        have hP0ne' : ¬ (digest_leaf hs e0.1 e0.2).1 = placeholder hs := by
          rw [← hP0]
          exact hP0ne
        have hred2 : update_with_side_notes hs t (hs.hash k) v
            (sibDigests hs (hs.hash k) m 0 S)
            (spineDigests hs (hs.hash k) m 0 S ++ [t.root])
            (termData hs (pdescend (hs.hash k) 0 m S)) =
            update_finish hs (hs.hash k) v (sibDigests hs (hs.hash k) m 0 S)
              (spineDigests hs (hs.hash k) m 0 S ++ [t.root]) (depth hs)
              (digest_leaf hs (hs.hash k) (hs.hash v)).1
              (Store.remove (Store.set t.nodes (digest_leaf hs (hs.hash k) (hs.hash v)).1
                (digest_leaf hs (hs.hash k) (hs.hash v)).2) (digest_leaf hs e0.1 e0.2).1)
              (Store.remove t.values (hs.hash k)) t.root := by
          unfold update_with_side_notes
          simp only [hhead, if_neg hP0ne, htd, hpl, hcpc, hceq, hP0, if_neg hP0ne',
            if_neg (show ¬ depth hs ≠ depth hs from fun h => h rfl), if_neg hveq]
        have he0not : e0 ∉ peInsert (hs.hash k) (hs.hash v) S := by
          intro hc
          rcases List.mem_cons.mp hc with he | he
          · exact hveq (by rw [he])
          · have := List.of_mem_filter he
            simp only [decide_eq_true_eq] at this
            exact this he0p
        have hkill : ∀ j, j ≤ m → ∀ s2 ∈ canonSerials hs (depth hs) 0
            (peInsert (hs.hash k) (hs.hash v) S),
            hs.hash s2 ≠ canonD hs (depth hs - j) j (pdescend (hs.hash k) 0 j S) := by
          intro j hj s2 hs2
          have hdcwf : CWF hs j (pdescend (hs.hash k) 0 j S) := by
            have := pdescend_cwf (p := hs.hash k) j 0 S hcwf
            rw [Nat.zero_add] at this
            exact this
          have he0pdj : e0 ∈ pdescend (hs.hash k) 0 j S :=
            (mem_pdescend j 0 S e0).mpr ⟨he0S, fun j2 h1 h2 => he0agree j2 (by omega)⟩
          refine removal_safe_kill hl hph hinj hcwf' hS'B hdcwf (by omega)
            (List.ne_nil_of_mem he0pdj) ?_ e0 he0pdj he0not s2 hs2
          intro s3 hs3
          apply hrep.serials
          have := canonSerials_pdescend_sub j 0 S hcwf (by omega)
            (fun k' hk' => hspine k' (by omega)) s3 (by simpa using hs3)
          simpa using this
        have hsafe2 : ∀ s2 ∈ canonSerials hs (depth hs) 0
            (peInsert (hs.hash k) (hs.hash v) S),
            ∀ d ∈ (spineDigests hs (hs.hash k) m 0 S ++ [t.root]).drop 1,
              hs.hash s2 ≠ d := by
          intro s2 hs2 d hd
          obtain ⟨j, hjm, rfl⟩ := horph d hd
          exact hkill j (by omega) s2 hs2
        have hterm'2 : pdescend (hs.hash k) 0 m (peInsert (hs.hash k) (hs.hash v) S) =
            [(hs.hash k, hs.hash v)] := by
          rw [pdescend_peInsert, hBe]
          unfold peInsert
          simp [List.filter_cons, he0p]
        have hlf2mem : (digest_leaf hs (hs.hash k) (hs.hash v)).2 ∈
            canonSerials hs (depth hs) 0 (peInsert (hs.hash k) (hs.hash v) S) := by
          have := canonS_pdescend_mem m 0 (peInsert (hs.hash k) (hs.hash v) S) hcwf'
            (by omega) (fun k' hk' => (hcombS k' hk').1)
            (by rw [hterm'2]; simp) (by omega)
          rw [Nat.zero_add, hterm'2, canonS_single] at this
          simpa using this
        have hlf2B : (digest_leaf hs (hs.hash k) (hs.hash v)).2 ∈ B := hS'B _ hlf2mem
        have hpresT2 : Store.get (Store.remove (Store.set t.nodes
            (digest_leaf hs (hs.hash k) (hs.hash v)).1
            (digest_leaf hs (hs.hash k) (hs.hash v)).2) (digest_leaf hs e0.1 e0.2).1)
            (hs.hash ((digest_leaf hs (hs.hash k) (hs.hash v)).2)) =
            some ((digest_leaf hs (hs.hash k) (hs.hash v)).2) := by
          have hne0 : (digest_leaf hs e0.1 e0.2).1 ≠
              hs.hash ((digest_leaf hs (hs.hash k) (hs.hash v)).2) := by
            have := hkill m (Nat.le_refl m) _ hlf2mem
            rw [hP0] at this
            exact this.symm
          rw [Store.get_remove_ne _ _ _ hne0]
          rw [Store.get_set_eq, if_pos (show (digest_leaf hs (hs.hash k) (hs.hash v)).1 =
            hs.hash (digest_leaf hs (hs.hash k) (hs.hash v)).2 from rfl)]
        have hpresS2 : ∀ kk, kk < m →
            ∀ s2 ∈ canonSerials hs (depth hs - (kk+1)) (kk+1)
              (psx (hs.hash k) kk (pdescend (hs.hash k) 0 kk
                (peInsert (hs.hash k) (hs.hash v) S))),
            Store.get (Store.remove (Store.set t.nodes
              (digest_leaf hs (hs.hash k) (hs.hash v)).1
              (digest_leaf hs (hs.hash k) (hs.hash v)).2) (digest_leaf hs e0.1 e0.2).1)
              (hs.hash s2) = some s2 := by
          intro kk hkk s2 hs2m
          have hs2S' : s2 ∈ canonSerials hs (depth hs) 0
              (peInsert (hs.hash k) (hs.hash v) S) := by
            have := sib_serials_sub kk 0 (peInsert (hs.hash k) (hs.hash v) S) hcwf'
              (by omega : 0 + kk < depth hs) s2 (by simpa using hs2m)
            simpa using this
          have hpsx := psx_peInsert (hs.hash k) (hs.hash v) kk 0 S
          simp only [Nat.zero_add] at hpsx
          rw [hpsx] at hs2m
          have hmemS : s2 ∈ canonSerials hs (depth hs) 0 S := by
            have := sib_serials_sub kk 0 S hcwf (by omega : 0 + kk < depth hs) s2
              (by simpa using hs2m)
            simpa using this
          have hne0 : (digest_leaf hs e0.1 e0.2).1 ≠ hs.hash s2 := by
            have := hkill m (Nat.le_refl m) s2 hs2S'
            rw [hP0] at this
            exact this.symm
          rw [Store.get_remove_ne _ _ _ hne0]
          exact get_set_honest hinj (hrep.serials s2 hmemS) hlf2B t.nodes
            (hrep.present s2 hmemS)
        have hhonR : ∀ kv ∈ Store.remove (Store.set t.nodes
            (digest_leaf hs (hs.hash k) (hs.hash v)).1
            (digest_leaf hs (hs.hash k) (hs.hash v)).2) (digest_leaf hs e0.1 e0.2).1,
            ∃ s2 ∈ B, kv.1 = hs.hash s2 ∧ kv.2 = s2 := by
          intro kv hkv
          have hkv2 := Store.mem_of_mem_remove _ _ _ hkv
          rcases Store.mem_set _ _ _ _ hkv2 with rfl | hmem
          · exact ⟨_, hlf2B, rfl, rfl⟩
          · exact hrep.honest kv hmem
        have hcur2 : (digest_leaf hs (hs.hash k) (hs.hash v)).1 =
            canonD hs (depth hs - m) m (pdescend (hs.hash k) 0 m
              (peInsert (hs.hash k) (hs.hash v) S)) := by
          rw [hterm'2, canonD_single]
        obtain ⟨nodes2, hfin, hpres2, hhon2'⟩ :=
          update_finish_canon hl hinj hpw hcwf' hS'B
            (sibDigests_length hs (hs.hash k) m 0 S)
            (Nat.le_refl m) hm (Nat.le_refl m) hm
            (fun _ => rfl) (fun h => absurd rfl h)
            hcombS (fun ℓ h1 h2 => absurd (h1.trans_lt h2) (lt_irrefl m))
            (fun ℓ hℓ => (hcombS ℓ hℓ).1) hterm'2
            hcur2
            (Store.remove t.values (hs.hash k)) t.root v
            hpresT2 (fun ℓ h1 h2 => absurd (h1.trans_lt h2) (lt_irrefl m))
            hpresS2 hsafe2 hhonR
        refine ⟨⟨nodes2, Store.set (Store.remove t.values (hs.hash k)) (hs.hash k) v,
          t.root⟩, ?_, rfl, hpres2, hhon2'⟩
        rw [hred2]
        exact hfin
    · -- the walk ended at a leaf with a different path: build a splitter
      have hcltdep : c < depth hs := by omega
      have he0np : e0.1 ≠ hs.hash k := by
        intro hc
        exact hdiff (by omega) (by rw [hc])
      have hnop : ∀ w ∈ S, w.1 ≠ hs.hash k := by
        intro w hw hc
        have hwm : w ∈ pdescend (hs.hash k) 0 m S :=
          (mem_pdescend m 0 S w).mpr ⟨hw, fun j _ _ => by rw [hc]⟩
        rw [hBe] at hwm
        have hwe : w = e0 := by simpa using hwm
        rw [hwe] at hc
        exact he0np hc
      obtain ⟨bitv, hbitv⟩ := get_bit_isSome (hs.hash k) c (by omega)
      have hpbit : pbit (hs.hash k) c = bitv := by
        unfold pbit
        rw [hbitv]
        rfl
      have hP0ne' : ¬ (digest_leaf hs e0.1 e0.2).1 = placeholder hs := by
        rw [← hP0]
        exact hP0ne
      have hdiffc : pbit e0.1 c ≠ pbit (hs.hash k) c := fun hc => hdiff (by omega) hc.symm
      obtain ⟨hd, hhddef⟩ : ∃ x, (if bitv = RIGHT
          then digest_node hs (digest_leaf hs e0.1 e0.2).1
            (digest_leaf hs (hs.hash k) (hs.hash v)).1
          else digest_node hs (digest_leaf hs (hs.hash k) (hs.hash v)).1
            (digest_leaf hs e0.1 e0.2).1) = x := ⟨_, rfl⟩
      have hred3 : update_with_side_notes hs t (hs.hash k) v
          (sibDigests hs (hs.hash k) m 0 S)
          (spineDigests hs (hs.hash k) m 0 S ++ [t.root])
          (termData hs (pdescend (hs.hash k) 0 m S)) =
          update_finish hs (hs.hash k) v (sibDigests hs (hs.hash k) m 0 S)
            (spineDigests hs (hs.hash k) m 0 S ++ [t.root]) c hd.1
            (Store.set (Store.set t.nodes (digest_leaf hs (hs.hash k) (hs.hash v)).1
              (digest_leaf hs (hs.hash k) (hs.hash v)).2) hd.1 hd.2)
            t.values t.root := by
        unfold update_with_side_notes
        simp only [hhead, if_neg hP0ne, htd, hpl, hcpc, hP0, if_neg hP0ne',
          if_pos hcne, hbitv, hhddef]
      have hsafe3 := hsafeFresh hnop
      have hdmid : ∀ ℓ, m ≤ ℓ → ℓ ≤ c → pdescend (hs.hash k) 0 ℓ S = [e0] := by
        intro ℓ h1 h2
        have h1' := pdescend_add (hs.hash k) m (ℓ - m) 0 S
        rw [show m + (ℓ - m) = ℓ from by omega] at h1'
        rw [h1', hBe]
        apply pdescend_all
        intro e he j hj1 hj2
        have hee : e = e0 := by simpa using he
        rw [hee]
        exact he0agree2 j (by omega)
      have hpeq : peInsert (hs.hash k) (hs.hash v) [e0] = [(hs.hash k, hs.hash v), e0] := by
        unfold peInsert
        simp [List.filter_cons, he0np]
      have hdeC : pdescend (hs.hash k) 0 c (peInsert (hs.hash k) (hs.hash v) S) =
          [(hs.hash k, hs.hash v), e0] := by
        rw [pdescend_peInsert, hdmid c hmc (Nat.le_refl c), hpeq]
      have hwrap3 : ∀ ℓ, m ≤ ℓ → ℓ < c →
          2 ≤ (pdescend (hs.hash k) 0 ℓ (peInsert (hs.hash k) (hs.hash v) S)).length ∧
          psx (hs.hash k) ℓ (pdescend (hs.hash k) 0 ℓ
            (peInsert (hs.hash k) (hs.hash v) S)) = [] := by
        intro ℓ h1 h2
        have hde : pdescend (hs.hash k) 0 ℓ (peInsert (hs.hash k) (hs.hash v) S) =
            [(hs.hash k, hs.hash v), e0] := by
          rw [pdescend_peInsert, hdmid ℓ h1 (by omega), hpeq]
        rw [hde]
        refine ⟨by simp, ?_⟩
        rw [psx_cons_self]
        apply psx_nil_of_agree
        intro e he
        have hee : e = e0 := by simpa using he
        rw [hee]
        exact he0agree2 ℓ (by omega)
      have h2S'3 : ∀ ℓ, ℓ < c + 1 →
          2 ≤ (pdescend (hs.hash k) 0 ℓ (peInsert (hs.hash k) (hs.hash v) S)).length := by
        intro ℓ hℓ
        rcases Nat.lt_or_ge ℓ m with h | h
        · exact (hcombS ℓ h).1
        · rcases Nat.lt_or_ge ℓ c with h2 | h2
          · exact (hwrap3 ℓ h h2).1
          · have hlc : ℓ = c := by omega
            rw [hlc, hdeC]
            simp
      have hterm'3 : pdescend (hs.hash k) 0 (c+1) (peInsert (hs.hash k) (hs.hash v) S) =
          [(hs.hash k, hs.hash v)] := by
        rw [pdescend_snoc]
        simp only [Nat.zero_add]
        rw [hdeC, pdx_cons_self, pdx_pair hdiffc]
      have hfc : depth hs - c = (depth hs - c - 1) + 1 := by omega
      have hcanC : canonD hs (depth hs - c) c [(hs.hash k, hs.hash v), e0] = hd.1 := by
        rw [hfc]
        rw [canonD_node_arr (p := hs.hash k) (by simp)]
        rw [psx_cons_self, psx_pair hdiffc, pdx_cons_self, pdx_pair hdiffc]
        rw [canonD_single, canonD_single]
        rw [hpbit, ← hhddef]
      have hcanS : canonS hs (depth hs - c) c [(hs.hash k, hs.hash v), e0] = hd.2 := by
        rw [hfc]
        rw [canonS_node_arr2 (p := hs.hash k) (by simp)]
        rw [psx_cons_self, psx_pair hdiffc, pdx_cons_self, pdx_pair hdiffc]
        rw [canonD_single, canonD_single]
        rw [hpbit, ← hhddef]
        by_cases hb : bitv = RIGHT
        · rw [if_pos hb, if_pos hb]
          rfl
        · rw [if_neg hb, if_neg hb]
          rfl
      have hlf2mem3 : (digest_leaf hs (hs.hash k) (hs.hash v)).2 ∈
          canonSerials hs (depth hs) 0 (peInsert (hs.hash k) (hs.hash v) S) := by
        have := canonS_pdescend_mem (c+1) 0 (peInsert (hs.hash k) (hs.hash v) S) hcwf'
          (by omega) (fun k' hk' => h2S'3 k' hk')
          (by rw [hterm'3]; simp) (by omega)
        rw [Nat.zero_add, hterm'3, canonS_single] at this
        simpa using this
      have hlf2B : (digest_leaf hs (hs.hash k) (hs.hash v)).2 ∈ B := hS'B _ hlf2mem3
      have hhd2mem : hd.2 ∈ canonSerials hs (depth hs) 0
          (peInsert (hs.hash k) (hs.hash v) S) := by
        have := canonS_pdescend_mem c 0 (peInsert (hs.hash k) (hs.hash v) S) hcwf'
          (by omega) (fun k' hk' => h2S'3 k' (by omega))
          (by rw [hdeC]; simp) (by omega)
        rw [Nat.zero_add, hdeC, hcanS] at this
        simpa using this
      have hhd2B : hd.2 ∈ B := hS'B _ hhd2mem
      have hhd1 : hd.1 = hs.hash hd.2 := by
        rw [← hhddef]
        by_cases hb : bitv = RIGHT
        · rw [if_pos hb]
          rfl
        · rw [if_neg hb]
          rfl
      have hcur3 : hd.1 = canonD hs (depth hs - c) c (pdescend (hs.hash k) 0 c
          (peInsert (hs.hash k) (hs.hash v) S)) := by
        rw [hdeC, hcanC]
      have hpresT3 : Store.get (Store.set (Store.set t.nodes
          (digest_leaf hs (hs.hash k) (hs.hash v)).1
          (digest_leaf hs (hs.hash k) (hs.hash v)).2) hd.1 hd.2)
          (hs.hash ((digest_leaf hs (hs.hash k) (hs.hash v)).2)) =
          some ((digest_leaf hs (hs.hash k) (hs.hash v)).2) := by
        rw [hhd1]
        apply get_set_honest hinj hlf2B hhd2B
        rw [Store.get_set_eq, if_pos (show (digest_leaf hs (hs.hash k) (hs.hash v)).1 =
          hs.hash (digest_leaf hs (hs.hash k) (hs.hash v)).2 from rfl)]
      have hpresM3 : ∀ ℓ, c ≤ ℓ → ℓ < c + 1 →
          Store.get (Store.set (Store.set t.nodes
            (digest_leaf hs (hs.hash k) (hs.hash v)).1
            (digest_leaf hs (hs.hash k) (hs.hash v)).2) hd.1 hd.2)
            (hs.hash (canonS hs (depth hs - ℓ) ℓ (pdescend (hs.hash k) 0 ℓ
              (peInsert (hs.hash k) (hs.hash v) S)))) =
            some (canonS hs (depth hs - ℓ) ℓ (pdescend (hs.hash k) 0 ℓ
              (peInsert (hs.hash k) (hs.hash v) S))) := by
        intro ℓ h1 h2
        have hlc : ℓ = c := by omega
        subst hlc
        rw [hdeC, hcanS, hhd1]
        rw [Store.get_set_eq, if_pos rfl]
      have hpresS3 : ∀ kk, kk < c + 1 →
          ∀ s2 ∈ canonSerials hs (depth hs - (kk+1)) (kk+1)
            (psx (hs.hash k) kk (pdescend (hs.hash k) 0 kk
              (peInsert (hs.hash k) (hs.hash v) S))),
          Store.get (Store.set (Store.set t.nodes
            (digest_leaf hs (hs.hash k) (hs.hash v)).1
            (digest_leaf hs (hs.hash k) (hs.hash v)).2) hd.1 hd.2)
            (hs.hash s2) = some s2 := by
        intro kk hkk s2 hs2m
        rcases Nat.lt_or_ge kk m with hkm | hkm
        · have hpsx := psx_peInsert (hs.hash k) (hs.hash v) kk 0 S
          simp only [Nat.zero_add] at hpsx
          rw [hpsx] at hs2m
          have hmemS : s2 ∈ canonSerials hs (depth hs) 0 S := by
            have := sib_serials_sub kk 0 S hcwf (by omega : 0 + kk < depth hs) s2
              (by simpa using hs2m)
            simpa using this
          rw [hhd1]
          apply get_set_honest hinj (hrep.serials s2 hmemS) hhd2B
          exact get_set_honest hinj (hrep.serials s2 hmemS) hlf2B t.nodes
            (hrep.present s2 hmemS)
        · rcases Nat.lt_or_ge kk c with hkc | hkc
          · exfalso
            rw [(hwrap3 kk hkm hkc).2, canonSerials_nil] at hs2m
            exact absurd hs2m (List.not_mem_nil s2)
          · have hkc' : kk = c := by omega
            subst hkc'
            rw [hdeC, psx_cons_self, psx_pair hdiffc] at hs2m
            have hs2e0 : s2 = (digest_leaf hs e0.1 e0.2).2 := by
              rw [canonSerials_single] at hs2m
              simpa using hs2m
            subst hs2e0
            have hmemS : (digest_leaf hs e0.1 e0.2).2 ∈ canonSerials hs (depth hs) 0 S :=
              mem_leaf_serial (depth hs) 0 S hcwf (by omega) e0 he0S
            rw [hhd1]
            apply get_set_honest hinj he0serB hhd2B
            exact get_set_honest hinj he0serB hlf2B t.nodes (hrep.present _ hmemS)
      have hhonS : ∀ kv ∈ Store.set (Store.set t.nodes
          (digest_leaf hs (hs.hash k) (hs.hash v)).1
          (digest_leaf hs (hs.hash k) (hs.hash v)).2) hd.1 hd.2,
          ∃ s2 ∈ B, kv.1 = hs.hash s2 ∧ kv.2 = s2 := by
        intro kv hkv
        rcases Store.mem_set _ _ _ _ hkv with rfl | hmem
        · exact ⟨hd.2, hhd2B, hhd1, rfl⟩
        · rcases Store.mem_set _ _ _ _ hmem with rfl | hmem2
          · exact ⟨_, hlf2B, rfl, rfl⟩
          · exact hrep.honest kv hmem2
      obtain ⟨nodes2, hfin, hpres2, hhon2'⟩ :=
        update_finish_canon hl hinj hpw hcwf' hS'B
          (sibDigests_length hs (hs.hash k) m 0 S)
          hmc hcdep (Nat.le_succ c) (by omega)
          (fun hcd => absurd hcd hcne) (fun _ => rfl)
          hcombS hwrap3 h2S'3 hterm'3
          hcur3
          t.values t.root v
          hpresT3 hpresM3 hpresS3 hsafe3 hhonS
      refine ⟨⟨nodes2, Store.set t.values (hs.hash k) v, t.root⟩, ?_, rfl, hpres2, hhon2'⟩
      rw [hred3]
      exact hfin
  · exfalso
    rw [hsh] at hterm1
    simp at hterm1

end WsnCanon

section InsertTop

/-- The walk `side_nodes_for_root` on a store representing the canonical tree
of `S` returns the sibling and spine digests along `H(key)` down to the first
level with at most one entry. -/
theorem walk_canon {hs : Hasher} {B : List Bytes}
    (hl : HashLen hs) (hsz : 0 < hs.size) (hhb : HashBytes hs) (hph : PhFree hs B)
    {t : SMT} {S : PE} (hrep : RepInv hs B t S) (k : Bytes) :
    ∃ m, m ≤ depth hs ∧ (2 ≤ S.length → 1 ≤ m) ∧
      (∀ k', k' < m → 2 ≤ (pdescend (hs.hash k) 0 k' S).length) ∧
      (pdescend (hs.hash k) 0 m S).length ≤ 1 ∧
      side_nodes_for_root hs t.nodes (hs.hash k) t.root false =
        some ⟨sibDigests hs (hs.hash k) m 0 S,
          spineDigests hs (hs.hash k) m 0 S ++ [t.root], none,
          termData hs (pdescend (hs.hash k) 0 m S)⟩ := by
  have hpw : PathWF hs (hs.hash k) := ⟨hl k, hhb k⟩
  rcases pe_shape S with rfl | ⟨e, rfl⟩ | ⟨a, b, r, rfl⟩
  · have hroot : t.root = placeholder hs := by rw [hrep.root, canonD_nil]
    refine ⟨0, by omega, by intro h; simp at h, by omega,
      by show List.length ([] : PE) ≤ 1; simp, ?_⟩
    unfold side_nodes_for_root
    rw [if_pos hroot]
    rfl
  · have hser : (digest_leaf hs e.1 e.2).2 ∈ canonSerials hs (depth hs) 0 [e] := by
      rw [canonSerials_single]
      simp
    have hget : Store.get t.nodes (hs.hash ((digest_leaf hs e.1 e.2).2)) =
        some ((digest_leaf hs e.1 e.2).2) := hrep.present _ hser
    have hroot : t.root = (digest_leaf hs e.1 e.2).1 := by
      rw [hrep.root, canonD_single]
    have hrootne : ¬ t.root = placeholder hs := by
      rw [hroot]
      exact hph _ (hrep.serials _ hser)
    refine ⟨0, by omega, by intro h; simp at h, by omega,
      by show List.length [e] ≤ 1; simp, ?_⟩
    unfold side_nodes_for_root
    rw [if_neg hrootne]
    have hget2 : Store.get t.nodes t.root = some ((digest_leaf hs e.1 e.2).2) := by
      rw [hroot]
      exact hget
    have hil : is_leaf (some ((digest_leaf hs e.1 e.2).2)) = some true :=
      is_leaf_leaf_shape hs e.1 e.2
    simp only [hget2, hil]
    rfl
  · have h2 : 2 ≤ (a :: b :: r).length := by simp
    have hcwf := hrep.cwf
    have hdpos : 0 < depth hs := by
      show 0 < hs.size * 8
      omega
    have hne : (a :: b :: r) ≠ [] := by simp
    have hserB : canonS hs (depth hs) 0 (a :: b :: r) ∈ B :=
      hrep.serials _ (canonS_mem hcwf (by omega) hne)
    have hrooth : t.root = hs.hash (canonS hs (depth hs) 0 (a :: b :: r)) := by
      rw [hrep.root]
      exact canonD_eq_hash hcwf (by omega) hne
    have hrootne : ¬ t.root = placeholder hs := by
      rw [hrooth]
      exact hph _ hserB
    have hget2 : Store.get t.nodes t.root =
        some (canonS hs (depth hs) 0 (a :: b :: r)) := by
      rw [hrooth]
      exact hrep.present _ (canonS_mem hcwf (by omega) hne)
    have hil : is_leaf (some (canonS hs (depth hs) 0 (a :: b :: r))) = some false := by
      obtain ⟨f', hf'⟩ : ∃ f', depth hs = f' + 1 := ⟨depth hs - 1, by omega⟩
      rw [hf', canonS_node]
      exact is_leaf_node_shape hs _ _
    obtain ⟨m, hm0, hmf, hm2le, hm1le, hgo⟩ :=
      side_nodes_go_canon hl hph hpw (depth hs) 0 (a :: b :: r) t.nodes [] [t.root]
        hcwf (by omega) h2 hrep.serials hrep.present
    refine ⟨m, by omega, fun _ => hm0, hm2le, hm1le, ?_⟩
    unfold side_nodes_for_root
    rw [if_neg hrootne]
    simp only [hget2, hil]
    rw [hgo, List.append_nil]

/-- Inserting a non-default value updates the tree to the canonical tree of
the collection with the `(H(key), H(value))` entry replacing any entry at
path `H(key)`. -/
theorem update_insert_canon {hs : Hasher} {B : List Bytes}
    (hl : HashLen hs) (hsz : 0 < hs.size) (hhb : HashBytes hs)
    (hph : PhFree hs B) (hinj : InjOnB hs B)
    {t : SMT} {S : PE} (hrep : RepInv hs B t S)
    (k v : Bytes) (hv : v ≠ DEFAULT_VALUE)
    (hS'B : ∀ s ∈ canonSerials hs (depth hs) 0 (peInsert (hs.hash k) (hs.hash v) S),
      s ∈ B) :
    ∃ t2, update hs t k v = some t2 ∧
      RepInv hs B t2 (peInsert (hs.hash k) (hs.hash v) S) := by
  have hpw : PathWF hs (hs.hash k) := ⟨hl k, hhb k⟩
  obtain ⟨m, hm, _, hspine, hterm1, hwalk⟩ := walk_canon hl hsz hhb hph hrep k
  obtain ⟨t', hwsn, hroot', hpres', hhon'⟩ :=
    update_wsn_canon hl hhb hph hinj hrep k v hv hS'B hm hspine hterm1
  have hufr : update_for_root hs t k v t.root =
      some (canonD hs (depth hs) 0 (peInsert (hs.hash k) (hs.hash v) S), t') := by
    unfold update_for_root
    simp only [hwalk]
    rw [if_neg hv]
    exact hwsn
  refine ⟨{t' with root := canonD hs (depth hs) 0 (peInsert (hs.hash k) (hs.hash v) S)},
    ?_, ?_, rfl, hS'B, hpres', hhon'⟩
  · unfold update
    simp only [hufr]
  · exact peInsert_cwf hrep.cwf hpw

end InsertTop

section RemoveHelpers

theorem split_length (i : Nat) :
    ∀ T : PE, (splitL i T).length + (splitR i T).length = T.length := by
  intro T
  induction T with
  | nil => rfl
  | cons e r ih =>
    rcases pbit_cases e.1 i with hb | hb
    · have h1 : splitL i (e :: r) = e :: splitL i r := by
        unfold splitL
        rw [List.filter_cons, if_pos (by simp [hb, RIGHT])]
      have h2 : splitR i (e :: r) = splitR i r := by
        unfold splitR
        rw [List.filter_cons, if_neg (by simp [hb, RIGHT])]
      rw [h1, h2]
      simp only [List.length_cons]
      omega
    · have h1 : splitL i (e :: r) = splitL i r := by
        unfold splitL
        rw [List.filter_cons, if_neg (by simp [hb, RIGHT])]
      have h2 : splitR i (e :: r) = e :: splitR i r := by
        unfold splitR
        rw [List.filter_cons, if_pos (by simp [hb, RIGHT])]
      rw [h1, h2]
      simp only [List.length_cons]
      omega

theorem pdx_psx_length (p : Bytes) (i : Nat) (T : PE) :
    (pdx p i T).length + (psx p i T).length = T.length := by
  rcases pbit_cases p i with hb | hb
  · rw [pdx_left _ hb, psx_left _ hb]
    exact split_length i T
  · rw [pdx_right _ hb, psx_right _ hb]
    rw [Nat.add_comm]
    exact split_length i T

theorem pdx_length_le (p : Bytes) (i : Nat) (T : PE) :
    (pdx p i T).length ≤ T.length := by
  have := pdx_psx_length p i T
  omega

theorem pdescend_length_le (p : Bytes) :
    ∀ k2 k1 i (S : PE), k1 ≤ k2 →
      (pdescend p i k2 S).length ≤ (pdescend p i k1 S).length := by
  intro k2
  induction k2 with
  | zero =>
    intro k1 i S h
    have : k1 = 0 := by omega
    rw [this]
  | succ k2' ih =>
    intro k1 i S h
    rcases Nat.eq_or_lt_of_le h with rfl | hlt
    · exact Nat.le_refl _
    · calc (pdescend p i (k2'+1) S).length
          = (pdx p (i+k2') (pdescend p i k2' S)).length := by rw [pdescend_snoc]
        _ ≤ (pdescend p i k2' S).length := pdx_length_le _ _ _
        _ ≤ (pdescend p i k1 S).length := ih k1 i S (by omega)

theorem get_placeholder_none {hs : Hasher} {B : List Bytes} (hph : PhFree hs B)
    (n : Store) (hhon : ∀ kv ∈ n, ∃ s ∈ B, kv.1 = hs.hash s ∧ kv.2 = s) :
    Store.get n (placeholder hs) = none := by
  cases hget : Store.get n (placeholder hs) with
  | none => rfl
  | some d =>
    exfalso
    obtain ⟨s, hsB, h1, _⟩ := hhon _ (Store.get_mem n _ d hget)
    exact hph s hsB h1.symm

theorem singleton_of_length_one {T : PE} {e : Bytes × Bytes} (h1 : T.length = 1)
    (h2 : e ∈ T) : T = [e] := by
  obtain ⟨a, ha⟩ := List.length_eq_one.mp h1
  rw [ha] at h2 ⊢
  have : e = a := by simpa using h2
  rw [this]

theorem peRemove_length_ge (p : Bytes) (T : PE)
    (hdist : T.Pairwise (fun e1 e2 => e1.1 ≠ e2.1)) :
    T.length - 1 ≤ (peRemove p T).length :=
  filter_length_ge p T hdist

theorem peRemove_length_le (p : Bytes) (T : PE) :
    (peRemove p T).length ≤ T.length :=
  List.length_filter_le _ _

end RemoveHelpers

section RemoveGoCanon

/-- The bottom-up rebuild loop of `remove_with_side_nodes` over the sibling
digests of the old spine: from a floating leaf or an already built node it
produces the canonical root of the collection without the removed entry. -/
theorem remove_go_canon {hs : Hasher} {B : List Bytes}
    (hl : HashLen hs) (hsz : 0 < hs.size) (hph : PhFree hs B) (hinj : InjOnB hs B)
    {p : Bytes} (hpw : PathWF hs p) {S : PE} (hcwf : CWF hs 0 S)
    {m : Nat} (hm : m ≤ depth hs)
    (hcwf'' : CWF hs 0 (peRemove p S))
    (hS''B : ∀ s ∈ canonSerials hs (depth hs) 0 (peRemove p S), s ∈ B) :
    ∀ fuel j, j + fuel = m →
    ∀ (d : Bytes) (npr : Bool) (nodes : Store),
      ((npr = false ∧ ∃ e1, pdescend p 0 (m - j) (peRemove p S) = [e1] ∧
          d = (digest_leaf hs e1.1 e1.2).1) ∨
        (npr = true ∧ 2 ≤ (pdescend p 0 (m - j) (peRemove p S)).length ∧
          d = canonD hs (depth hs - (m - j)) (m - j) (pdescend p 0 (m - j) (peRemove p S)))) →
      ∃ nodes2,
        remove_go hs p m ((sibDigests hs p m 0 S).drop j) j (d, d, npr) nodes =
          some (canonD hs (depth hs) 0 (peRemove p S), nodes2) ∧
        (∀ kv ∈ nodes2, kv ∈ nodes ∨ ∃ s ∈ B, kv.1 = hs.hash s ∧ kv.2 = s) ∧
        (∀ s ∈ B, Store.get nodes (hs.hash s) = some s →
          Store.get nodes2 (hs.hash s) = some s) ∧
        (∀ ℓ, ℓ < m - j → 2 ≤ (pdescend p 0 ℓ (peRemove p S)).length →
          Store.get nodes2 (hs.hash (canonS hs (depth hs - ℓ) ℓ
            (pdescend p 0 ℓ (peRemove p S)))) =
            some (canonS hs (depth hs - ℓ) ℓ (pdescend p 0 ℓ (peRemove p S)))) := by
  intro fuel
  induction fuel with
  | zero =>
    intro j hjm d npr nodes hinv
    have hj : j = m := by omega
    subst hj
    have hdrop : (sibDigests hs p j 0 S).drop j = [] := by
      apply List.drop_eq_nil_of_le
      rw [sibDigests_length]
    rw [hdrop]
    have hz : j - j = 0 := by omega
    rw [hz] at hinv
    have hres : remove_go hs p j ([] : List Bytes) j (d, d, npr) nodes =
        some (d, nodes) := rfl
    rw [hres]
    have hdC : d = canonD hs (depth hs) 0 (peRemove p S) := by
      rcases hinv with ⟨_, e1, hT, hd1⟩ | ⟨_, _, hdC⟩
      · have hT0 : pdescend p 0 0 (peRemove p S) = peRemove p S := rfl
        rw [hT0] at hT
        rw [hd1, hT, canonD_single]
      · have hT0 : pdescend p 0 0 (peRemove p S) = peRemove p S := rfl
        have hz2 : depth hs - 0 = depth hs := by omega
        rw [hT0, hz2] at hdC
        exact hdC
    refine ⟨nodes, by rw [hdC], fun kv hkv => Or.inl hkv, fun s _ h => h, ?_⟩
    intro ℓ hℓ
    omega
  | succ f ih =>
    intro j hjm d npr nodes hinv
    have hjlt : j < m := by omega
    have hlv : m - j = (m - 1 - j) + 1 := by omega
    obtain ⟨LV, hLVdef⟩ : ∃ x, m - 1 - j = x := ⟨_, rfl⟩
    have hLVm : LV < m := by omega
    have hLVdep : LV < depth hs := by omega
    have hjlen : j < (sibDigests hs p m 0 S).length := by
      rw [sibDigests_length]
      omega
    have hdropj : (sibDigests hs p m 0 S).drop j =
        (sibDigests hs p m 0 S)[j] :: (sibDigests hs p m 0 S).drop (j+1) :=
      List.drop_eq_getElem_cons hjlen
    have hgetj := @sibDigests_get hs p m 0 S j (by omega)
    rw [List.get?_eq_getElem?, List.getElem?_eq_getElem hjlen] at hgetj
    have hjel : (sibDigests hs p m 0 S)[j] =
        canonD hs (depth hs - (LV + 1)) (LV + 1) (psx p LV (pdescend p 0 LV S)) := by
      have := Option.some.inj hgetj
      rw [this]
      simp only [Nat.zero_add, hLVdef]
    have hpsxR : psx p LV (pdescend p 0 LV (peRemove p S)) =
        psx p LV (pdescend p 0 LV S) := by
      have := psx_peRemove p LV 0 S
      simpa using this
    have hsnoc : pdescend p 0 (LV + 1) (peRemove p S) =
        pdx p LV (pdescend p 0 LV (peRemove p S)) := by
      have := pdescend_snoc p LV 0 (peRemove p S)
      simpa using this
    have hsplitlen : (pdescend p 0 (LV+1) (peRemove p S)).length +
        (psx p LV (pdescend p 0 LV S)).length =
        (pdescend p 0 LV (peRemove p S)).length := by
      rw [hsnoc, ← hpsxR]
      exact pdx_psx_length p LV _
    have hLVcwf'' : CWF hs LV (pdescend p 0 LV (peRemove p S)) := by
      have := pdescend_cwf (p := p) LV 0 (peRemove p S) hcwf''
      simpa using this
    have hLVcwf : CWF hs LV (pdescend p 0 LV S) := by
      have := pdescend_cwf (p := p) LV 0 S hcwf
      simpa using this
    have hmono : ∀ k', k' ≤ LV →
        (pdescend p 0 LV (peRemove p S)).length ≤
          (pdescend p 0 k' (peRemove p S)).length := by
      intro k' hk'
      exact pdescend_length_le p LV k' 0 (peRemove p S) hk'
    obtain ⟨bitv, hbitv⟩ := get_bit_isSome p (m - j - 1) (by
      rw [hpw.1]
      show m - j - 1 < 8 * hs.size
      have : depth hs = hs.size * 8 := rfl
      omega)
    have hpbit : pbit p LV = bitv := by
      unfold pbit
      rw [show LV = m - j - 1 from by omega, hbitv]
      rfl
    -- the sibling serials of the level feed the removed collection's family
    have hsibser : ∀ s3 ∈ canonSerials hs (depth hs - (LV+1)) (LV+1)
        (psx p LV (pdescend p 0 LV S)), s3 ∈ B := by
      intro s3 hs3
      apply hS''B
      have hs3' : s3 ∈ canonSerials hs (depth hs - (LV+1)) (LV+1)
          (psx p LV (pdescend p 0 LV (peRemove p S))) := by
        rw [hpsxR]
        exact hs3
      have := sib_serials_sub LV 0 (peRemove p S) hcwf''
        (by omega : 0 + LV < depth hs) s3 (by simpa using hs3')
      simpa using this
    rcases hinv with ⟨hnprF, e1, hT1, hd1⟩ | ⟨hnprT, h2T, hdC⟩
    · -- floating leaf phase
      subst hnprF
      rw [hlv, hLVdef] at hT1
      have hdnn : ¬ d = ([] : Bytes) := by
        intro hc
        have hlen : ((digest_leaf hs e1.1 e1.2).1).length = hs.size := hl _
        rw [← hd1, hc] at hlen
        simp at hlen
        omega
      have he1T : e1 ∈ pdescend p 0 (LV+1) (peRemove p S) := by
        rw [hT1]
        simp
      have he1LV : e1 ∈ pdescend p 0 LV (peRemove p S) := by
        have hmm := (mem_pdescend (LV+1) 0 (peRemove p S) e1).mp he1T
        exact (mem_pdescend LV 0 (peRemove p S) e1).mpr
          ⟨hmm.1, fun j2 h1 h2 => hmm.2 j2 (by omega) (by omega)⟩
      by_cases hP : psx p LV (pdescend p 0 LV S) = []
      · -- empty sibling: keep floating
        have hsibph : (sibDigests hs p m 0 S)[j] = placeholder hs := by
          rw [hjel, hP, canonD_nil]
        have hstep : remove_go hs p m ((sibDigests hs p m 0 S).drop j) j
            (d, d, false) nodes =
            remove_go hs p m ((sibDigests hs p m 0 S).drop (j+1)) (j+1)
              (d, d, false) nodes := by
          rw [hdropj]
          show remove_go hs p m ((sibDigests hs p m 0 S)[j] :: _) j (d, d, false) nodes = _
          conv_lhs => unfold remove_go
          rw [if_neg hdnn]
          show (if (false : Bool) then _ else
            if (false : Bool) = false ∧ (sibDigests hs p m 0 S)[j] = placeholder hs
            then remove_go hs p m ((sibDigests hs p m 0 S).drop (j+1)) (j+1)
              (d, d, false) nodes
            else _) = _
          rw [if_neg Bool.false_ne_true, if_pos ⟨rfl, hsibph⟩]
        rw [hstep]
        have hT1' : pdescend p 0 (m - (j+1)) (peRemove p S) = [e1] := by
          rw [show m - (j+1) = LV from by omega]
          apply singleton_of_length_one _ he1LV
          have h1 : (pdescend p 0 (LV+1) (peRemove p S)).length = 1 := by
            rw [hT1]
            rfl
          rw [hP] at hsplitlen
          simp at hsplitlen
          omega
        obtain ⟨nodes2, hres, hO2, hO3, hO4⟩ := ih (j+1) (by omega) d false nodes
          (Or.inl ⟨rfl, e1, hT1', hd1⟩)
        refine ⟨nodes2, hres, hO2, hO3, ?_⟩
        intro ℓ hℓ h2ℓ
        rcases Nat.lt_or_ge ℓ (m - (j+1)) with hc | hc
        · exact hO4 ℓ hc h2ℓ
        · exfalso
          have hℓLV : ℓ = LV := by omega
          rw [hℓLV] at h2ℓ
          have h1 : (pdescend p 0 (LV+1) (peRemove p S)).length = 1 := by
            rw [hT1]
            rfl
          rw [hP] at hsplitlen
          simp at hsplitlen
          omega
      · -- nonempty sibling: build the node, sibling beside the floated leaf
        have hsibne : ¬ (sibDigests hs p m 0 S)[j] = placeholder hs := by
          rw [hjel]
          exact canonD_ne_placeholder hph (psx_cwf hLVcwf) (by omega) hP hsibser
        obtain ⟨hd, hhddef⟩ : ∃ x, (if bitv = RIGHT
            then digest_node hs ((sibDigests hs p m 0 S)[j]) d
            else digest_node hs d ((sibDigests hs p m 0 S)[j])) = x := ⟨_, rfl⟩
        have hstep : remove_go hs p m ((sibDigests hs p m 0 S).drop j) j
            (d, d, false) nodes =
            remove_go hs p m ((sibDigests hs p m 0 S).drop (j+1)) (j+1)
              (hd.1, hd.1, true) (Store.set nodes hd.1 hd.2) := by
          rw [hdropj]
          conv_lhs => unfold remove_go
          rw [if_neg hdnn]
          show (if (false : Bool) then _ else
            if (false : Bool) = false ∧ (sibDigests hs p m 0 S)[j] = placeholder hs
            then _
            else match get_bit_at_from_msb p (m - j - 1) with
              | none => none
              | some bit =>
                remove_go hs p m ((sibDigests hs p m 0 S).drop (j+1)) (j+1)
                  ((if bit = RIGHT
                    then digest_node hs ((sibDigests hs p m 0 S)[j]) d
                    else digest_node hs d ((sibDigests hs p m 0 S)[j])).1,
                   (if bit = RIGHT
                    then digest_node hs ((sibDigests hs p m 0 S)[j]) d
                    else digest_node hs d ((sibDigests hs p m 0 S)[j])).1, true)
                  (Store.set nodes
                    (if bit = RIGHT
                      then digest_node hs ((sibDigests hs p m 0 S)[j]) d
                      else digest_node hs d ((sibDigests hs p m 0 S)[j])).1
                    (if bit = RIGHT
                      then digest_node hs ((sibDigests hs p m 0 S)[j]) d
                      else digest_node hs d ((sibDigests hs p m 0 S)[j])).2)) = _
          rw [if_neg Bool.false_ne_true, if_neg (fun hc => hsibne hc.2)]
          simp only [hbitv, hhddef]
        rw [hstep]
        have h2LV : 2 ≤ (pdescend p 0 LV (peRemove p S)).length := by
          have h1 : (pdescend p 0 (LV+1) (peRemove p S)).length = 1 := by
            rw [hT1]
            rfl
          have hPlen : 1 ≤ (psx p LV (pdescend p 0 LV S)).length := by
            rcases pe_shape (psx p LV (pdescend p 0 LV S)) with hq | ⟨e, hq⟩ | ⟨a, b, r, hq⟩
            · exact absurd hq hP
            · rw [hq]; simp
            · rw [hq]; simp
          omega
        have hfLV : depth hs - LV = (depth hs - LV - 1) + 1 := by omega
        have hdxC : canonD hs (depth hs - LV - 1) (LV+1)
            (pdx p LV (pdescend p 0 LV (peRemove p S))) = d := by
          rw [← hsnoc, hT1, canonD_single, hd1]
        have hsibC : canonD hs (depth hs - LV - 1) (LV+1)
            (psx p LV (pdescend p 0 LV (peRemove p S))) =
            (sibDigests hs p m 0 S)[j] := by
          rw [hpsxR, hjel]
          rw [show depth hs - (LV + 1) = depth hs - LV - 1 from by omega]
        have hhd1C : hd.1 = canonD hs (depth hs - LV) LV
            (pdescend p 0 LV (peRemove p S)) := by
          rw [hfLV, canonD_node_arr (p := p) h2LV, hpbit, hdxC, hsibC, ← hhddef]
        have hhd2C : hd.2 = canonS hs (depth hs - LV) LV
            (pdescend p 0 LV (peRemove p S)) := by
          rw [hfLV, canonS_node_arr2 (p := p) h2LV, hpbit, hdxC, hsibC, ← hhddef]
          by_cases hb : bitv = RIGHT
          · rw [if_pos hb, if_pos hb]
            rfl
          · rw [if_neg hb, if_neg hb]
            rfl
        have hhd1h : hd.1 = hs.hash hd.2 := by
          rw [← hhddef]
          by_cases hb : bitv = RIGHT
          · rw [if_pos hb]
            rfl
          · rw [if_neg hb]
            rfl
        have hhd2mem : hd.2 ∈ canonSerials hs (depth hs) 0 (peRemove p S) := by
          have := canonS_pdescend_mem (p := p) LV 0 (peRemove p S) hcwf'' (by omega)
            (fun k' hk' => by
              have := hmono k' (by omega)
              omega)
            (by
              intro hc
              rw [hc] at h2LV
              simp at h2LV)
            (by omega)
          rw [Nat.zero_add] at this
          rw [hhd2C]
          simpa using this
        have hhd2B : hd.2 ∈ B := hS''B _ hhd2mem
        obtain ⟨nodes2, hres, hO2, hO3, hO4⟩ := ih (j+1) (by omega) hd.1 true
          (Store.set nodes hd.1 hd.2)
          (Or.inr ⟨rfl, by rw [show m - (j+1) = LV from by omega]; exact h2LV,
            by rw [show m - (j+1) = LV from by omega]; exact hhd1C⟩)
        refine ⟨nodes2, hres, ?_, ?_, ?_⟩
        · intro kv hkv
          rcases hO2 kv hkv with hin | hnew
          · rcases Store.mem_set _ _ _ _ hin with rfl | hmem
            · exact Or.inr ⟨hd.2, hhd2B, hhd1h, rfl⟩
            · exact Or.inl hmem
          · exact Or.inr hnew
        · intro s hsB hget
          apply hO3 s hsB
          rw [hhd1h]
          exact get_set_honest hinj hsB hhd2B nodes hget
        · intro ℓ hℓ h2ℓ
          rcases Nat.lt_or_ge ℓ (m - (j+1)) with hc | hc
          · exact hO4 ℓ hc h2ℓ
          · have hℓLV : ℓ = LV := by omega
            subst hℓLV
            rw [← hhd2C]
            apply hO3 _ hhd2B
            rw [hhd1h, Store.get_set_eq, if_pos rfl]
    · -- already built: always merge with the sibling
      subst hnprT
      rw [hlv, hLVdef] at h2T hdC
      have hdnn : ¬ d = ([] : Bytes) := by
        intro hc
        have hlen : (canonD hs (depth hs - (LV+1)) (LV+1)
            (pdescend p 0 (LV+1) (peRemove p S))).length = hs.size := canonD_length hl _ _ _
        rw [← hdC, hc] at hlen
        simp at hlen
        omega
      obtain ⟨hd, hhddef⟩ : ∃ x, (if bitv = RIGHT
          then digest_node hs ((sibDigests hs p m 0 S)[j]) d
          else digest_node hs d ((sibDigests hs p m 0 S)[j])) = x := ⟨_, rfl⟩
      have hstep : remove_go hs p m ((sibDigests hs p m 0 S).drop j) j
          (d, d, true) nodes =
          remove_go hs p m ((sibDigests hs p m 0 S).drop (j+1)) (j+1)
            (hd.1, hd.1, true) (Store.set nodes hd.1 hd.2) := by
        rw [hdropj]
        conv_lhs => unfold remove_go
        rw [if_neg hdnn]
        show (if (false : Bool) then _ else
          if (true : Bool) = false ∧ (sibDigests hs p m 0 S)[j] = placeholder hs
          then _
          else match get_bit_at_from_msb p (m - j - 1) with
            | none => none
            | some bit =>
              remove_go hs p m ((sibDigests hs p m 0 S).drop (j+1)) (j+1)
                ((if bit = RIGHT
                  then digest_node hs ((sibDigests hs p m 0 S)[j]) d
                  else digest_node hs d ((sibDigests hs p m 0 S)[j])).1,
                 (if bit = RIGHT
                  then digest_node hs ((sibDigests hs p m 0 S)[j]) d
                  else digest_node hs d ((sibDigests hs p m 0 S)[j])).1, true)
                (Store.set nodes
                  (if bit = RIGHT
                    then digest_node hs ((sibDigests hs p m 0 S)[j]) d
                    else digest_node hs d ((sibDigests hs p m 0 S)[j])).1
                  (if bit = RIGHT
                    then digest_node hs ((sibDigests hs p m 0 S)[j]) d
                    else digest_node hs d ((sibDigests hs p m 0 S)[j])).2)) = _
        rw [if_neg Bool.false_ne_true, if_neg (by simp)]
        simp only [hbitv, hhddef]
      rw [hstep]
      have h2LV : 2 ≤ (pdescend p 0 LV (peRemove p S)).length := by omega
      have hfLV : depth hs - LV = (depth hs - LV - 1) + 1 := by omega
      have hdxC : canonD hs (depth hs - LV - 1) (LV+1)
          (pdx p LV (pdescend p 0 LV (peRemove p S))) = d := by
        rw [show depth hs - LV - 1 = depth hs - (LV + 1) from by omega, ← hsnoc]
        exact hdC.symm
      have hsibC : canonD hs (depth hs - LV - 1) (LV+1)
          (psx p LV (pdescend p 0 LV (peRemove p S))) =
          (sibDigests hs p m 0 S)[j] := by
        rw [hpsxR, hjel]
        rw [show depth hs - (LV + 1) = depth hs - LV - 1 from by omega]
      have hhd1C : hd.1 = canonD hs (depth hs - LV) LV
          (pdescend p 0 LV (peRemove p S)) := by
        rw [hfLV, canonD_node_arr (p := p) h2LV, hpbit, hdxC, hsibC, ← hhddef]
      have hhd2C : hd.2 = canonS hs (depth hs - LV) LV
          (pdescend p 0 LV (peRemove p S)) := by
        rw [hfLV, canonS_node_arr2 (p := p) h2LV, hpbit, hdxC, hsibC, ← hhddef]
        by_cases hb : bitv = RIGHT
        · rw [if_pos hb, if_pos hb]
          rfl
        · rw [if_neg hb, if_neg hb]
          rfl
      have hhd1h : hd.1 = hs.hash hd.2 := by
        rw [← hhddef]
        by_cases hb : bitv = RIGHT
        · rw [if_pos hb]
          rfl
        · rw [if_neg hb]
          rfl
      have hhd2mem : hd.2 ∈ canonSerials hs (depth hs) 0 (peRemove p S) := by
        have := canonS_pdescend_mem (p := p) LV 0 (peRemove p S) hcwf'' (by omega)
          (fun k' hk' => by
            have := pdescend_length_le p LV k' 0 (peRemove p S) (by omega)
            omega)
          (by
            intro hc
            rw [hc] at h2LV
            simp at h2LV)
          (by omega)
        rw [Nat.zero_add] at this
        rw [hhd2C]
        simpa using this
      have hhd2B : hd.2 ∈ B := hS''B _ hhd2mem
      obtain ⟨nodes2, hres, hO2, hO3, hO4⟩ := ih (j+1) (by omega) hd.1 true
        (Store.set nodes hd.1 hd.2)
        (Or.inr ⟨rfl, by rw [show m - (j+1) = LV from by omega]; exact h2LV,
          by rw [show m - (j+1) = LV from by omega]; exact hhd1C⟩)
      refine ⟨nodes2, hres, ?_, ?_, ?_⟩
      · intro kv hkv
        rcases hO2 kv hkv with hin | hnew
        · rcases Store.mem_set _ _ _ _ hin with rfl | hmem
          · exact Or.inr ⟨hd.2, hhd2B, hhd1h, rfl⟩
          · exact Or.inl hmem
        · exact Or.inr hnew
      · intro s hsB hget
        apply hO3 s hsB
        rw [hhd1h]
        exact get_set_honest hinj hsB hhd2B nodes hget
      · intro ℓ hℓ h2ℓ
        rcases Nat.lt_or_ge ℓ (m - (j+1)) with hc | hc
        · exact hO4 ℓ hc h2ℓ
        · have hℓLV : ℓ = LV := by omega
          subst hℓLV
          rw [← hhd2C]
          apply hO3 _ hhd2B
          rw [hhd1h, Store.get_set_eq, if_pos rfl]

end RemoveGoCanon

section RemoveAssemble

/-- Assemble presence of every canonical serial of the shrunk collection from
the spine nodes (two-or-more levels), resting leaves on the spine, and
sibling subtrees. -/
theorem presence_assemble_remove {hs : Hasher} {p : Bytes} {S2 : PE}
    (hcwf2 : CWF hs 0 S2) (nodes2 : Store)
    (Hspine2 : ∀ kk, kk ≤ depth hs → 2 ≤ (pdescend p 0 kk S2).length →
      Store.get nodes2 (hs.hash (canonS hs (depth hs - kk) kk (pdescend p 0 kk S2))) =
        some (canonS hs (depth hs - kk) kk (pdescend p 0 kk S2)))
    (Hspine1 : ∀ kk e, kk ≤ depth hs → pdescend p 0 kk S2 = [e] →
      Store.get nodes2 (hs.hash ((digest_leaf hs e.1 e.2).2)) =
        some ((digest_leaf hs e.1 e.2).2))
    (Hsib : ∀ kk, kk < depth hs →
      ∀ s ∈ canonSerials hs (depth hs - (kk+1)) (kk+1) (psx p kk (pdescend p 0 kk S2)),
        Store.get nodes2 (hs.hash s) = some s) :
    ∀ s ∈ canonSerials hs (depth hs) 0 S2, Store.get nodes2 (hs.hash s) = some s := by
  intro s hsm
  rcases canonSerials_spine_decomp (depth hs) 0 S2 hcwf2 (by omega) s hsm with
    ⟨kk, hkdep, hklen, hkne, hse⟩ | ⟨kk, hkdep, hklen, hsm2⟩
  · simp only [Nat.zero_add] at hkdep hklen hkne hse
    rcases pe_shape (pdescend p 0 kk S2) with hq | ⟨e, hq⟩ | ⟨a, b, r, hq⟩
    · exact absurd hq hkne
    · rw [hse, hq, canonS_single]
      exact Hspine1 kk e hkdep hq
    · rw [hse]
      exact Hspine2 kk hkdep (by rw [hq]; simp)
  · simp only [Nat.zero_add] at hkdep hklen hsm2
    exact Hsib kk hkdep s hsm2

end RemoveAssemble

section RemoveTop

/-- Removing a key updates the tree to the canonical tree of the collection
without the entry at path `H(key)`; an absent key leaves the tree unchanged. -/
theorem update_remove_canon {hs : Hasher} {B : List Bytes}
    (hl : HashLen hs) (hsz : 0 < hs.size) (hhb : HashBytes hs)
    (hph : PhFree hs B) (hinj : InjOnB hs B)
    {t : SMT} {S : PE} (hrep : RepInv hs B t S) (k : Bytes)
    (hS2B : ∀ s ∈ canonSerials hs (depth hs) 0 (peRemove (hs.hash k) S), s ∈ B) :
    ∃ t2, remove hs t k = some t2 ∧ RepInv hs B t2 (peRemove (hs.hash k) S) := by
  have hpw : PathWF hs (hs.hash k) := ⟨hl k, hhb k⟩
  obtain ⟨m, hm, hm1, hspine, hterm1, hwalk⟩ := walk_canon hl hsz hhb hph hrep k
  have hcwf := hrep.cwf
  have hcwf2 : CWF hs 0 (peRemove (hs.hash k) S) := peRemove_cwf hcwf
  have hhead : (spineDigests hs (hs.hash k) m 0 S ++ [t.root]).head? =
      some (canonD hs (depth hs - m) m (pdescend (hs.hash k) 0 m S)) :=
    pns_head_canon hrep.root
  have hnochange :
      remove_with_side_nodes hs t (hs.hash k) (sibDigests hs (hs.hash k) m 0 S)
        (spineDigests hs (hs.hash k) m 0 S ++ [t.root])
        (termData hs (pdescend (hs.hash k) 0 m S)) = some (none, t) →
      (∀ w ∈ S, w.1 ≠ hs.hash k) →
      ∃ t2, remove hs t k = some t2 ∧ RepInv hs B t2 (peRemove (hs.hash k) S) := by
    intro hrws hnop
    have hSeq : peRemove (hs.hash k) S = S := by
      unfold peRemove
      exact filter_ne_of_no_p hnop
    have hufr : update_for_root hs t k DEFAULT_VALUE t.root = some (t.root, t) := by
      unfold update_for_root
      simp only [hwalk]
      simp only [hrws]
      simp
    have hupd : remove hs t k = some { t with root := t.root } := by
      unfold remove update
      simp only [hufr]
    refine ⟨{ t with root := t.root }, hupd, ?_, ?_, ?_, ?_, ?_⟩
    · rw [hSeq]
      exact hrep.cwf
    · show t.root = _
      rw [hSeq]
      exact hrep.root
    · rw [hSeq]
      exact fun s hs2 => hrep.serials s hs2
    · rw [hSeq]
      exact fun s hs2 => hrep.present s hs2
    · exact fun kv hkv => hrep.honest kv hkv
  rcases pe_shape (pdescend (hs.hash k) 0 m S) with hA | ⟨e0, hBe⟩ | ⟨a, b, r, hsh⟩
  · -- vacant slot: the key is absent
    have hnop : ∀ w ∈ S, w.1 ≠ hs.hash k := by
      intro w hw hc
      have hwm : w ∈ pdescend (hs.hash k) 0 m S :=
        (mem_pdescend m 0 S w).mpr ⟨hw, fun j _ _ => by rw [hc]⟩
      rw [hA] at hwm
      exact absurd hwm (List.not_mem_nil w)
    apply hnochange _ hnop
    unfold remove_with_side_nodes
    simp only [hhead]
    rw [if_pos (by rw [hA, canonD_nil])]
  · -- the walk ends at a leaf
    have he0pd : e0 ∈ pdescend (hs.hash k) 0 m S := by rw [hBe]; simp
    have he0S : e0 ∈ S := ((mem_pdescend m 0 S e0).mp he0pd).1
    have he0wf : PathWF hs e0.1 := hcwf.wf e0 he0S
    have he0serB : (digest_leaf hs e0.1 e0.2).2 ∈ B := by
      apply hrep.serials
      exact mem_leaf_serial (depth hs) 0 S hcwf (by omega) e0 he0S
    have hP0 : canonD hs (depth hs - m) m (pdescend (hs.hash k) 0 m S) =
        (digest_leaf hs e0.1 e0.2).1 := by rw [hBe, canonD_single]
    have hP0ne : ¬ canonD hs (depth hs - m) m (pdescend (hs.hash k) 0 m S) =
        placeholder hs := by
      rw [hP0]
      show hs.hash (digest_leaf hs e0.1 e0.2).2 ≠ placeholder hs
      exact hph _ he0serB
    have htd : termData hs (pdescend (hs.hash k) 0 m S) =
        some ((digest_leaf hs e0.1 e0.2).2) := by rw [hBe]; rfl
    have hpl : parse_leaf hs ((digest_leaf hs e0.1 e0.2).2) = some (e0.1, e0.2) :=
      parse_leaf_shape2 hs e0.1 e0.2 he0wf.1
    by_cases he0p : e0.1 = hs.hash k
    · -- found: delete the leaf
      have he0not : e0 ∉ peRemove (hs.hash k) S := by
        intro hc
        have := List.of_mem_filter hc
        simp only [decide_eq_true_eq] at this
        exact this he0p
      have hkill : ∀ j, j ≤ m →
          ∀ s2 ∈ canonSerials hs (depth hs) 0 (peRemove (hs.hash k) S),
          hs.hash s2 ≠ canonD hs (depth hs - j) j (pdescend (hs.hash k) 0 j S) := by
        intro j hj s2 hs2
        have hdcwf : CWF hs j (pdescend (hs.hash k) 0 j S) := by
          have := pdescend_cwf (p := hs.hash k) j 0 S hcwf
          rw [Nat.zero_add] at this
          exact this
        have he0pdj : e0 ∈ pdescend (hs.hash k) 0 j S :=
          (mem_pdescend j 0 S e0).mpr ⟨he0S, fun j2 _ _ => by rw [he0p]⟩
        refine removal_safe_kill hl hph hinj hcwf2 hS2B hdcwf (by omega)
          (List.ne_nil_of_mem he0pdj) ?_ e0 he0pdj he0not s2 hs2
        intro s3 hs3
        apply hrep.serials
        have := canonSerials_pdescend_sub j 0 S hcwf (by omega)
          (fun k' hk' => hspine k' (by omega)) s3 (by simpa using hs3)
        simpa using this
      have horphF : ∀ d ∈ (spineDigests hs (hs.hash k) m 0 S ++ [t.root]),
          ∃ j, j ≤ m ∧ d = canonD hs (depth hs - j) j (pdescend (hs.hash k) 0 j S) := by
        intro d hd
        rcases List.mem_append.mp hd with hd1 | hd2
        · obtain ⟨j, hj1, hj2, hj3⟩ := mem_spineDigests m 0 S d hd1
          exact ⟨j, by omega, by simpa using hj3⟩
        · have hdr : d = t.root := by simpa using hd2
          refine ⟨0, by omega, ?_⟩
          rw [hdr, hrep.root]
          rfl
      have hsurv : ∀ s2 ∈ canonSerials hs (depth hs) 0 (peRemove (hs.hash k) S),
          Store.get t.nodes (hs.hash s2) = some s2 →
          Store.get ((spineDigests hs (hs.hash k) m 0 S ++ [t.root]).foldl
            Store.remove t.nodes) (hs.hash s2) = some s2 := by
        intro s2 hs2 hget
        rw [Store.get_foldl_remove_ne _ _ _ (fun d hd => by
          obtain ⟨j, hj, rfl⟩ := horphF d hd
          exact (hkill j hj s2 hs2).symm)]
        exact hget
      have hpne' : ¬ hs.hash k ≠ e0.1 := fun hc => hc he0p.symm
      rcases Nat.eq_zero_or_pos m with rfl | hmpos
      · -- the tree held exactly this leaf: it becomes empty
        have hS1 : S = [e0] := hBe
        have hS2eq : peRemove (hs.hash k) S = [] := by
          rw [hS1]
          unfold peRemove
          simp [List.filter_cons, he0p]
        obtain ⟨nodes1, hn1⟩ : ∃ x,
            (spineDigests hs (hs.hash k) 0 0 S ++ [t.root]).foldl Store.remove t.nodes
              = x := ⟨_, rfl⟩
        have hrws : remove_with_side_nodes hs t (hs.hash k)
            (sibDigests hs (hs.hash k) 0 0 S)
            (spineDigests hs (hs.hash k) 0 0 S ++ [t.root])
            (termData hs (pdescend (hs.hash k) 0 0 S)) =
            some (some (placeholder hs), { t with nodes := nodes1 }) := by
          unfold remove_with_side_nodes
          simp only [hhead, if_neg hP0ne, htd, hpl, if_neg hpne', hn1]
          have hsib0 : sibDigests hs (hs.hash k) 0 0 S = [] := rfl
          rw [hsib0]
          have hrg : remove_go hs (hs.hash k) (List.length ([] : List Bytes))
              ([] : List Bytes) 0 (([] : Bytes), ([] : Bytes), false) nodes1 =
              some (([] : Bytes), nodes1) := rfl
          simp only [hrg]
          simp
        have hufr : update_for_root hs t k DEFAULT_VALUE t.root =
            some (placeholder hs, ⟨nodes1, Store.remove t.values (hs.hash k), t.root⟩) := by
          unfold update_for_root
          simp only [hwalk]
          simp only [hrws]
          simp
        have hupd : remove hs t k =
            some ⟨nodes1, Store.remove t.values (hs.hash k), placeholder hs⟩ := by
          unfold remove update
          simp only [hufr]
        refine ⟨_, hupd, ?_, ?_, ?_, ?_, ?_⟩
        · exact hcwf2
        · show placeholder hs = _
          rw [hS2eq, canonD_nil]
        · exact hS2B
        · intro s hsm
          rw [hS2eq, canonSerials_nil] at hsm
          exact absurd hsm (List.not_mem_nil s)
        · intro kv hkv
          apply hrep.honest
          apply Store.mem_foldl_remove _ t.nodes
          rw [hn1]
          exact hkv
      · -- a deeper tree: float or rebuild bottom-up
        have hT2 : pdescend (hs.hash k) 0 m (peRemove (hs.hash k) S) = [] := by
          rw [pdescend_peRemove, hBe]
          unfold peRemove
          simp [List.filter_cons, he0p]
        have h2M1 : 2 ≤ (pdescend (hs.hash k) 0 (m-1) S).length := hspine (m-1) (by omega)
        have hsnocS : pdescend (hs.hash k) 0 m S =
            pdx (hs.hash k) (m-1) (pdescend (hs.hash k) 0 (m-1) S) := by
          have h := pdescend_snoc (hs.hash k) (m-1) 0 S
          rw [show m - 1 + 1 = m from by omega] at h
          simpa using h
        have hsnocS2 : pdescend (hs.hash k) 0 m (peRemove (hs.hash k) S) =
            pdx (hs.hash k) (m-1)
              (pdescend (hs.hash k) 0 (m-1) (peRemove (hs.hash k) S)) := by
          have h := pdescend_snoc (hs.hash k) (m-1) 0 (peRemove (hs.hash k) S)
          rw [show m - 1 + 1 = m from by omega] at h
          simpa using h
        have hpsxR : psx (hs.hash k) (m-1)
            (pdescend (hs.hash k) 0 (m-1) (peRemove (hs.hash k) S)) =
            psx (hs.hash k) (m-1) (pdescend (hs.hash k) 0 (m-1) S) := by
          have h := psx_peRemove (hs.hash k) (m-1) 0 S
          simpa using h
        have hlenM1 : (pdescend (hs.hash k) 0 (m-1) (peRemove (hs.hash k) S)).length =
            (psx (hs.hash k) (m-1) (pdescend (hs.hash k) 0 (m-1) S)).length := by
          have h1 := pdx_psx_length (hs.hash k) (m-1)
            (pdescend (hs.hash k) 0 (m-1) (peRemove (hs.hash k) S))
          rw [← hsnocS2, hT2, hpsxR] at h1
          simpa using h1.symm
        have hpsxlen : 1 ≤ (psx (hs.hash k) (m-1)
            (pdescend (hs.hash k) 0 (m-1) S)).length := by
          have h1 := pdx_psx_length (hs.hash k) (m-1) (pdescend (hs.hash k) 0 (m-1) S)
          rw [← hsnocS, hBe] at h1
          simp at h1
          omega
        have h0len : 0 < (sibDigests hs (hs.hash k) m 0 S).length := by
          rw [sibDigests_length]
          omega
        have hcons : sibDigests hs (hs.hash k) m 0 S =
            (sibDigests hs (hs.hash k) m 0 S)[0] ::
              (sibDigests hs (hs.hash k) m 0 S).drop 1 := by
          have h := List.drop_eq_getElem_cons h0len
          rw [List.drop_zero] at h
          exact h
        have hel0 := @sibDigests_get hs (hs.hash k) m 0 S 0 (by omega)
        rw [List.get?_eq_getElem?, List.getElem?_eq_getElem h0len] at hel0
        have hjel : (sibDigests hs (hs.hash k) m 0 S)[0] =
            canonD hs (depth hs - m) m
              (psx (hs.hash k) (m-1) (pdescend (hs.hash k) 0 (m-1) S)) := by
          have h2 := Option.some.inj hel0
          rw [h2]
          simp only [Nat.zero_add, Nat.sub_zero]
          rw [show m - 1 + 1 = m from by omega]
        obtain ⟨nodes1, hn1⟩ : ∃ x,
            (spineDigests hs (hs.hash k) m 0 S ++ [t.root]).foldl Store.remove t.nodes
              = x := ⟨_, rfl⟩
        have hcanne : ¬ canonD hs (depth hs) 0 (peRemove (hs.hash k) S) = ([] : Bytes) := by
          intro hc
          have h := canonD_length hl (depth hs) 0 (peRemove (hs.hash k) S)
          rw [hc] at h
          simp at h
          omega
        rcases pe_shape (psx (hs.hash k) (m-1) (pdescend (hs.hash k) 0 (m-1) S)) with
          hq | ⟨e1, hq⟩ | ⟨a1, b1, r1, hq⟩
        · exfalso
          rw [hq] at hpsxlen
          simp at hpsxlen
        · -- the only sibling is a leaf: it floats up
          have he1psx : e1 ∈ psx (hs.hash k) (m-1) (pdescend (hs.hash k) 0 (m-1) S) := by
            rw [hq]
            simp
          have he1pd : e1 ∈ pdescend (hs.hash k) 0 (m-1) S := (mem_psx.mp he1psx).1
          have he1np : e1.1 ≠ hs.hash k := psx_no_p e1 he1psx
          have he1S : e1 ∈ S := ((mem_pdescend (m-1) 0 S e1).mp he1pd).1
          have he1S2 : e1 ∈ peRemove (hs.hash k) S :=
            List.mem_filter.mpr ⟨he1S, by simpa using he1np⟩
          have he1serS : (digest_leaf hs e1.1 e1.2).2 ∈ canonSerials hs (depth hs) 0 S :=
            mem_leaf_serial (depth hs) 0 S hcwf (by omega) e1 he1S
          have he1serS2 : (digest_leaf hs e1.1 e1.2).2 ∈
              canonSerials hs (depth hs) 0 (peRemove (hs.hash k) S) :=
            mem_leaf_serial (depth hs) 0 _ hcwf2 (by omega) e1 he1S2
          have hget1 : Store.get nodes1 (hs.hash ((digest_leaf hs e1.1 e1.2).2)) =
              some ((digest_leaf hs e1.1 e1.2).2) := by
            rw [← hn1]
            exact hsurv _ he1serS2 (hrep.present _ he1serS)
          have hgetsib : Store.get nodes1 ((sibDigests hs (hs.hash k) m 0 S)[0]) =
              some ((digest_leaf hs e1.1 e1.2).2) := by
            rw [hjel, hq, canonD_single]
            exact hget1
          have hT1 : pdescend (hs.hash k) 0 (m-1) (peRemove (hs.hash k) S) = [e1] := by
            apply singleton_of_length_one
            · rw [hlenM1, hq]
              rfl
            · exact (mem_pdescend (m-1) 0 _ e1).mpr
                ⟨he1S2, fun j2 h1 h2 =>
                  ((mem_pdescend (m-1) 0 S e1).mp he1pd).2 j2 (by omega) (by omega)⟩
          have hstep : remove_go hs (hs.hash k) m (sibDigests hs (hs.hash k) m 0 S) 0
              (([] : Bytes), ([] : Bytes), false) nodes1 =
              remove_go hs (hs.hash k) m ((sibDigests hs (hs.hash k) m 0 S).drop 1) 1
                ((sibDigests hs (hs.hash k) m 0 S)[0],
                 (sibDigests hs (hs.hash k) m 0 S)[0], false) nodes1 := by
            conv_lhs => rw [hcons]
            conv_lhs => unfold remove_go
            rw [if_pos (rfl : ([] : Bytes) = [])]
            have hil1 : is_leaf (Store.get nodes1
                ((sibDigests hs (hs.hash k) m 0 S)[0])) = some true := by
              rw [hgetsib]
              exact is_leaf_leaf_shape hs e1.1 e1.2
            simp only [hil1]
            rfl
          obtain ⟨nodes2, hres, hO2, hO3, hO4⟩ :=
            remove_go_canon hl hsz hph hinj hpw hcwf hm hcwf2 hS2B (m-1) 1 (by omega)
              ((sibDigests hs (hs.hash k) m 0 S)[0]) false nodes1
              (Or.inl ⟨rfl, e1, hT1, by rw [hjel, hq, canonD_single]⟩)
          have hrws : remove_with_side_nodes hs t (hs.hash k)
              (sibDigests hs (hs.hash k) m 0 S)
              (spineDigests hs (hs.hash k) m 0 S ++ [t.root])
              (termData hs (pdescend (hs.hash k) 0 m S)) =
              some (some (canonD hs (depth hs) 0 (peRemove (hs.hash k) S)),
                { t with nodes := nodes2 }) := by
            unfold remove_with_side_nodes
            simp only [hhead, if_neg hP0ne, htd, hpl, if_neg hpne', hn1, sibDigests_length]
            simp only [hstep, hres]
            rw [if_neg hcanne]
          have hufr : update_for_root hs t k DEFAULT_VALUE t.root =
              some (canonD hs (depth hs) 0 (peRemove (hs.hash k) S),
                ⟨nodes2, Store.remove t.values (hs.hash k), t.root⟩) := by
            unfold update_for_root
            simp only [hwalk]
            simp only [hrws]
            simp
          have hupd : remove hs t k = some ⟨nodes2,
              Store.remove t.values (hs.hash k),
              canonD hs (depth hs) 0 (peRemove (hs.hash k) S)⟩ := by
            unfold remove update
            simp only [hufr]
          refine ⟨_, hupd, hcwf2, rfl, hS2B, ?_, ?_⟩
          · apply presence_assemble_remove hcwf2 nodes2
            · intro kk hkdep h2kk
              rcases Nat.lt_or_ge kk (m-1) with hc | hc
              · exact hO4 kk hc h2kk
              · exfalso
                rcases Nat.eq_or_lt_of_le hc with hc2 | hc2
                · rw [← hc2, hT1] at h2kk
                  simp at h2kk
                · have hmono := pdescend_length_le (hs.hash k) kk m 0
                    (peRemove (hs.hash k) S) (by omega)
                  rw [hT2] at hmono
                  simp only [List.length_nil, Nat.le_zero] at hmono
                  omega
            · intro kk e hkdep hsingle
              have heS2 : e ∈ peRemove (hs.hash k) S := by
                have : e ∈ pdescend (hs.hash k) 0 kk (peRemove (hs.hash k) S) := by
                  rw [hsingle]
                  simp
                exact ((mem_pdescend kk 0 _ e).mp this).1
              have heS : e ∈ S := (List.filter_sublist S).mem heS2
              have hserS : (digest_leaf hs e.1 e.2).2 ∈ canonSerials hs (depth hs) 0 S :=
                mem_leaf_serial (depth hs) 0 S hcwf (by omega) e heS
              have hserS2 : (digest_leaf hs e.1 e.2).2 ∈
                  canonSerials hs (depth hs) 0 (peRemove (hs.hash k) S) :=
                mem_leaf_serial (depth hs) 0 _ hcwf2 (by omega) e heS2
              apply hO3 _ (hS2B _ hserS2)
              rw [← hn1]
              exact hsurv _ hserS2 (hrep.present _ hserS)
            · intro kk hkdep s hsm
              have hpsxk : psx (hs.hash k) kk
                  (pdescend (hs.hash k) 0 kk (peRemove (hs.hash k) S)) =
                  psx (hs.hash k) kk (pdescend (hs.hash k) 0 kk S) := by
                have h := psx_peRemove (hs.hash k) kk 0 S
                simpa using h
              have hsS2 : s ∈ canonSerials hs (depth hs) 0 (peRemove (hs.hash k) S) := by
                have := sib_serials_sub kk 0 (peRemove (hs.hash k) S) hcwf2
                  (by omega : 0 + kk < depth hs) s (by simpa using hsm)
                simpa using this
              rw [hpsxk] at hsm
              have hsS : s ∈ canonSerials hs (depth hs) 0 S := by
                have := sib_serials_sub kk 0 S hcwf
                  (by omega : 0 + kk < depth hs) s (by simpa using hsm)
                simpa using this
              apply hO3 _ (hS2B _ hsS2)
              rw [← hn1]
              exact hsurv _ hsS2 (hrep.present _ hsS)
          · intro kv hkv
            rcases hO2 kv hkv with hin | hnew
            · apply hrep.honest
              apply Store.mem_foldl_remove _ t.nodes
              rw [hn1]
              exact hin
            · exact hnew
        · -- the sibling is an inner node: rebuild with a placeholder child
          have hpsxcwf : CWF hs m (psx (hs.hash k) (m-1)
              (pdescend (hs.hash k) 0 (m-1) S)) := by
            have h1 : CWF hs (m-1) (pdescend (hs.hash k) 0 (m-1) S) := by
              have h := pdescend_cwf (p := hs.hash k) (m-1) 0 S hcwf
              simpa using h
            have h2 := psx_cwf (p := hs.hash k) h1
            rw [show m - 1 + 1 = m from by omega] at h2
            exact h2
          have hpsxne : psx (hs.hash k) (m-1) (pdescend (hs.hash k) 0 (m-1) S) ≠ [] := by
            rw [hq]
            simp
          have hmdep : m < depth hs := by
            by_contra hc
            have h := length_le_one_of_depth hpsxcwf (by omega)
            rw [hq] at h
            simp at h
          have hserP : canonS hs (depth hs - m) m
              (psx (hs.hash k) (m-1) (pdescend (hs.hash k) 0 (m-1) S)) ∈
              canonSerials hs (depth hs) 0 S := by
            have h1 := canonS_mem (f := depth hs - m) hpsxcwf (by omega) hpsxne
            have h2 := sib_serials_sub (m-1) 0 S hcwf
              (by omega : 0 + (m-1) < depth hs) _
              (by
                simp only [Nat.zero_add]
                rw [show m - 1 + 1 = m from by omega]
                exact h1)
            simpa using h2
          have hserP2 : canonS hs (depth hs - m) m
              (psx (hs.hash k) (m-1) (pdescend (hs.hash k) 0 (m-1) S)) ∈
              canonSerials hs (depth hs) 0 (peRemove (hs.hash k) S) := by
            have h1 := canonS_mem (f := depth hs - m) hpsxcwf (by omega) hpsxne
            have h2 := sib_serials_sub (m-1) 0 (peRemove (hs.hash k) S) hcwf2
              (by omega : 0 + (m-1) < depth hs) _
              (by
                simp only [Nat.zero_add]
                rw [show m - 1 + 1 = m from by omega, hpsxR]
                exact h1)
            simpa using h2
          have hgetsib : Store.get nodes1 ((sibDigests hs (hs.hash k) m 0 S)[0]) =
              some (canonS hs (depth hs - m) m
                (psx (hs.hash k) (m-1) (pdescend (hs.hash k) 0 (m-1) S))) := by
            rw [hjel, canonD_eq_hash hpsxcwf (by omega) hpsxne]
            rw [← hn1]
            exact hsurv _ hserP2 (hrep.present _ hserP)
          have hil1 : is_leaf (Store.get nodes1
              ((sibDigests hs (hs.hash k) m 0 S)[0])) = some false := by
            rw [hgetsib]
            obtain ⟨f', hf'⟩ : ∃ f', depth hs - m = f' + 1 := ⟨depth hs - m - 1, by omega⟩
            rw [hf', hq, canonS_node]
            exact is_leaf_node_shape hs _ _
          obtain ⟨bitv, hbitv⟩ := get_bit_isSome (hs.hash k) (m - 0 - 1) (by
            rw [hpw.1]
            show m - 0 - 1 < 8 * hs.size
            have hde : depth hs = hs.size * 8 := rfl
            omega)
          have hpbit : pbit (hs.hash k) (m-1) = bitv := by
            unfold pbit
            rw [show m - 1 = m - 0 - 1 from by omega, hbitv]
            rfl
          obtain ⟨hd, hhddef⟩ : ∃ x, (if bitv = RIGHT
              then digest_node hs ((sibDigests hs (hs.hash k) m 0 S)[0]) (placeholder hs)
              else digest_node hs (placeholder hs)
                ((sibDigests hs (hs.hash k) m 0 S)[0])) = x := ⟨_, rfl⟩
          have hstep : remove_go hs (hs.hash k) m (sibDigests hs (hs.hash k) m 0 S) 0
              (([] : Bytes), ([] : Bytes), false) nodes1 =
              remove_go hs (hs.hash k) m ((sibDigests hs (hs.hash k) m 0 S).drop 1) 1
                (hd.1, hd.1, true) (Store.set nodes1 hd.1 hd.2) := by
            conv_lhs => rw [hcons]
            conv_lhs => unfold remove_go
            rw [if_pos (rfl : ([] : Bytes) = [])]
            simp only [hil1]
            rw [if_neg Bool.false_ne_true, if_neg (by simp)]
            simp only [hbitv, hhddef]
          have h2M1'' : 2 ≤ (pdescend (hs.hash k) 0 (m-1)
              (peRemove (hs.hash k) S)).length := by
            rw [hlenM1, hq]
            simp
          have hfM1 : depth hs - (m-1) = (depth hs - (m-1) - 1) + 1 := by omega
          have hdxC : canonD hs (depth hs - (m-1) - 1) ((m-1)+1)
              (pdx (hs.hash k) (m-1)
                (pdescend (hs.hash k) 0 (m-1) (peRemove (hs.hash k) S))) =
              placeholder hs := by
            rw [← hsnocS2, hT2, canonD_nil]
          have hsibC : canonD hs (depth hs - (m-1) - 1) ((m-1)+1)
              (psx (hs.hash k) (m-1)
                (pdescend (hs.hash k) 0 (m-1) (peRemove (hs.hash k) S))) =
              (sibDigests hs (hs.hash k) m 0 S)[0] := by
            rw [hpsxR, hjel]
            rw [show depth hs - (m-1) - 1 = depth hs - m from by omega,
              show m - 1 + 1 = m from by omega]
          have hhd1C : hd.1 = canonD hs (depth hs - (m-1)) (m-1)
              (pdescend (hs.hash k) 0 (m-1) (peRemove (hs.hash k) S)) := by
            rw [hfM1, canonD_node_arr (p := hs.hash k) h2M1'', hpbit, hdxC, hsibC,
              ← hhddef]
          have hhd2C : hd.2 = canonS hs (depth hs - (m-1)) (m-1)
              (pdescend (hs.hash k) 0 (m-1) (peRemove (hs.hash k) S)) := by
            rw [hfM1, canonS_node_arr2 (p := hs.hash k) h2M1'', hpbit, hdxC, hsibC,
              ← hhddef]
            by_cases hb : bitv = RIGHT
            · rw [if_pos hb, if_pos hb]
              rfl
            · rw [if_neg hb, if_neg hb]
              rfl
          have hhd1h : hd.1 = hs.hash hd.2 := by
            rw [← hhddef]
            by_cases hb : bitv = RIGHT
            · rw [if_pos hb]
              rfl
            · rw [if_neg hb]
              rfl
          have hhd2mem : hd.2 ∈ canonSerials hs (depth hs) 0 (peRemove (hs.hash k) S) := by
            have h := canonS_pdescend_mem (p := hs.hash k) (m-1) 0 (peRemove (hs.hash k) S)
              hcwf2 (by omega)
              (fun k' hk' => by
                have := pdescend_length_le (hs.hash k) (m-1) k' 0
                  (peRemove (hs.hash k) S) (by omega)
                omega)
              (by
                intro hc
                rw [hc] at h2M1''
                simp at h2M1'')
              (by omega)
            rw [Nat.zero_add] at h
            rw [hhd2C]
            simpa using h
          have hhd2B : hd.2 ∈ B := hS2B _ hhd2mem
          obtain ⟨nodes2, hres, hO2, hO3, hO4⟩ :=
            remove_go_canon hl hsz hph hinj hpw hcwf hm hcwf2 hS2B (m-1) 1 (by omega)
              hd.1 true (Store.set nodes1 hd.1 hd.2)
              (Or.inr ⟨rfl, h2M1'', hhd1C⟩)
          have hrws : remove_with_side_nodes hs t (hs.hash k)
              (sibDigests hs (hs.hash k) m 0 S)
              (spineDigests hs (hs.hash k) m 0 S ++ [t.root])
              (termData hs (pdescend (hs.hash k) 0 m S)) =
              some (some (canonD hs (depth hs) 0 (peRemove (hs.hash k) S)),
                { t with nodes := nodes2 }) := by
            unfold remove_with_side_nodes
            simp only [hhead, if_neg hP0ne, htd, hpl, if_neg hpne', hn1, sibDigests_length]
            simp only [hstep, hres]
            rw [if_neg hcanne]
          have hufr : update_for_root hs t k DEFAULT_VALUE t.root =
              some (canonD hs (depth hs) 0 (peRemove (hs.hash k) S),
                ⟨nodes2, Store.remove t.values (hs.hash k), t.root⟩) := by
            unfold update_for_root
            simp only [hwalk]
            simp only [hrws]
            simp
          have hupd : remove hs t k = some ⟨nodes2,
              Store.remove t.values (hs.hash k),
              canonD hs (depth hs) 0 (peRemove (hs.hash k) S)⟩ := by
            unfold remove update
            simp only [hufr]
          have hpres1 : ∀ s2 ∈ canonSerials hs (depth hs) 0 (peRemove (hs.hash k) S),
              Store.get t.nodes (hs.hash s2) = some s2 →
              Store.get (Store.set nodes1 hd.1 hd.2) (hs.hash s2) = some s2 := by
            intro s2 hs2 hget
            rw [hhd1h]
            apply get_set_honest hinj (hS2B _ hs2) hhd2B
            rw [← hn1]
            exact hsurv _ hs2 hget
          refine ⟨_, hupd, hcwf2, rfl, hS2B, ?_, ?_⟩
          · apply presence_assemble_remove hcwf2 nodes2
            · intro kk hkdep h2kk
              rcases Nat.lt_or_ge kk (m-1) with hc | hc
              · exact hO4 kk hc h2kk
              · rcases Nat.eq_or_lt_of_le hc with hc2 | hc2
                · rw [← hc2]
                  rw [← hhd2C]
                  apply hO3 _ hhd2B
                  rw [hhd1h, Store.get_set_eq, if_pos rfl]
                · exfalso
                  have hmono := pdescend_length_le (hs.hash k) kk m 0
                    (peRemove (hs.hash k) S) (by omega)
                  rw [hT2] at hmono
                  simp only [List.length_nil, Nat.le_zero] at hmono
                  omega
            · intro kk e hkdep hsingle
              have heS2 : e ∈ peRemove (hs.hash k) S := by
                have : e ∈ pdescend (hs.hash k) 0 kk (peRemove (hs.hash k) S) := by
                  rw [hsingle]
                  simp
                exact ((mem_pdescend kk 0 _ e).mp this).1
              have heS : e ∈ S := (List.filter_sublist S).mem heS2
              have hserS : (digest_leaf hs e.1 e.2).2 ∈ canonSerials hs (depth hs) 0 S :=
                mem_leaf_serial (depth hs) 0 S hcwf (by omega) e heS
              have hserS2 : (digest_leaf hs e.1 e.2).2 ∈
                  canonSerials hs (depth hs) 0 (peRemove (hs.hash k) S) :=
                mem_leaf_serial (depth hs) 0 _ hcwf2 (by omega) e heS2
              apply hO3 _ (hS2B _ hserS2)
              exact hpres1 _ hserS2 (hrep.present _ hserS)
            · intro kk hkdep s hsm
              have hpsxk : psx (hs.hash k) kk
                  (pdescend (hs.hash k) 0 kk (peRemove (hs.hash k) S)) =
                  psx (hs.hash k) kk (pdescend (hs.hash k) 0 kk S) := by
                have h := psx_peRemove (hs.hash k) kk 0 S
                simpa using h
              have hsS2 : s ∈ canonSerials hs (depth hs) 0 (peRemove (hs.hash k) S) := by
                have := sib_serials_sub kk 0 (peRemove (hs.hash k) S) hcwf2
                  (by omega : 0 + kk < depth hs) s (by simpa using hsm)
                simpa using this
              rw [hpsxk] at hsm
              have hsS : s ∈ canonSerials hs (depth hs) 0 S := by
                have := sib_serials_sub kk 0 S hcwf
                  (by omega : 0 + kk < depth hs) s (by simpa using hsm)
                simpa using this
              apply hO3 _ (hS2B _ hsS2)
              exact hpres1 _ hsS2 (hrep.present _ hsS)
          · intro kv hkv
            rcases hO2 kv hkv with hin | hnew
            · rcases Store.mem_set _ _ _ _ hin with rfl | hmem
              · exact ⟨hd.2, hhd2B, hhd1h, rfl⟩
              · apply hrep.honest
                apply Store.mem_foldl_remove _ t.nodes
                rw [hn1]
                exact hmem
            · exact hnew
    · -- a different leaf rests on the spine: the key is absent
      have hnop : ∀ w ∈ S, w.1 ≠ hs.hash k := by
        intro w hw hc
        have hwm : w ∈ pdescend (hs.hash k) 0 m S :=
          (mem_pdescend m 0 S w).mpr ⟨hw, fun j _ _ => by rw [hc]⟩
        rw [hBe] at hwm
        have hwe : w = e0 := by simpa using hwm
        rw [hwe] at hc
        exact he0p hc
      apply hnochange _ hnop
      unfold remove_with_side_nodes
      simp only [hhead, if_neg hP0ne, htd, hpl]
      rw [if_pos (fun hc => he0p hc.symm)]
  · exfalso
    rw [hsh] at hterm1
    simp at hterm1

end RemoveTop

section TopLevel

/-- A fresh tree: empty stores, placeholder root (`SparseMerkleTree::new`). -/
def freshSMT (hs : Hasher) : SMT := ⟨[], [], placeholder hs⟩

/-- Run a sequence of operations through `update`; an empty value means
removal (`remove(k)` is `update(k, DEFAULT_VALUE)`). -/
def treeApply (hs : Hasher) : SMT → List (Bytes × Bytes) → Option SMT
  | t, [] => some t
  | t, op :: ops =>
    match update hs t op.1 op.2 with
    | none => none
    | some t2 => treeApply hs t2 ops

/-- One operation on the abstract collection of `(H(key), H(value))` entries. -/
def absStep (hs : Hasher) (S : PE) (op : Bytes × Bytes) : PE :=
  if op.2 = DEFAULT_VALUE then peRemove (hs.hash op.1) S
  else peInsert (hs.hash op.1) (hs.hash op.2) S

/-- The abstract collection after a sequence of operations on a fresh tree. -/
def absApply (hs : Hasher) (ops : List (Bytes × Bytes)) : PE :=
  ops.foldl (absStep hs) []

/-- Canonical serializations of every intermediate abstract state of a run. -/
def allSerials (hs : Hasher) : PE → List (Bytes × Bytes) → List Bytes
  | S, [] => canonSerials hs (depth hs) 0 S
  | S, op :: ops => canonSerials hs (depth hs) 0 S ++ allSerials hs (absStep hs S op) ops

theorem allSerials_self {hs : Hasher} :
    ∀ (ops : List (Bytes × Bytes)) (S : PE) s, s ∈ canonSerials hs (depth hs) 0 S →
      s ∈ allSerials hs S ops := by
  intro ops
  cases ops with
  | nil =>
    intro S s h
    exact h
  | cons op ops' =>
    intro S s h
    exact List.mem_append.mpr (Or.inl h)

theorem repInv_fresh {hs : Hasher} {B : List Bytes} : RepInv hs B (freshSMT hs) [] := by
  refine ⟨⟨?_, List.Pairwise.nil, ?_⟩, ?_, ?_, ?_, ?_⟩
  · intro e he
    exact absurd he (List.not_mem_nil e)
  · intro e1 h1
    exact absurd h1 (List.not_mem_nil e1)
  · show placeholder hs = _
    rw [canonD_nil]
  · intro s hsm
    rw [canonSerials_nil] at hsm
    exact absurd hsm (List.not_mem_nil s)
  · intro s hsm
    rw [canonSerials_nil] at hsm
    exact absurd hsm (List.not_mem_nil s)
  · intro kv hkv
    exact absurd hkv (List.not_mem_nil kv)

/-- Running a sequence of operations preserves the representation invariant
and lands on the canonical tree of the folded abstract collection. -/
theorem treeApply_canon {hs : Hasher} {B : List Bytes}
    (hl : HashLen hs) (hsz : 0 < hs.size) (hhb : HashBytes hs)
    (hph : PhFree hs B) (hinj : InjOnB hs B) :
    ∀ (ops : List (Bytes × Bytes)) {t : SMT} {S : PE}, RepInv hs B t S →
      (∀ s ∈ allSerials hs S ops, s ∈ B) →
      ∃ t2, treeApply hs t ops = some t2 ∧
        RepInv hs B t2 (ops.foldl (absStep hs) S) := by
  intro ops
  induction ops with
  | nil =>
    intro t S hrep _
    exact ⟨t, rfl, hrep⟩
  | cons op ops' ih =>
    intro t S hrep hB
    obtain ⟨k, v⟩ := op
    by_cases hv : v = DEFAULT_VALUE
    · subst hv
      have habs : absStep hs S (k, DEFAULT_VALUE) = peRemove (hs.hash k) S := by
        unfold absStep
        rw [if_pos rfl]
      obtain ⟨t2, hupd, hrep2⟩ := update_remove_canon hl hsz hhb hph hinj hrep k
        (fun s h => hB s (List.mem_append.mpr (Or.inr
          (allSerials_self ops' _ s (by rw [habs]; exact h)))))
      have hrep2' : RepInv hs B t2 (absStep hs S (k, DEFAULT_VALUE)) := by
        rw [habs]
        exact hrep2
      obtain ⟨t3, happ, hrep3⟩ := ih hrep2'
        (fun s h => hB s (List.mem_append.mpr (Or.inr h)))
      refine ⟨t3, ?_, hrep3⟩
      show (match update hs t k DEFAULT_VALUE with
        | none => none
        | some t2 => treeApply hs t2 ops') = some t3
      rw [show update hs t k DEFAULT_VALUE = some t2 from hupd]
      exact happ
    · have habs : absStep hs S (k, v) = peInsert (hs.hash k) (hs.hash v) S := by
        unfold absStep
        rw [if_neg hv]
      obtain ⟨t2, hupd, hrep2⟩ := update_insert_canon hl hsz hhb hph hinj hrep k v hv
        (fun s h => hB s (List.mem_append.mpr (Or.inr
          (allSerials_self ops' _ s (by rw [habs]; exact h)))))
      have hrep2' : RepInv hs B t2 (absStep hs S (k, v)) := by
        rw [habs]
        exact hrep2
      obtain ⟨t3, happ, hrep3⟩ := ih hrep2'
        (fun s h => hB s (List.mem_append.mpr (Or.inr h)))
      refine ⟨t3, ?_, hrep3⟩
      show (match update hs t k v with
        | none => none
        | some t2 => treeApply hs t2 ops') = some t3
      rw [hupd]
      exact happ

/-- One operation on the key-level mapping: bind or unbind the raw key. -/
def kvStep (M : List (Bytes × Bytes)) (op : Bytes × Bytes) : List (Bytes × Bytes) :=
  if op.2 = DEFAULT_VALUE then M.filter (fun e => decide (e.1 ≠ op.1))
  else (op.1, op.2) :: M.filter (fun e => decide (e.1 ≠ op.1))

/-- The final mapping from keys to non-empty values after a run. -/
def kvApply (ops : List (Bytes × Bytes)) : List (Bytes × Bytes) :=
  ops.foldl kvStep []

/-- Hash an entry of the key-level mapping into an abstract tree entry. -/
def hashEntry (hs : Hasher) (e : Bytes × Bytes) : Bytes × Bytes :=
  (hs.hash e.1, hs.hash e.2)

theorem absApply_eq_map {hs : Hasher} {keys : List Bytes}
    (hkinj : ∀ k1 ∈ keys, ∀ k2 ∈ keys, hs.hash k1 = hs.hash k2 → k1 = k2) :
    ∀ (ops : List (Bytes × Bytes)) (M : List (Bytes × Bytes)),
      (∀ op ∈ ops, op.1 ∈ keys) → (∀ e ∈ M, e.1 ∈ keys) →
      ops.foldl (absStep hs) (M.map (hashEntry hs)) =
        (ops.foldl kvStep M).map (hashEntry hs) := by
  intro ops
  induction ops with
  | nil =>
    intro M _ _
    rfl
  | cons op ops' ih =>
    intro M hops hM
    have hfil : (M.map (hashEntry hs)).filter
        (fun e => decide (e.1 ≠ hs.hash op.1)) =
        (M.filter (fun e => decide (e.1 ≠ op.1))).map (hashEntry hs) := by
      induction M with
      | nil => rfl
      | cons e r ihM =>
        have hek : e.1 ∈ keys := hM e (by simp)
        have hok : op.1 ∈ keys := hops op (by simp)
        have hiff : (hs.hash e.1 ≠ hs.hash op.1) ↔ (e.1 ≠ op.1) := by
          constructor
          · intro h hc
            exact h (by rw [hc])
          · intro h hc
            exact h (hkinj e.1 hek op.1 hok hc)
        rw [List.map_cons, List.filter_cons, List.filter_cons]
        by_cases hc : e.1 = op.1
        · rw [if_neg (by simp [hashEntry, hc]), if_neg (by simp [hc])]
          exact ihM (fun e2 h2 => hM e2 (by simp [h2]))
        · rw [if_pos (by simp only [hashEntry]; simpa using hiff.mpr hc),
            if_pos (by simpa using hc)]
          rw [List.map_cons]
          rw [ihM (fun e2 h2 => hM e2 (by simp [h2]))]
    have hstep : absStep hs (M.map (hashEntry hs)) op =
        (kvStep M op).map (hashEntry hs) := by
      unfold absStep kvStep
      by_cases hd : op.2 = DEFAULT_VALUE
      · rw [if_pos hd, if_pos hd]
        unfold peRemove
        exact hfil
      · rw [if_neg hd, if_neg hd]
        unfold peInsert
        rw [List.map_cons]
        rw [hfil]
        rfl
    show ops'.foldl (absStep hs) (absStep hs (M.map (hashEntry hs)) op) = _
    rw [hstep]
    exact ih (kvStep M op) (fun op2 h2 => hops op2 (by simp [h2]))
      (fun e he => by
        unfold kvStep at he
        by_cases hd : op.2 = DEFAULT_VALUE
        · rw [if_pos hd] at he
          exact hM e ((List.filter_sublist M).mem he)
        · rw [if_neg hd] at he
          rcases List.mem_cons.mp he with rfl | he2
          · exact hops op (by simp)
          · exact hM e ((List.filter_sublist M).mem he2))

end TopLevel

section ClaimC2

theorem toy_hashBytes : HashBytes toy := by
  intro d b hb
  have hm : b ∈ toyHash d := hb
  unfold toyHash at hm
  by_cases hc : d.length = 2 ∧ d.head? = some 99
  · rw [if_pos hc] at hm
    simp only [List.mem_singleton] at hm
    omega
  · rw [if_neg hc] at hm
    simp only [List.mem_singleton] at hm
    omega

/-- C2: History independence of the root. For any two sequences of
update/remove operations run from a fresh tree (an operation carrying the
empty value is a removal, since the source `remove` is `update` with
`DEFAULT_VALUE`), if the two runs produce the same final mapping from keys
to non-empty values (`kvApply`, compared up to permutation — so operation
order and intermediate states are irrelevant), then both runs succeed and
the final roots are byte-identical. The hash is idealized over exactly the
data the two executions touch: fixed digest length, byte-valued digests,
no collision among the node serializations of any intermediate state of
either run, none of those serializations hashing to the placeholder, and
no collision among the operation keys. -/
theorem C2_history_independence (hs : Hasher) (ops1 ops2 : List (Bytes × Bytes))
    (hl : HashLen hs) (hsz : 0 < hs.size) (hhb : HashBytes hs)
    (hinj : InjOnB hs (allSerials hs [] ops1 ++ allSerials hs [] ops2))
    (hph : PhFree hs (allSerials hs [] ops1 ++ allSerials hs [] ops2))
    (hkinj : ∀ k1 ∈ (ops1 ++ ops2).map Prod.fst, ∀ k2 ∈ (ops1 ++ ops2).map Prod.fst,
      hs.hash k1 = hs.hash k2 → k1 = k2)
    (hperm : (kvApply ops1).Perm (kvApply ops2)) :
    ∃ t1 t2, treeApply hs (freshSMT hs) ops1 = some t1 ∧
      treeApply hs (freshSMT hs) ops2 = some t2 ∧ t1.root = t2.root := by
  obtain ⟨t1, h1, hrep1⟩ := treeApply_canon hl hsz hhb hph hinj ops1 repInv_fresh
    (fun s h => List.mem_append.mpr (Or.inl h))
  obtain ⟨t2, h2, hrep2⟩ := treeApply_canon hl hsz hhb hph hinj ops2 repInv_fresh
    (fun s h => List.mem_append.mpr (Or.inr h))
  refine ⟨t1, t2, h1, h2, ?_⟩
  rw [hrep1.root, hrep2.root]
  have hm1 : ops1.foldl (absStep hs) [] = (kvApply ops1).map (hashEntry hs) := by
    have hq := absApply_eq_map hkinj ops1 []
      (fun op h => List.mem_map.mpr ⟨op, List.mem_append.mpr (Or.inl h), rfl⟩)
      (fun e he => absurd he (List.not_mem_nil e))
    simpa using hq
  have hm2 : ops2.foldl (absStep hs) [] = (kvApply ops2).map (hashEntry hs) := by
    have hq := absApply_eq_map hkinj ops2 []
      (fun op h => List.mem_map.mpr ⟨op, List.mem_append.mpr (Or.inr h), rfl⟩)
      (fun e he => absurd he (List.not_mem_nil e))
    simpa using hq
  rw [hm1, hm2]
  exact canonD_perm (depth hs) 0 _ _ (hperm.map (hashEntry hs))

/-- C2, witness: over the toy hasher, a run inserting keys `[99,0]`,
`[99,128]`, `[99,7]` and then removing `[99,7]` reaches the same root as a
reordered run with a different transient value for the removed key. -/
theorem C2_w : ∃ t1 t2,
    treeApply toy (freshSMT toy)
      [([99, 0], [1]), ([99, 128], [2]), ([99, 7], [3]), ([99, 7], [])] = some t1 ∧
    treeApply toy (freshSMT toy)
      [([99, 7], [9]), ([99, 128], [2]), ([99, 7], []), ([99, 0], [1])] = some t2 ∧
    t1.root = t2.root :=
  C2_history_independence toy
    [([99, 0], [1]), ([99, 128], [2]), ([99, 7], [3]), ([99, 7], [])]
    [([99, 7], [9]), ([99, 128], [2]), ([99, 7], []), ([99, 0], [1])]
    toy_hashLen (by decide) toy_hashBytes
    (by unfold InjOnB; decide) (by unfold PhFree; decide) (by decide) (by decide)

end ClaimC2
